import Mathlib

/-!
# image_convolution: the `task` package

A shallow embedding of `src/editor/task/task.go`.

Conventions of the embedding
* a `uint8` is a `Nat` (a stored byte is `< 256`), a `uint32` is a `Nat`, Go's `int` is an `Int`;
  every narrowing conversion `uint8(e)` is written with an explicit `% 256`;
* a Go `string` is a Lean `String` (the manifest is taken to be valid UTF-8);
* a nil pointer is `none`; a run-time panic (nil dereference, index out of range) is the
  result `none` of an `Option`-valued function;
* Go's `image.RGBA` is modelled by its bounds and the colour stored at every point:
  `At` gives the zero colour outside the bounds and `Set` does nothing there.
-/

namespace Editor

/-! ## Go's `image` and `image/color` -/

/-- Conversion `uint8(e)` of an `int`: the low eight bits. -/
def uint8 (n : Int) : Nat := (n % 256).toNat

/-- Type `color.RGBA`: four 8-bit components. -/
structure Color where
  R : Nat
  G : Nat
  B : Nat
  A : Nat
deriving DecidableEq, Repr

/-- A colour whose four components are bytes. -/
def Color.isBytes (c : Color) : Prop := c.R < 256 ∧ c.G < 256 ∧ c.B < 256 ∧ c.A < 256

instance (c : Color) : Decidable c.isBytes := by
  unfold Color.isBytes; infer_instance

/-- One component of `color.RGBA.RGBA()`: `r = uint32(c.R); r |= r << 8`. -/
def expand16 (v : Nat) : Nat := (v ||| (v <<< 8)) % 2 ^ 32

/-- Method `color.RGBA.RGBA()`: the four components as 16-bit values held in `uint32`s. -/
def Color.RGBA (c : Color) : Nat × Nat × Nat × Nat :=
  (expand16 c.R, expand16 c.G, expand16 c.B, expand16 c.A)

/-- Type `image.Point`. -/
structure Point where
  X : Int
  Y : Int
deriving DecidableEq, Repr

/-- Type `image.Rectangle`: the points with `Min.X ≤ x < Max.X` and `Min.Y ≤ y < Max.Y`. -/
structure Rectangle where
  Min : Point
  Max : Point
deriving DecidableEq, Repr

/-- Method `image.Point.In`. -/
def Point.In (p : Point) (r : Rectangle) : Bool :=
  decide (r.Min.X ≤ p.X) && decide (p.X < r.Max.X) &&
    decide (r.Min.Y ≤ p.Y) && decide (p.Y < r.Max.Y)

/-- Type `image.RGBA`: the bounds and the colour stored at each point. -/
structure RGBA where
  Rect : Rectangle
  Pix : Int → Int → Color

/-- Function `image.NewRGBA`: every pixel is the zero colour. -/
def NewRGBA (r : Rectangle) : RGBA := ⟨r, fun _ _ => ⟨0, 0, 0, 0⟩⟩

/-- Method `(*image.RGBA).Bounds`. -/
def RGBA.Bounds (p : RGBA) : Rectangle := p.Rect

/-- Method `(*image.RGBA).At`: the zero colour outside the bounds. -/
def RGBA.At (p : RGBA) (x y : Int) : Color :=
  if Point.In ⟨x, y⟩ p.Rect then p.Pix x y else ⟨0, 0, 0, 0⟩

/-- Method `(*image.RGBA).Set`: no effect outside the bounds. -/
def RGBA.Set (p : RGBA) (x y : Int) (c : Color) : RGBA :=
  if Point.In ⟨x, y⟩ p.Rect then
    ⟨p.Rect, fun a b => if a = x ∧ b = y then c else p.Pix a b⟩
  else p

/-- Every stored pixel of the image is made of bytes. -/
def RGBA.isBytes (p : RGBA) : Prop := ∀ x y, (p.Pix x y).isBytes

/-- Loop `for i := lo; i < hi; i++ { body }` over a state, stopping at the first panic. -/
def forRange {σ : Type} (lo hi : Int) (body : Int → σ → Option σ) (s : σ) : Option σ :=
  (List.range (hi - lo).toNat).foldlM (fun s (k : Nat) => body (lo + (k : Int)) s) s

/-! ## The task package -/

/-- Struct `layers`: the source image and the four colour layers (all pointers, nil at first). -/
structure layers where
  img : Option RGBA
  rimg : Option RGBA
  gimg : Option RGBA
  bimg : Option RGBA
  aimg : Option RGBA

/-- Struct `task`: one effect for one colour of one image. The pointer fields
`getImg`, `lrs`, `counter` and `ctx` point to the state shared by the tasks of one
manifest line, which is the `canvas` below. -/
structure task where
  file_in : String
  file_out : String
  effect : String
  color : String
deriving DecidableEq, Repr

/-- The state shared through the pointers of the tasks of one manifest line. -/
structure canvas where
  getImg : Bool
  lrs : layers
  counter : Int

/-- Function `initLayers`: blank layers of the same bounds as the source image
(a nil source image panics on `Bounds`). -/
def initLayers (t : layers) : Option layers :=
  match t.img with
  | none => none
  | some data =>
    let b := data.Bounds
    some { t with rimg := some (NewRGBA b), gimg := some (NewRGBA b),
                  bimg := some (NewRGBA b), aimg := some (NewRGBA b) }

/-- Body of the two loops of `flatten`, for the pixel `(i, j)`. -/
def flattenPixel (t : layers) (i j : Int) (new_image : RGBA) : Option RGBA := do
  let rimg ← t.rimg
  let r := (rimg.At i j).RGBA.1
  let gimg ← t.gimg
  let g := (gimg.At i j).RGBA.2.1
  let bimg ← t.bimg
  let b := (bimg.At i j).RGBA.2.2.1
  let aimg ← t.aimg
  let a := (aimg.At i j).RGBA.2.2.2
  pure (new_image.Set i j ⟨r % 256, g % 256, b % 256, a % 256⟩)

/-- Function `flatten`: combines the colour data of the four layers into a new image. -/
def flatten (t : layers) : Option RGBA :=
  match t.img with
  | none => none
  | some data =>
    let b := data.Bounds
    let new_image := NewRGBA b
    let minX := b.Min.X
    let minY := b.Min.Y
    let maxX := b.Max.X
    let maxY := b.Max.Y
    forRange minX maxX (fun i im => forRange minY maxY (fun j im => flattenPixel t i j im) im)
      new_image

/-- The two kernel loops of `change`: `temp += int(vs[k]) * K[i][j]; k++` over the
rows of the kernel, from `temp = 0`, `k = 0`; `none` when `vs[k]` is out of range. -/
def kernelLoop (K : List (List Int)) (vs : List Nat) : Option (Int × Nat) :=
  K.foldlM (fun st row =>
    row.foldlM (fun (st : Int × Nat) w => do
      let v ← vs[st.2]?
      pure (st.1 + (v : Int) * w, st.2 + 1)) st) (0, 0)

/-- The clamp of `change`: `if temp < 0 { temp = 0 } else if temp > 255 { temp = 255 }`. -/
def clamp (temp : Int) : Int :=
  if temp < 0 then 0 else if temp > 255 then 255 else temp

/-- Function `change`: the effect on the 3 by 3 matrix `vs`; `none` is an index out of range. -/
def change (effect : String) (vs : List Nat) : Option Nat :=
  let S : List (List Int) := [[0, -1, 0], [-1, 5, -1], [0, -1, 0]]
  let E : List (List Int) := [[-1, -1, -1], [-1, 8, -1], [-1, -1, -1]]
  if effect = "B" then do
    let v0 : Nat ← vs[0]?
    let v1 : Nat ← vs[1]?
    let v2 : Nat ← vs[2]?
    let v3 : Nat ← vs[3]?
    let v4 : Nat ← vs[4]?
    let v5 : Nat ← vs[5]?
    let v6 : Nat ← vs[6]?
    let v7 : Nat ← vs[7]?
    let v8 : Nat ← vs[8]?
    let t : Int := Int.tdiv ((v0 : Int) + (v1 : Int) + (v2 : Int) + (v3 : Int) + (v4 : Int)
      + (v5 : Int) + (v6 : Int) + (v7 : Int) + (v8 : Int)) 9
    if t > 255 then pure 255 else pure (uint8 t)
  else if effect = "E" then do
    let st ← kernelLoop E vs
    pure (uint8 (clamp st.1))
  else if effect = "S" then do
    let st ← kernelLoop S vs
    pure (uint8 (clamp st.1))
  else pure 0

/-- Function `conform`: the colour `clr` of the pixel `(x, y)` of the source image,
0 if out of bounds. The image pointer has been dereferenced by the caller. -/
def conform (data : RGBA) (clr : String) (x y minX maxX minY maxY : Int) : Nat :=
  let p8 : Nat :=
    if clr = "R" then (data.At x y).RGBA.1 % 256
    else if clr = "G" then (data.At x y).RGBA.2.1 % 256
    else if clr = "B" then (data.At x y).RGBA.2.2.1 % 256
    else if clr = "A" then 0 -- the case "A" sets `p` only, `p8` keeps its zero value
    else 0
  if x < minX ∨ x > maxX ∨ y < minY ∨ y > maxY then 0 else p8

/-- The loops of `convolute` that gather the 9 surrounding values of `(i, j)`:
`k` (rows) outside, `l` (columns) inside, each from -1 to 1. -/
def neighbours (data : RGBA) (clr : String) (i j minX maxX minY maxY : Int) : List Nat :=
  ([-1, 0, 1] : List Int).foldl (fun vs k =>
    ([-1, 0, 1] : List Int).foldl (fun vs l =>
      vs ++ [conform data clr (i + l) (j + k) minX maxX minY maxY]) vs) []

/-- Body of the two pixel loops of `convolute`, for the pixel `(i, j)`. -/
def convolutePixel (data : RGBA) (effect clr : String) (minX maxX minY maxY i j : Int)
    (t : layers) : Option layers :=
  if effect = "G" then
    let r := conform data "R" i j minX maxX minY maxY
    let g := conform data "G" i j minX maxX minY maxY
    let b := conform data "B" i j minX maxX minY maxY
    let avg : Int := Int.tdiv ((r : Int) + (g : Int) + (b : Int)) 3
    if clr = "R" then do
      let rimg ← t.rimg
      pure { t with rimg := some (rimg.Set i j ⟨uint8 avg, 0, 0, 0⟩) }
    else if clr = "G" then do
      let gimg ← t.gimg
      pure { t with gimg := some (gimg.Set i j ⟨0, uint8 avg, 0, 0⟩) }
    else if clr = "B" then do
      let bimg ← t.bimg
      pure { t with bimg := some (bimg.Set i j ⟨0, 0, uint8 avg, 0⟩) }
    else if clr = "A" then do
      let aimg ← t.aimg
      pure { t with aimg := some (aimg.Set i j ⟨0, 0, 0, 255⟩) }
    else pure t
  else
    let vs := neighbours data clr i j minX maxX minY maxY
    if clr = "R" then do
      let r ← change effect vs
      let rimg ← t.rimg
      pure { t with rimg := some (rimg.Set i j ⟨r, 0, 0, 0⟩) }
    else if clr = "G" then do
      let g ← change effect vs
      let gimg ← t.gimg
      pure { t with gimg := some (gimg.Set i j ⟨0, g, 0, 0⟩) }
    else if clr = "B" then do
      let b ← change effect vs
      let bimg ← t.bimg
      pure { t with bimg := some (bimg.Set i j ⟨0, 0, b, 0⟩) }
    else if clr = "A" then do
      let aimg ← t.aimg
      pure { t with aimg := some (aimg.Set i j ⟨0, 0, 0, 255⟩) }
    else pure t

/-- Function `convolute`: for each pixel in the bounds of the source image, computes
the effect for the colour `clr` and stores it in the layer of that colour. -/
def convolute (t : layers) (effect clr : String) : Option layers :=
  match t.img with
  | none => none
  | some data =>
    let b := data.Bounds
    let minX := b.Min.X
    let minY := b.Min.Y
    let maxX := b.Max.X
    let maxY := b.Max.Y
    forRange minX maxX (fun i t =>
      forRange minY maxY (fun j t => convolutePixel data effect clr minX maxX minY maxY i j t) t) t

/-- Function `unicode.IsSpace` of Go. -/
def IsSpace (r : Char) : Bool :=
  let n := r.toNat
  if n ≤ 0xFF then
    n = 0x09 || n = 0x0A || n = 0x0B || n = 0x0C || n = 0x0D || n = 0x20 || n = 0x85 || n = 0xA0
  else
    n = 0x1680 || (0x2000 ≤ n && n ≤ 0x200A) || n = 0x2028 || n = 0x2029 || n = 0x202F
      || n = 0x205F || n = 0x3000

/-- Function `strings.TrimSpace` of Go: leading and trailing white space removed. -/
def TrimSpace (s : String) : String :=
  ⟨((s.data.dropWhile IsSpace).reverse.dropWhile IsSpace).reverse⟩

/-- The fields of a list of characters between the occurrences of `sep`. -/
def splitChars (sep : Char) : List Char → List (List Char)
  | [] => [[]]
  | c :: cs =>
    if c = sep then [] :: splitChars sep cs
    else
      match splitChars sep cs with
      | [] => [[c]]
      | f :: fs => (c :: f) :: fs

/-- Function `strings.Split` of Go for a separator of one character. -/
def Split (s : String) (sep : Char) : List String :=
  (splitChars sep s.data).map String.mk

/-- Function `newTask`: a new task from its parameters (the pointers are the shared state). -/
def newTask (file_in file_out fx clr : String) : task := ⟨file_in, file_out, fx, clr⟩

/-- The variables that the loop of `newTasks` changes. -/
structure newTasksState where
  row : List String
  ops : Int
  tempTasks : List task

/-- Body of the loop `for i := 0; i < len(row); i++` of `newTasks`. `Join` is
`filepath.Join`. -/
def newTasksStep (Join : String → String → String) (path : String) (colors : List String)
    (st : newTasksState) (i : Nat) : newTasksState :=
  let row := st.row.set i (TrimSpace (st.row.getD i ""))
  -- first two columns are filenames, so we add the path
  let row := if i < 2 then row.set i (Join path (row.getD i "")) else row
  -- column two and above are effects to process
  if i > 1 then
    colors.foldl (fun (st : newTasksState) clr =>
      { st with
        ops := st.ops + 1
        tempTasks := st.tempTasks ++
          [newTask (st.row.getD 0 "") (st.row.getD 1 "") (st.row.getD i "") clr] })
      { st with row := row }
  else { st with row := row }

/-- Function `newTasks`: the tasks fed into the pipeline for a manifest line, in order,
and the state they share at that moment. `Join` is `filepath.Join`. -/
def newTasks (Join : String → String → String) (line path : String) : List task × canvas :=
  let row := Split line ','
  let colors := ["R", "G", "B", "A"]
  let st := (List.range row.length).foldl (newTasksStep Join path colors) ⟨row, 0, []⟩
  (st.tempTasks, ⟨true, ⟨none, none, none, none, none⟩, st.ops⟩)

/-- Struct `task_out`: a task for the output queue. -/
structure task_out where
  file_out : String
  data : RGBA

/-- One iteration of the loop of `Process`, for the task `t` taken from the channel:
the new shared state and the `task_out` pushed to the output channel, if any.
`copyImg` is the decoder of the source file (nil when the file cannot be read). -/
def processTask (copyImg : String → Option RGBA) (t : task) (cv : canvas) :
    Option (canvas × Option task_out) := do
  -- copy image and initialize layers if get image is set to true
  let cv ← (if cv.getImg then do
      let lrs ← initLayers { cv.lrs with img := copyImg t.file_in }
      pure { cv with lrs := lrs, getImg := false }
    else pure cv)
  -- process convolution for tasks
  let lrs ← convolute cv.lrs t.effect t.color
  -- decrement operations counter
  let cv := { cv with lrs := lrs, counter := cv.counter - 1 }
  let ops_left := cv.counter
  -- if 0 operations left for image, then push to output channel
  if ops_left = 0 then do
    let data ← flatten cv.lrs
    pure (cv, some ⟨t.file_out, data⟩)
  else pure (cv, none)

/-- The loop `for t := range tasks` of `Process`, from a shared state and the
`task_out`s pushed so far. -/
def processLoop (copyImg : String → Option RGBA) (tasks : List task)
    (st : canvas × List task_out) : Option (canvas × List task_out) :=
  tasks.foldlM (fun (st : canvas × List task_out) t => do
    let r ← processTask copyImg t st.1
    pure (r.1, st.2 ++ r.2.toList)) st

/-- Function `Process` run by a single worker on the tasks of one manifest line, in the
order in which they are taken from the channel: the final shared state and the
`task_out`s pushed to the output channel, in order. -/
def Process (copyImg : String → Option RGBA) (tasks : List task) (cv : canvas) :
    Option (canvas × List task_out) :=
  processLoop copyImg tasks (cv, [])

/-! ## Auxiliary definitions of the proofs -/

/-- The image `p` with `f x y` stored at the points of its bounds selected by `sel`. -/
def RGBA.fillWhere (p : RGBA) (sel : Int → Int → Bool) (f : Int → Int → Color) : RGBA :=
  ⟨p.Rect, fun x y => if sel x y && Point.In ⟨x, y⟩ p.Rect then f x y else p.Pix x y⟩

/-- The image `p` with `f x y` stored at the points of its bounds that lie in `r`. -/
def RGBA.fill (p : RGBA) (r : Rectangle) (f : Int → Int → Color) : RGBA :=
  p.fillWhere (fun x y => Point.In ⟨x, y⟩ r) f

/-- The layer of the colour `clr` (the A layer for any other string). -/
def layers.layer (t : layers) (clr : String) : Option RGBA :=
  if clr = "R" then t.rimg else if clr = "G" then t.gimg
  else if clr = "B" then t.bimg else t.aimg

/-- The layers with the layer of the colour `clr` replaced by `b`. -/
def layers.setLayer (t : layers) (clr : String) (b : RGBA) : layers :=
  if clr = "R" then { t with rimg := some b } else if clr = "G" then { t with gimg := some b }
  else if clr = "B" then { t with bimg := some b } else { t with aimg := some b }

/-- The colour that `convolutePixel` passes to `Set` for the pixel `(i, j)`, for a
colour `clr` among R, G, B, A (0 stands for a result of `change` that is a panic). -/
def written (data : RGBA) (effect clr : String) (i j : Int) : Color :=
  let b := data.Bounds
  if effect = "G" then
    let r := conform data "R" i j b.Min.X b.Max.X b.Min.Y b.Max.Y
    let g := conform data "G" i j b.Min.X b.Max.X b.Min.Y b.Max.Y
    let bl := conform data "B" i j b.Min.X b.Max.X b.Min.Y b.Max.Y
    let avg : Int := Int.tdiv ((r : Int) + (g : Int) + (bl : Int)) 3
    if clr = "R" then ⟨uint8 avg, 0, 0, 0⟩ else if clr = "G" then ⟨0, uint8 avg, 0, 0⟩
    else if clr = "B" then ⟨0, 0, uint8 avg, 0⟩ else ⟨0, 0, 0, 255⟩
  else
    let v := (change effect (neighbours data clr i j b.Min.X b.Max.X b.Min.Y b.Max.Y)).getD 0
    if clr = "R" then ⟨v, 0, 0, 0⟩ else if clr = "G" then ⟨0, v, 0, 0⟩
    else if clr = "B" then ⟨0, 0, v, 0⟩ else ⟨0, 0, 0, 255⟩

/-- The effect of the last task of the list that has the colour `clr`, if any. -/
def lastEffect (clr : String) (us : List task) : Option String :=
  (us.reverse.find? (fun u => decide (u.color = clr))).map (fun u => u.effect)

/-- The layer of the colour `clr` (among R, G, B, A) after `convolute` has run for the
tasks `us` in order, from the layer `b`: only the last task of that colour counts. -/
def layerAfter (data b : RGBA) (clr : String) (us : List task) : RGBA :=
  match lastEffect clr us with
  | none => b
  | some e => b.fill data.Bounds (written data e clr)

/-- The four layers after `convolute` has run for the tasks `us` in order, from blank layers. -/
def layersAfter (data : RGBA) (us : List task) : layers :=
  ⟨some data, some (layerAfter data (NewRGBA data.Bounds) "R" us),
    some (layerAfter data (NewRGBA data.Bounds) "G" us),
    some (layerAfter data (NewRGBA data.Bounds) "B" us),
    some (layerAfter data (NewRGBA data.Bounds) "A" us)⟩

/-- The flattened image after `convolute` has run for the tasks `us` in order, from blank
layers. -/
def flatAfter (data : RGBA) (us : List task) : RGBA :=
  (NewRGBA data.Bounds).fill data.Bounds (fun i j =>
    ⟨((layerAfter data (NewRGBA data.Bounds) "R" us).At i j).RGBA.1 % 256,
     ((layerAfter data (NewRGBA data.Bounds) "G" us).At i j).RGBA.2.1 % 256,
     ((layerAfter data (NewRGBA data.Bounds) "B" us).At i j).RGBA.2.2.1 % 256,
     ((layerAfter data (NewRGBA data.Bounds) "A" us).At i j).RGBA.2.2.2 % 256⟩)

/-- The shared state that `newTasks` creates: no image yet, nil layers, `ops` operations. -/
def freshCanvas (ops : Int) : canvas := ⟨true, ⟨none, none, none, none, none⟩, ops⟩

/-- A `filepath.Join` for the examples. -/
def sampleJoin : String → String → String := fun p f => p ++ "/" ++ f

/-- The colour at `(x, y)` of each pushed image, when the worker does not panic. -/
def pushedAt (r : Option (canvas × List task_out)) (x y : Int) : Option (List Color) :=
  r.map (fun st => st.2.map (fun o => o.data.At x y))

/-- The field `j` of the row once the loop of `newTasks` has passed it: trimmed, and
joined to the path for the two file names. -/
def processedField (Join : String → String → String) (path : String) (row : List String)
    (j : Nat) : String :=
  if j < 2 then Join path (TrimSpace (row.getD j "")) else TrimSpace (row.getD j "")

/-- The tasks for the first `m` effect columns of the split line `row`: for each column
in order, one task per colour in the order R, G, B, A. -/
def emitted (Join : String → String → String) (path : String) (row : List String)
    (m : Nat) : List task :=
  (List.range m).flatMap (fun p =>
    [newTask (processedField Join path row 0) (processedField Join path row 1)
        (TrimSpace (row.getD (p + 2) "")) "R",
     newTask (processedField Join path row 0) (processedField Join path row 1)
        (TrimSpace (row.getD (p + 2) "")) "G",
     newTask (processedField Join path row 0) (processedField Join path row 1)
        (TrimSpace (row.getD (p + 2) "")) "B",
     newTask (processedField Join path row 0) (processedField Join path row 1)
        (TrimSpace (row.getD (p + 2) "")) "A"])

/-- A 2 by 2 image with four different opaque and translucent pixels. -/
def sampleImage : RGBA :=
  ⟨⟨⟨0, 0⟩, ⟨2, 2⟩⟩, fun x y =>
    if x = 0 ∧ y = 0 then ⟨10, 20, 30, 40⟩
    else if x = 1 ∧ y = 0 then ⟨50, 60, 70, 80⟩
    else if x = 0 ∧ y = 1 then ⟨90, 100, 110, 120⟩
    else if x = 1 ∧ y = 1 then ⟨130, 140, 150, 160⟩
    else ⟨0, 0, 0, 0⟩⟩

/-- A decoder that yields the sample image for every file. -/
def sampleCopyImg : String → Option RGBA := fun _ => some sampleImage

/-- An image of one pixel, (10,20,30) with alpha 10. -/
def onePixelImage : RGBA := ⟨⟨⟨0, 0⟩, ⟨1, 1⟩⟩, fun _ _ => ⟨10, 20, 30, 10⟩⟩

/-- The sum of `f` over the 3 by 3 neighbourhood of `(i, j)`, in the order of the sample
list of `convolute`. -/
def sum9 (f : Int → Int → Nat) (i j : Int) : Nat :=
  f (i + -1) (j + -1) + f (i + 0) (j + -1) + f (i + 1) (j + -1)
    + f (i + -1) (j + 0) + f (i + 0) (j + 0) + f (i + 1) (j + 0)
    + f (i + -1) (j + 1) + f (i + 0) (j + 1) + f (i + 1) (j + 1)

/-- The nearest integer to `s / 9`, as in the words `round(mean ...)` of the specification. -/
def nearest9 (s : Nat) : Nat := (2 * s + 9) / 18

/-- A decoder for which every file is missing or undecodable: `copyImg` returns nil. -/
def failingCopyImg : String → Option RGBA := fun _ => none

/-! ## Several workers, pixel by pixel

The workers share the source image and the layers of an image. Every `Set` of
`convolute` is done under the lock of its layer, so a run of several workers is an
interleaving of steps of the following kinds, each of them atomic: taking a task from
the channel and passing the first critical section of `Process`; one turn of the pixel
loops of `convolute`; the decrement of the counter, followed by `flatten` and the push
when the task reads 0. -/

/-- Where the worker that holds a task stands in the body of the loop of `Process`. -/
inductive phase where
  /-- The task is still in the channel. -/
  | waiting
  /-- The task has been taken, the first critical section is passed, and `convolute` has
  done `k` turns of its pixel loops. -/
  | writing (k : Nat)
  /-- The counter has been decremented for the task (and the image flattened on 0). -/
  | done
deriving DecidableEq, Repr

/-- The state of the workers on the tasks of one image. -/
structure workersState where
  /-- The state shared through the pointers of the tasks. -/
  cv : canvas
  /-- The phase of every task, in emission order. -/
  phases : List phase
  /-- The `task_out`s pushed to the output channel, in order. -/
  output : List task_out

/-- The next step of the worker that holds the task number `u` (or that takes it from the
channel), with `N` workers. A task can be taken when the tasks before it have been taken
(the channel keeps the order) and fewer than `N` tasks are in the hands of workers; a
step that cannot be taken changes nothing. The result `none` is a panic. -/
def workersStep (copyImg : String → Option RGBA) (N : Nat) (us : List task)
    (st : workersState) (u : Nat) : Option workersState :=
  match us[u]?, st.phases[u]? with
  | some t, some phase.waiting =>
    if (st.phases.take u).all (fun p => decide (p ≠ phase.waiting))
        && decide ((st.phases.filter (fun p => decide (p ≠ phase.waiting ∧ p ≠ phase.done))).length
            < N) then do
      -- copy image and initialize layers if get image is set to true
      let cv ← (if st.cv.getImg then do
          let lrs ← initLayers { st.cv.lrs with img := copyImg t.file_in }
          pure { st.cv with lrs := lrs, getImg := false }
        else pure st.cv)
      pure { st with cv := cv, phases := st.phases.set u (phase.writing 0) }
    else pure st
  | some t, some (phase.writing k) =>
    match st.cv.lrs.img with
    | none => none
    | some data =>
      let b := data.Bounds
      let minX := b.Min.X
      let minY := b.Min.Y
      let maxX := b.Max.X
      let maxY := b.Max.Y
      let w := (maxX - minX).toNat
      let h := (maxY - minY).toNat
      if k < w * h then do
        -- the turn number `k` of the loops `for i ... { for j ... { ... } }`
        let i := minX + ((k / h : Nat) : Int)
        let j := minY + ((k % h : Nat) : Int)
        let lrs ← convolutePixel data t.effect t.color minX maxX minY maxY i j st.cv.lrs
        pure { st with cv := { st.cv with lrs := lrs },
                       phases := st.phases.set u (phase.writing (k + 1)) }
      else
        -- decrement operations counter
        let cv : canvas := { st.cv with counter := st.cv.counter - 1 }
        let ops_left : Int := cv.counter
        -- if 0 operations left for image, then push to output channel
        if ops_left = 0 then do
          let data ← flatten cv.lrs
          pure { cv := cv, phases := st.phases.set u phase.done,
                 output := st.output ++ [⟨t.file_out, data⟩] }
        else pure { st with cv := cv, phases := st.phases.set u phase.done }
  | _, _ => pure st

/-- The state of `N` workers after the steps of a schedule on the tasks `us` of one image,
from the shared state `cv` that `newTasks` created. -/
def workersRun (copyImg : String → Option RGBA) (N : Nat) (us : List task) (cv : canvas)
    (schedule : List Nat) : Option workersState :=
  schedule.foldlM (workersStep copyImg N us) ⟨cv, List.replicate us.length phase.waiting, []⟩

/-- The phases at the end of a run and the colour at `(x, y)` of each pushed image. -/
def workersView (r : Option workersState) (x y : Int) : Option (List phase × List Color) :=
  r.map (fun st => (st.phases, st.output.map (fun o => o.data.At x y)))
/-- The number of the turn of the pixel loops of `convolute` that handles `(x, y)`. -/
def pixelIndex (data : RGBA) (x y : Int) : Nat :=
  (x - data.Bounds.Min.X).toNat * (data.Bounds.Max.Y - data.Bounds.Min.Y).toNat
    + (y - data.Bounds.Min.Y).toNat

/-- A task in the phase `p` has done the turn number `idx` of its pixel loops. -/
def phase.covers : phase → Nat → Prop
  | phase.waiting, _ => False
  | phase.writing k, idx => idx < k
  | phase.done, _ => True

/-- The state of the layer `l` of the colour `clr` while tasks of the one effect `e` run:
it has the bounds of the source, is blank outside them, and holds what the effect stores
at every pixel that a task of the colour has handled. -/
def layerOK (data : RGBA) (e : String) (us : List task) (phases : List phase) (clr : String)
    (l : RGBA) : Prop :=
  l.Rect = data.Rect
  ∧ (∀ x y, Point.In ⟨x, y⟩ data.Rect = false → l.Pix x y = ⟨0, 0, 0, 0⟩)
  ∧ (∀ (v : Nat) (t : task), us[v]? = some t → t.color = clr →
      ∀ x y, Point.In ⟨x, y⟩ data.Rect = true →
        (phases.getD v phase.waiting).covers (pixelIndex data x y) →
        l.Pix x y = written data e clr x y)

/-- The invariant of the workers on the tasks `us` of one image, all of the effect `e`. -/
def workersInv (data : RGBA) (e fout : String) (us : List task) (st : workersState) : Prop :=
  st.phases.length = us.length
  ∧ st.cv.counter = (us.length : Int) - (st.phases.count phase.done : Int)
  ∧ st.output = (if st.cv.counter = 0 then [⟨fout, flatAfter data us⟩] else [])
  ∧ ((st.cv.getImg = true ∧ st.cv.lrs = ⟨none, none, none, none, none⟩
        ∧ ∀ p ∈ st.phases, p = phase.waiting)
    ∨ (st.cv.getImg = false
        ∧ ∃ r g b a, st.cv.lrs = ⟨some data, some r, some g, some b, some a⟩
          ∧ layerOK data e us st.phases "R" r ∧ layerOK data e us st.phases "G" g
          ∧ layerOK data e us st.phases "B" b ∧ layerOK data e us st.phases "A" a))
/-- The column of the pixel handled by the turn number `k` of the pixel loops. -/
def turnX (data : RGBA) (k : Nat) : Int :=
  data.Bounds.Min.X + ((k / (data.Bounds.Max.Y - data.Bounds.Min.Y).toNat : Nat) : Int)

/-- The row of the pixel handled by the turn number `k` of the pixel loops. -/
def turnY (data : RGBA) (k : Nat) : Int :=
  data.Bounds.Min.Y + ((k % (data.Bounds.Max.Y - data.Bounds.Min.Y).toNat : Nat) : Int)

/-! ## The counter of the tasks of one image -/

/-- The invariant of the counter of the workers on the `n` tasks of one image, of any
effects. -/
def counterInv (n : Nat) (st : workersState) : Prop :=
  st.phases.length = n
  ∧ st.cv.counter = (n : Int) - (st.phases.count phase.done : Int)
  ∧ st.output.length = (if st.cv.counter = 0 then 1 else 0)
  ∧ ((st.cv.getImg = true ∧ st.cv.lrs = ⟨none, none, none, none, none⟩
        ∧ ∀ p ∈ st.phases, p = phase.waiting)
    ∨ (st.cv.getImg = false
        ∧ ∃ data r g b a, st.cv.lrs = ⟨some data, some r, some g, some b, some a⟩))

/-- The schedule of a single worker that runs the tasks `0 .. n-1` one after the other on
an image whose pixel loops have `turns` turns: for each task, the taking of the task, the
turns of the pixel loops and the decrement of the counter. -/
def sequentialSchedule (n turns : Nat) : List Nat :=
  (List.range n).flatMap (fun u => List.replicate (turns + 2) u)

/-- The state of the workers when the tasks before the task number `m` are done and the
other ones are still in the channel. -/
def sequentialInv (data : RGBA) (n m : Nat) (st : workersState) : Prop :=
  counterInv n st
  ∧ (st.cv.getImg = false → st.cv.lrs.img = some data)
  ∧ (∀ v, v < m → st.phases[v]? = some phase.done)
  ∧ (∀ v, m ≤ v → v < n → st.phases[v]? = some phase.waiting)

end Editor

namespace Editor

/-! ## The kernels -/

/-- A list of 9 entries, spelled out. -/
theorem list_length_nine {α : Type} (vs : List α) (h : vs.length = 9) :
    ∃ a b c d e f g k l, vs = [a, b, c, d, e, f, g, k, l] := by
  match vs, h with
  | [a, b, c, d, e, f, g, k, l], _ => exact ⟨a, b, c, d, e, f, g, k, l, rfl⟩

/-- The narrowing conversion leaves a clamped value as it is. -/
theorem uint8_clamp (t : Int) : uint8 (clamp t) = (max 0 (min 255 t)).toNat := by
  unfold uint8 clamp
  split_ifs <;> congr 1 <;> omega

/-- C5: for 9 byte samples in row-major order, the edge-detection effect is
8 times the centre minus the eight other samples, clamped to [0,255]. -/
theorem change_edge (vs : List Nat) (hlen : vs.length = 9) (_hb : ∀ v ∈ vs, v < 256) :
    change "E" vs = some (max 0 (min 255
      (8 * (vs.getD 4 0 : Int) - ((vs.getD 0 0 : Int) + (vs.getD 1 0 : Int) + (vs.getD 2 0 : Int)
        + (vs.getD 3 0 : Int) + (vs.getD 5 0 : Int) + (vs.getD 6 0 : Int) + (vs.getD 7 0 : Int)
        + (vs.getD 8 0 : Int))))).toNat := by
  obtain ⟨a, b, c, d, e, f, g, k, l, rfl⟩ := list_length_nine vs hlen
  simp [change, kernelLoop, uint8_clamp]
  omega

/-- Witness of C5: a bright centre among darker neighbours saturates at 255. -/
theorem change_edge_witness :
    change "E" [10, 20, 30, 40, 200, 60, 70, 80, 90] = some 255 :=
  change_edge [10, 20, 30, 40, 200, 60, 70, 80, 90] (by decide) (by decide)

/-- C6: for 9 byte samples in row-major order, the sharpen effect is 5 times the
centre minus the four edge neighbours, clamped to [0,255]; two sample lists that
differ only in their four corners give the same result. -/
theorem change_sharpen (vs : List Nat) (hlen : vs.length = 9) (_hb : ∀ v ∈ vs, v < 256) :
    change "S" vs = some (max 0 (min 255
      (5 * (vs.getD 4 0 : Int) - (vs.getD 1 0 : Int) - (vs.getD 3 0 : Int)
        - (vs.getD 5 0 : Int) - (vs.getD 7 0 : Int)))).toNat
    ∧ ∀ ws : List Nat, ws.length = 9 → (∀ w ∈ ws, w < 256) →
        ws.getD 1 0 = vs.getD 1 0 → ws.getD 3 0 = vs.getD 3 0 → ws.getD 4 0 = vs.getD 4 0 →
        ws.getD 5 0 = vs.getD 5 0 → ws.getD 7 0 = vs.getD 7 0 →
        change "S" ws = change "S" vs := by
  have key : ∀ us : List Nat, us.length = 9 →
      change "S" us = some (max 0 (min 255
        (5 * (us.getD 4 0 : Int) - (us.getD 1 0 : Int) - (us.getD 3 0 : Int)
          - (us.getD 5 0 : Int) - (us.getD 7 0 : Int)))).toNat := by
    intro us hus
    obtain ⟨a, b, c, d, e, f, g, k, l, rfl⟩ := list_length_nine us hus
    simp [change, kernelLoop, uint8_clamp]
    omega
  refine ⟨key vs hlen, ?_⟩
  intro ws hws _ h1 h3 h4 h5 h7
  rw [key ws hws, key vs hlen, h1, h3, h4, h5, h7]

/-- Witness of C6: the corners 255 and 0 give the same sharpened value. -/
theorem change_sharpen_witness :
    change "S" [255, 20, 255, 40, 50, 60, 255, 80, 255] = some 50
    ∧ change "S" [0, 20, 0, 40, 50, 60, 0, 80, 0]
        = change "S" [255, 20, 255, 40, 50, 60, 255, 80, 255] :=
  ⟨(change_sharpen [255, 20, 255, 40, 50, 60, 255, 80, 255] (by decide) (by decide)).1,
   (change_sharpen [255, 20, 255, 40, 50, 60, 255, 80, 255] (by decide) (by decide)).2
     [0, 20, 0, 40, 50, 60, 0, 80, 0] (by decide) (by decide) rfl rfl rfl rfl rfl⟩

/-- C7: for 9 byte samples the blur effect is the integer quotient of their sum by 9,
computed without 8-bit wrap-around; the quotient is at most 255, so the upper clamp
of the code is never taken. -/
theorem change_blur (vs : List Nat) (hlen : vs.length = 9) (hb : ∀ v ∈ vs, v < 256) :
    change "B" vs = some ((vs.getD 0 0 + vs.getD 1 0 + vs.getD 2 0 + vs.getD 3 0 + vs.getD 4 0
        + vs.getD 5 0 + vs.getD 6 0 + vs.getD 7 0 + vs.getD 8 0) / 9)
    ∧ (vs.getD 0 0 + vs.getD 1 0 + vs.getD 2 0 + vs.getD 3 0 + vs.getD 4 0
        + vs.getD 5 0 + vs.getD 6 0 + vs.getD 7 0 + vs.getD 8 0) / 9 ≤ 255
    ∧ ¬ (Int.tdiv ((vs.getD 0 0 : Int) + (vs.getD 1 0 : Int) + (vs.getD 2 0 : Int)
        + (vs.getD 3 0 : Int) + (vs.getD 4 0 : Int) + (vs.getD 5 0 : Int) + (vs.getD 6 0 : Int)
        + (vs.getD 7 0 : Int) + (vs.getD 8 0 : Int)) 9 > 255) := by
  obtain ⟨a, b, c, d, e, f, g, k, l, rfl⟩ := list_length_nine vs hlen
  simp only [List.mem_cons, List.mem_singleton, forall_eq_or_imp, forall_eq] at hb
  obtain ⟨ha, hb, hc, hd, he, hf, hg, hk, hl, -⟩ := hb
  have hq : Int.tdiv ((a : Int) + b + c + d + e + f + g + k + l) 9
      = (((a + b + c + d + e + f + g + k + l) / 9 : Nat) : Int) := by
    rw [Int.tdiv_eq_ediv (by omega) (by omega)]
    push_cast
    rfl
  have hle : (a + b + c + d + e + f + g + k + l) / 9 ≤ 255 := by omega
  refine ⟨?_, by simpa using hle, ?_⟩
  · simp only [change, List.getD_cons_zero, List.getD_cons_succ]
    simp [hq, uint8]
    split_ifs with h
    · omega
    · congr 1
      omega
  · simp only [List.getD_cons_zero, List.getD_cons_succ]
    rw [hq]
    omega

/-- Witness of C7: nine samples of 255 blur to 255, the largest possible quotient. -/
theorem change_blur_witness :
    change "B" [255, 255, 255, 255, 255, 255, 255, 255, 255] = some 255 :=
  (change_blur [255, 255, 255, 255, 255, 255, 255, 255, 255] (by decide) (by decide)).1

/-! ## Reading the source image -/

/-- The 16-bit expansion of `RGBA()` followed by `uint8(...)` gives back a stored byte. -/
theorem expand16_mod (v : Nat) (h : v < 256) : expand16 v % 256 = v := by
  unfold expand16
  rw [Nat.lor_comm, Nat.shiftLeft_eq, Nat.mul_comm,
    ← Nat.mul_add_lt_is_or (by omega : v < 2 ^ 8) v]
  omega

/-- Inside the bounds `conform` returns the stored component, for the colours R, G and B. -/
theorem conform_inside (data : RGBA) (hbytes : data.isBytes) (x y : Int)
    (hin : Point.In ⟨x, y⟩ data.Bounds = true) :
    conform data "R" x y data.Bounds.Min.X data.Bounds.Max.X
        data.Bounds.Min.Y data.Bounds.Max.Y = (data.Pix x y).R
    ∧ conform data "G" x y data.Bounds.Min.X data.Bounds.Max.X
        data.Bounds.Min.Y data.Bounds.Max.Y = (data.Pix x y).G
    ∧ conform data "B" x y data.Bounds.Min.X data.Bounds.Max.X
        data.Bounds.Min.Y data.Bounds.Max.Y = (data.Pix x y).B := by
  obtain ⟨hR, hG, hB, -⟩ := hbytes x y
  have hin2 := hin
  simp only [Point.In, RGBA.Bounds, Bool.and_eq_true, decide_eq_true_eq] at hin2
  have hno : ¬ (x < data.Rect.Min.X ∨ x > data.Rect.Max.X ∨ y < data.Rect.Min.Y
      ∨ y > data.Rect.Max.Y) := by omega
  simp only [RGBA.Bounds] at hin
  simp [conform, RGBA.At, RGBA.Bounds, hin, hno, Color.RGBA, expand16_mod, hR, hG, hB]

/-- C8: for a source image and the channels R, G and B, `conform` called with the
bounds of the image returns the stored component at every point inside the bounds
and 0 at every point outside them, the column `x = maxX` and the row `y = maxY`
included. -/
theorem conform_bounds (data : RGBA) (hbytes : data.isBytes) (x y : Int) :
    (Point.In ⟨x, y⟩ data.Bounds = true →
        conform data "R" x y data.Bounds.Min.X data.Bounds.Max.X
            data.Bounds.Min.Y data.Bounds.Max.Y = (data.Pix x y).R
      ∧ conform data "G" x y data.Bounds.Min.X data.Bounds.Max.X
            data.Bounds.Min.Y data.Bounds.Max.Y = (data.Pix x y).G
      ∧ conform data "B" x y data.Bounds.Min.X data.Bounds.Max.X
            data.Bounds.Min.Y data.Bounds.Max.Y = (data.Pix x y).B)
    ∧ (Point.In ⟨x, y⟩ data.Bounds = false →
        conform data "R" x y data.Bounds.Min.X data.Bounds.Max.X
            data.Bounds.Min.Y data.Bounds.Max.Y = 0
      ∧ conform data "G" x y data.Bounds.Min.X data.Bounds.Max.X
            data.Bounds.Min.Y data.Bounds.Max.Y = 0
      ∧ conform data "B" x y data.Bounds.Min.X data.Bounds.Max.X
            data.Bounds.Min.Y data.Bounds.Max.Y = 0) := by
  constructor
  · exact conform_inside data hbytes x y
  · intro hout
    -- outside the bounds `At` gives the zero colour, also at `x = maxX` and `y = maxY`,
    -- which the test `x > maxX || y > maxY` of `conform` lets through
    have hAt : data.At x y = ⟨0, 0, 0, 0⟩ := by
      simp only [RGBA.Bounds] at hout
      simp [RGBA.At, hout]
    have h0 : expand16 0 % 256 = 0 := expand16_mod 0 (by omega)
    unfold conform
    simp only [hAt, Color.RGBA, h0]
    refine ⟨?_, ?_, ?_⟩ <;> split_ifs <;> rfl

/-- The sample image stores bytes only. -/
theorem sampleImage_isBytes : sampleImage.isBytes := by
  intro x y
  unfold sampleImage
  dsimp only
  split_ifs <;> decide

/-- Witness of C8: in the 2 by 2 sample image the red component at (1,0) is read
back as stored, and the green sample at (2,0), the first column past the image, is 0. -/
theorem conform_bounds_witness :
    conform sampleImage "R" 1 0 0 2 0 2 = 50 ∧ conform sampleImage "G" 2 0 0 2 0 2 = 0 :=
  ⟨((conform_bounds sampleImage sampleImage_isBytes 1 0).1 (by decide)).1,
   ((conform_bounds sampleImage sampleImage_isBytes 2 0).2 (by decide)).2.1⟩

/-! ## The pixel loops -/

/-- Two images with the same bounds and the same stored colours are equal. -/
theorem RGBA.ext_pix {p q : RGBA} (hr : p.Rect = q.Rect) (hp : ∀ x y, p.Pix x y = q.Pix x y) :
    p = q := by
  cases p; cases q
  simp only at hr hp
  subst hr
  congr
  funext x y
  exact hp x y

theorem RGBA.fillWhere_congr (p : RGBA) {sel sel2 : Int → Int → Bool} (f : Int → Int → Color)
    (h : ∀ x y, sel x y = sel2 x y) : p.fillWhere sel f = p.fillWhere sel2 f := by
  have : sel = sel2 := by funext x y; exact h x y
  rw [this]

theorem RGBA.fillWhere_false (p : RGBA) (f : Int → Int → Color) :
    p.fillWhere (fun _ _ => false) f = p := by
  apply RGBA.ext_pix <;> simp [RGBA.fillWhere]

theorem RGBA.fillWhere_fillWhere (p : RGBA) (sel sel2 : Int → Int → Bool)
    (f : Int → Int → Color) :
    (p.fillWhere sel f).fillWhere sel2 f = p.fillWhere (fun x y => sel x y || sel2 x y) f := by
  apply RGBA.ext_pix
  · simp [RGBA.fillWhere]
  · intro x y
    simp only [RGBA.fillWhere]
    by_cases h1 : sel x y = true <;> by_cases h2 : sel2 x y = true <;>
      by_cases h3 : Point.In ⟨x, y⟩ p.Rect = true <;> simp [h1, h2, h3]

theorem RGBA.Set_eq_fillWhere (p : RGBA) (i j : Int) (f : Int → Int → Color) :
    p.Set i j (f i j) = p.fillWhere (fun x y => decide (x = i) && decide (y = j)) f := by
  apply RGBA.ext_pix
  · unfold RGBA.Set RGBA.fillWhere
    split_ifs <;> rfl
  · intro x y
    unfold RGBA.Set RGBA.fillWhere
    by_cases hin : Point.In ⟨i, j⟩ p.Rect = true
    · by_cases hx : x = i <;> by_cases hy : y = j <;> simp [hin, hx, hy]
    · by_cases hx : x = i <;> by_cases hy : y = j <;> simp [hin, hx, hy]

/-- A loop whose every step fills the selected points of one image slot of the state
fills, in the end, the points selected by some step. The slot is given by `get` and `put`. -/
theorem foldlM_fill {σ : Type} (get : σ → Option RGBA) (put : RGBA → σ → σ)
    (hgp : ∀ b s, get (put b s) = some b)
    (hpp : ∀ b b2 s, put b (put b2 s) = put b s)
    (hpg : ∀ s b, get s = some b → put b s = s)
    (f : Int → Int → Color) (sel : Nat → Int → Int → Bool) (step : Nat → σ → Option σ)
    (hstep : ∀ k s b, get s = some b → step k s = some (put (b.fillWhere (sel k) f) s))
    (n : Nat) (s : σ) (b : RGBA) (hs : get s = some b) :
    (List.range n).foldlM (fun s k => step k s) s
      = some (put (b.fillWhere (fun x y => (List.range n).any (fun k => sel k x y)) f) s) := by
  induction n with
  | zero =>
    simp only [List.range_zero, List.foldlM_nil, List.any_nil, RGBA.fillWhere_false]
    rw [hpg s b hs]
    rfl
  | succ n ih =>
    rw [List.range_succ, List.foldlM_append, ih]
    simp only [Option.some_bind, Option.bind_eq_bind, List.foldlM_cons, List.foldlM_nil]
    rw [hstep n _ _ (hgp _ _), RGBA.fillWhere_fillWhere, hpp]
    simp only [Option.some_bind, Option.bind_eq_bind]
    congr 2
    apply RGBA.fillWhere_congr
    intro x y
    simp [List.any_append]

/-- The two nested pixel loops over a rectangle, when the body stores `f i j` at `(i, j)`
in one image slot of the state, fill that image over the rectangle. -/
theorem forRange_fill {σ : Type} (get : σ → Option RGBA) (put : RGBA → σ → σ)
    (hgp : ∀ b s, get (put b s) = some b)
    (hpp : ∀ b b2 s, put b (put b2 s) = put b s)
    (hpg : ∀ s b, get s = some b → put b s = s)
    (f : Int → Int → Color) (body : Int → Int → σ → Option σ)
    (hbody : ∀ i j s b, get s = some b → body i j s = some (put (b.Set i j (f i j)) s))
    (r : Rectangle) (s : σ) (b : RGBA) (hs : get s = some b) :
    forRange r.Min.X r.Max.X (fun i s => forRange r.Min.Y r.Max.Y (fun j s => body i j s) s) s
      = some (put (b.fill r f) s) := by
  unfold forRange
  rw [foldlM_fill get put hgp hpp hpg f
    (fun k x y => (List.range (r.Max.Y - r.Min.Y).toNat).any
      (fun l => decide (x = r.Min.X + (k : Int)) && decide (y = r.Min.Y + (l : Int))))
    _ ?_ _ s b hs]
  · congr 2
    unfold RGBA.fill
    apply RGBA.fillWhere_congr
    intro x y
    rw [Bool.eq_iff_iff]
    simp only [List.any_eq_true, List.mem_range, Bool.and_eq_true, decide_eq_true_eq, Point.In]
    constructor
    · rintro ⟨k, hk, l, hl, hx, hy⟩
      omega
    · rintro ⟨⟨⟨h1, h2⟩, h3⟩, h4⟩
      exact ⟨(x - r.Min.X).toNat, by omega, (y - r.Min.Y).toNat, by omega, by omega, by omega⟩
  · intro k s2 b2 hs2
    exact foldlM_fill get put hgp hpp hpg f _ _
      (fun l s3 b3 hs3 => by
        show body _ _ s3 = _
        rw [hbody _ _ s3 b3 hs3, RGBA.Set_eq_fillWhere]) _ s2 b2 hs2

/-! ## Flatten -/

/-- What `flatten` returns when the source image and the four layers are allocated. -/
theorem flatten_eq (data rimg gimg bimg aimg : RGBA) :
    flatten ⟨some data, some rimg, some gimg, some bimg, some aimg⟩
      = some ((NewRGBA data.Bounds).fill data.Bounds (fun i j =>
          ⟨(rimg.At i j).RGBA.1 % 256, (gimg.At i j).RGBA.2.1 % 256,
           (bimg.At i j).RGBA.2.2.1 % 256, (aimg.At i j).RGBA.2.2.2 % 256⟩)) := by
  simp only [flatten]
  exact forRange_fill (fun im => some im) (fun b _ => b) (fun _ _ => rfl) (fun _ _ _ => rfl)
    (fun s b h => by simpa using h.symm) _ _
    (fun i j s b h => by
      have hb : s = b := by simpa using h
      subst hb
      rfl) data.Bounds _ _ rfl

/-- A pixel of a filled image, inside both rectangles. -/
theorem RGBA.fill_At (p : RGBA) (r : Rectangle) (f : Int → Int → Color) (x y : Int)
    (h1 : Point.In ⟨x, y⟩ r = true) (h2 : Point.In ⟨x, y⟩ p.Rect = true) :
    (p.fill r f).At x y = f x y := by
  have h3 : Point.In ⟨x, y⟩ (p.fill r f).Rect = true := h2
  simp only [RGBA.At, h3, if_true]
  simp [RGBA.fill, RGBA.fillWhere, h1, h2]

/-- C3: for four channel buffers storing bytes and every pixel `(i, j)` of the bounds of
the source, `flatten` returns an image over those bounds whose colour at `(i, j)` is
(red of the R buffer, green of the G buffer, blue of the B buffer, alpha of the A buffer):
the 16-bit expansion of `RGBA()` followed by `uint8(...)` gives back the stored byte. -/
theorem flatten_pixel (data rimg gimg bimg aimg : RGBA)
    (hr : rimg.isBytes) (hg : gimg.isBytes) (hb : bimg.isBytes) (ha : aimg.isBytes)
    (i j : Int) (hin : Point.In ⟨i, j⟩ data.Bounds = true) :
    ∃ out, flatten ⟨some data, some rimg, some gimg, some bimg, some aimg⟩ = some out
      ∧ out.Bounds = data.Bounds
      ∧ out.At i j = ⟨(rimg.At i j).R, (gimg.At i j).G, (bimg.At i j).B, (aimg.At i j).A⟩ := by
  refine ⟨_, flatten_eq data rimg gimg bimg aimg, rfl, ?_⟩
  rw [RGBA.fill_At (NewRGBA data.Bounds) _ _ _ _ hin hin]
  have key : ∀ p : RGBA, p.isBytes → (p.At i j).isBytes := by
    intro p hp
    unfold RGBA.At
    split_ifs
    · exact hp i j
    · decide
  obtain ⟨h1, -, -, -⟩ := key rimg hr
  obtain ⟨-, h2, -, -⟩ := key gimg hg
  obtain ⟨-, -, h3, -⟩ := key bimg hb
  obtain ⟨-, -, -, h4⟩ := key aimg ha
  simp [Color.RGBA, expand16_mod, h1, h2, h3, h4]

/-- Witness of C3: flattening four copies of the sample image gives back its pixel (1,0). -/
theorem flatten_pixel_witness :
    ∃ out, flatten ⟨some sampleImage, some sampleImage, some sampleImage, some sampleImage,
        some sampleImage⟩ = some out
      ∧ out.Bounds = sampleImage.Bounds
      ∧ out.At 1 0 = ⟨(sampleImage.At 1 0).R, (sampleImage.At 1 0).G, (sampleImage.At 1 0).B,
          (sampleImage.At 1 0).A⟩ :=
  flatten_pixel sampleImage sampleImage sampleImage sampleImage sampleImage
    sampleImage_isBytes sampleImage_isBytes sampleImage_isBytes sampleImage_isBytes 1 0
    (by decide)

/-! ## Convolute -/

/-- The sample list built by `convolute` always has 9 entries. -/
theorem neighbours_length (data : RGBA) (clr : String) (i j minX maxX minY maxY : Int) :
    (neighbours data clr i j minX maxX minY maxY).length = 9 := by
  simp [neighbours]

/-- On 9 samples `change` reads no index out of range. -/
theorem change_of_length_nine (effect : String) (vs : List Nat) (h : vs.length = 9) :
    ∃ r, change effect vs = some r := by
  obtain ⟨a, b, c, d, e, f, g, k, l, rfl⟩ := list_length_nine vs h
  rw [← Option.isSome_iff_exists]
  unfold change
  split_ifs <;> simp [kernelLoop]
  split_ifs <;> rfl

/-- What `convolute` returns for a colour among R, G, B, A when the source image and the
layer of that colour are allocated: that layer is filled over the bounds of the source. -/
theorem convolute_eq (t : layers) (data b : RGBA) (effect clr : String)
    (hclr : clr = "R" ∨ clr = "G" ∨ clr = "B" ∨ clr = "A")
    (himg : t.img = some data) (hb : t.layer clr = some b) :
    convolute t effect clr
      = some (t.setLayer clr (b.fill data.Bounds (written data effect clr))) := by
  simp only [convolute, himg]
  have hch := fun i j => change_of_length_nine effect _
    (neighbours_length data clr i j data.Bounds.Min.X data.Bounds.Max.X
      data.Bounds.Min.Y data.Bounds.Max.Y)
  refine forRange_fill (fun s => s.layer clr) (fun b s => s.setLayer clr b) ?_ ?_ ?_ _ _ ?_
    data.Bounds t b hb
  · intro b s
    rcases hclr with h | h | h | h <;> subst h <;> simp [layers.layer, layers.setLayer]
  · intro b b2 s
    rcases hclr with h | h | h | h <;> subst h <;> simp [layers.setLayer]
  · intro s b hs
    rcases hclr with h | h | h | h <;> subst h <;>
      simp [layers.layer, layers.setLayer] at hs ⊢ <;> simp [← hs]
  · intro i j s b hs
    obtain ⟨v, hv⟩ := hch i j
    rcases hclr with h | h | h | h <;> subst h <;>
      simp only [layers.layer, layers.setLayer] at hs ⊢ <;>
      simp at hs <;>
      by_cases he : effect = "G" <;>
      simp [convolutePixel, written, he, hs, hv]

/-! ## Running the tasks of one image in sequence -/

/-- Filling twice over the same rectangle keeps the second filling only. -/
theorem RGBA.fill_fill (p : RGBA) (r : Rectangle) (f g : Int → Int → Color) :
    (p.fill r f).fill r g = p.fill r g := by
  apply RGBA.ext_pix
  · rfl
  · intro x y
    simp only [RGBA.fill, RGBA.fillWhere]
    by_cases h1 : Point.In ⟨x, y⟩ r = true <;>
      by_cases h2 : Point.In ⟨x, y⟩ p.Rect = true <;> simp [h1, h2]

theorem lastEffect_nil (clr : String) : lastEffect clr [] = none := rfl

theorem lastEffect_snoc (clr : String) (us : List task) (u : task) :
    lastEffect clr (us ++ [u]) = if u.color = clr then some u.effect else lastEffect clr us := by
  unfold lastEffect
  rw [List.reverse_append, List.reverse_singleton, List.singleton_append, List.find?_cons]
  by_cases h : u.color = clr <;> simp [h]

/-- A task of the colour `clr` overwrites the whole layer of that colour. -/
theorem layerAfter_snoc_same (data b : RGBA) (us : List task) (u : task) :
    layerAfter data b u.color (us ++ [u])
      = (layerAfter data b u.color us).fill data.Bounds (written data u.effect u.color) := by
  unfold layerAfter
  rw [lastEffect_snoc]
  simp only [if_true]
  cases lastEffect u.color us with
  | none => rfl
  | some e => simp only [RGBA.fill_fill]

/-- A task of another colour leaves the layer as it is. -/
theorem layerAfter_snoc_other (data b : RGBA) (clr : String) (us : List task) (u : task)
    (h : u.color ≠ clr) : layerAfter data b clr (us ++ [u]) = layerAfter data b clr us := by
  unfold layerAfter
  rw [lastEffect_snoc, if_neg h]

/-- Running `convolute` for one more task, of a colour among R, G, B, A. -/
theorem convolute_layersAfter (data : RGBA) (us : List task) (u : task)
    (hclr : u.color = "R" ∨ u.color = "G" ∨ u.color = "B" ∨ u.color = "A") :
    convolute (layersAfter data us) u.effect u.color = some (layersAfter data (us ++ [u])) := by
  have hb : ∃ b, (layersAfter data us).layer u.color = some b
      ∧ b = layerAfter data (NewRGBA data.Bounds) u.color us := by
    rcases hclr with h | h | h | h <;> rw [h] <;> exact ⟨_, rfl, rfl⟩
  obtain ⟨b, hb, hb2⟩ := hb
  rw [convolute_eq _ data b u.effect u.color hclr rfl hb, hb2, ← layerAfter_snoc_same]
  congr 1
  have e1 : ("R" : String) ≠ "G" := by decide
  have e2 : ("R" : String) ≠ "B" := by decide
  have e3 : ("R" : String) ≠ "A" := by decide
  have e4 : ("G" : String) ≠ "B" := by decide
  have e5 : ("G" : String) ≠ "A" := by decide
  have e6 : ("B" : String) ≠ "A" := by decide
  rcases hclr with h | h | h | h <;>
    simp only [layers.setLayer, layersAfter, h, e1, e2, e3, e4, e5, e6, e1.symm, e2.symm, e3.symm,
      e4.symm, e5.symm, e6.symm, if_true, if_false] <;>
    congr 2 <;>
    first
      | rw [← h]
      | (rw [layerAfter_snoc_other]; rw [h]; decide)

theorem flatten_layersAfter (data : RGBA) (us : List task) :
    flatten (layersAfter data us) = some (flatAfter data us) :=
  flatten_eq data _ _ _ _

/-- One iteration of `Process` once the image is loaded and the layers are allocated. -/
theorem processTask_allocated (copyImg : String → Option RGBA) (data : RGBA)
    (pre : List task) (u : task) (m : Int)
    (hclr : u.color = "R" ∨ u.color = "G" ∨ u.color = "B" ∨ u.color = "A") :
    processTask copyImg u ⟨false, layersAfter data pre, m⟩
      = some (⟨false, layersAfter data (pre ++ [u]), m - 1⟩,
          if m - 1 = 0 then some ⟨u.file_out, flatAfter data (pre ++ [u])⟩ else none) := by
  simp only [processTask, Bool.false_eq_true, if_false, Option.pure_def, Option.bind_eq_bind,
    Option.some_bind, convolute_layersAfter data pre u hclr, flatten_layersAfter]
  split_ifs <;> rfl

/-- The first iteration of `Process` loads the image and allocates blank layers. -/
theorem processTask_fresh (copyImg : String → Option RGBA) (data : RGBA) (u : task) (m : Int)
    (hsrc : copyImg u.file_in = some data) :
    processTask copyImg u (freshCanvas m)
      = processTask copyImg u ⟨false, layersAfter data [], m⟩ := by
  simp only [processTask, freshCanvas, if_true, hsrc, initLayers, Option.pure_def,
    Option.bind_eq_bind, Option.some_bind, Bool.false_eq_true, if_false]
  rfl

/-- The loop of `Process` once the image is loaded, for at most as many tasks as the
counter says: the counter reaches 0, and the flattened image is pushed, at the last of
exactly `m` tasks and not before. -/
theorem processLoop_allocated (copyImg : String → Option RGBA) (data : RGBA) (fout : String)
    (us : List task) :
    ∀ (pre : List task) (m : Int) (outs : List task_out),
    (∀ u ∈ us, u.file_out = fout
      ∧ (u.color = "R" ∨ u.color = "G" ∨ u.color = "B" ∨ u.color = "A")) →
    (us.length : Int) ≤ m →
    processLoop copyImg us (⟨false, layersAfter data pre, m⟩, outs)
      = some (⟨false, layersAfter data (pre ++ us), m - us.length⟩,
          outs ++ (if us ≠ [] ∧ (us.length : Int) = m
            then [⟨fout, flatAfter data (pre ++ us)⟩] else [])) := by
  induction us with
  | nil =>
    intro pre m outs _ _
    simp [processLoop]
  | cons u rest ih =>
    intro pre m outs hus hm
    have hu := hus u (List.mem_cons_self _ _)
    have hrest : ∀ v ∈ rest, v.file_out = fout
        ∧ (v.color = "R" ∨ v.color = "G" ∨ v.color = "B" ∨ v.color = "A") :=
      fun v hv => hus v (List.mem_cons_of_mem _ hv)
    simp only [List.length_cons, Nat.cast_add, Nat.cast_one] at hm
    have hstep : processLoop copyImg (u :: rest) (⟨false, layersAfter data pre, m⟩, outs)
        = processLoop copyImg rest (⟨false, layersAfter data (pre ++ [u]), m - 1⟩,
            outs ++ (if m - 1 = 0 then some (⟨u.file_out, flatAfter data (pre ++ [u])⟩ : task_out)
              else none).toList) := by
      simp only [processLoop, List.foldlM_cons, processTask_allocated copyImg data pre u m hu.2,
        Option.pure_def, Option.bind_eq_bind, Option.some_bind]
    rw [hstep]
    by_cases h0 : m - 1 = 0
    · have hnil : rest = [] := by
        apply List.eq_nil_of_length_eq_zero
        omega
      subst hnil
      have hm1 : m = 1 := by omega
      subst hm1
      simp [processLoop, hu.1]
    · rw [if_neg h0, ih (pre ++ [u]) (m - 1) _ hrest (by omega)]
      simp only [List.append_assoc, List.singleton_append, Option.toList_none, List.append_nil,
        List.length_cons, Nat.cast_add, Nat.cast_one, ne_eq, reduceCtorEq, not_false_eq_true,
        true_and]
      have e1 : m - 1 - (rest.length : Int) = m - ((rest.length : Int) + 1) := by omega
      rw [e1]
      congr 3
      by_cases hr : rest = []
      · subst hr
        simp at h0 ⊢
        omega
      · have e2 : ((rest.length : Int) = m - 1) ↔ ((rest.length : Int) + 1 = m) := by omega
        simp [hr, e2]

/-- A single worker running the tasks `us` of one image, all of them, from the state that
`newTasks` creates: the image is decoded, every task is run by `convolute`, the counter
ends at 0 and the flattened image is pushed exactly once, after the last task. -/
theorem Process_eq (copyImg : String → Option RGBA) (data : RGBA) (fout : String)
    (us : List task) (hne : us ≠ [])
    (hus : ∀ u ∈ us, copyImg u.file_in = some data ∧ u.file_out = fout
      ∧ (u.color = "R" ∨ u.color = "G" ∨ u.color = "B" ∨ u.color = "A")) :
    Process copyImg us (freshCanvas us.length)
      = some (⟨false, layersAfter data us, 0⟩, [⟨fout, flatAfter data us⟩]) := by
  cases us with
  | nil => exact absurd rfl hne
  | cons u rest =>
    have hu := hus u (List.mem_cons_self _ _)
    have h1 : Process copyImg (u :: rest) (freshCanvas (u :: rest).length)
        = processLoop copyImg (u :: rest)
            (⟨false, layersAfter data [], ((u :: rest).length : Int)⟩, []) := by
      simp only [Process, processLoop, List.foldlM_cons, processTask_fresh copyImg data u _ hu.1]
    rw [h1, processLoop_allocated copyImg data fout (u :: rest) [] _ []
      (fun v hv => (hus v hv).2) (le_refl _)]
    simp

/-- A pixel of the flattened image, inside the bounds of the source. -/
theorem flatAfter_At (data : RGBA) (us : List task) (i j : Int)
    (hin : Point.In ⟨i, j⟩ data.Bounds = true) :
    (flatAfter data us).At i j
      = ⟨((layerAfter data (NewRGBA data.Bounds) "R" us).At i j).RGBA.1 % 256,
         ((layerAfter data (NewRGBA data.Bounds) "G" us).At i j).RGBA.2.1 % 256,
         ((layerAfter data (NewRGBA data.Bounds) "B" us).At i j).RGBA.2.2.1 % 256,
         ((layerAfter data (NewRGBA data.Bounds) "A" us).At i j).RGBA.2.2.2 % 256⟩ := by
  unfold flatAfter
  rw [RGBA.fill_At (NewRGBA data.Bounds) _ _ _ _ hin hin]

/-- A pixel of a layer whose last task has the effect `e`, inside the bounds of the source. -/
theorem layerAfter_At (data : RGBA) (clr e : String) (us : List task) (i j : Int)
    (hin : Point.In ⟨i, j⟩ data.Bounds = true) (hlast : lastEffect clr us = some e) :
    (layerAfter data (NewRGBA data.Bounds) clr us).At i j = written data e clr i j := by
  unfold layerAfter
  rw [hlast]
  exact RGBA.fill_At (NewRGBA data.Bounds) _ _ _ _ hin hin

/-! ## Grayscale and alpha -/

/-- C9: for every source image storing bytes and every pixel `(i, j)` in its bounds, a
worker that processes the four grayscale tasks (effect G, colours R, G, B, A) pushes one
flattened image, whose colour at `(i, j)` is `(avg, avg, avg, 255)` with
`avg = (r + g + b) / 3` from the stored components of the source pixel. -/
theorem grayscale_pixel (copyImg : String → Option RGBA) (fin fout : String) (data : RGBA)
    (hsrc : copyImg fin = some data) (hbytes : data.isBytes)
    (i j : Int) (hin : Point.In ⟨i, j⟩ data.Bounds = true) :
    ∃ cv out, Process copyImg [⟨fin, fout, "G", "R"⟩, ⟨fin, fout, "G", "G"⟩,
          ⟨fin, fout, "G", "B"⟩, ⟨fin, fout, "G", "A"⟩] (freshCanvas 4)
        = some (cv, [⟨fout, out⟩])
      ∧ out.At i j = ⟨((data.At i j).R + (data.At i j).G + (data.At i j).B) / 3,
          ((data.At i j).R + (data.At i j).G + (data.At i j).B) / 3,
          ((data.At i j).R + (data.At i j).G + (data.At i j).B) / 3, 255⟩ := by
  refine ⟨_, _, Process_eq copyImg data fout _ (by simp) ?_, ?_⟩
  · intro u hu
    simp only [List.mem_cons, List.mem_singleton, List.not_mem_nil, or_false] at hu
    rcases hu with h | h | h | h <;> subst h <;> simp [hsrc]
  · rw [flatAfter_At data _ i j hin,
      layerAfter_At data "R" "G" _ i j hin (by simp [lastEffect]),
      layerAfter_At data "G" "G" _ i j hin (by simp [lastEffect]),
      layerAfter_At data "B" "G" _ i j hin (by simp [lastEffect]),
      layerAfter_At data "A" "G" _ i j hin (by simp [lastEffect])]
    obtain ⟨hR, hG, hB⟩ := conform_inside data hbytes i j hin
    obtain ⟨bR, bG, bB, -⟩ := hbytes i j
    have hAt : data.At i j = data.Pix i j := by
      simp only [RGBA.Bounds] at hin
      simp [RGBA.At, hin]
    have hq : Int.tdiv (((data.Pix i j).R : Int) + ((data.Pix i j).G : Int)
          + ((data.Pix i j).B : Int)) 3
        = ((((data.Pix i j).R + (data.Pix i j).G + (data.Pix i j).B) / 3 : Nat) : Int) := by
      rw [Int.tdiv_eq_ediv (by omega) (by omega)]
      push_cast
      rfl
    have hlt : ((data.Pix i j).R + (data.Pix i j).G + (data.Pix i j).B) / 3 < 256 := by omega
    have hu8 : uint8 ((((data.Pix i j).R + (data.Pix i j).G + (data.Pix i j).B) / 3 : Nat) : Int)
        = ((data.Pix i j).R + (data.Pix i j).G + (data.Pix i j).B) / 3 := by
      unfold uint8
      omega
    have hw : ∀ clr, written data "G" clr i j
        = (if clr = "R" then
            ⟨((data.Pix i j).R + (data.Pix i j).G + (data.Pix i j).B) / 3, 0, 0, 0⟩
          else if clr = "G" then
            ⟨0, ((data.Pix i j).R + (data.Pix i j).G + (data.Pix i j).B) / 3, 0, 0⟩
          else if clr = "B" then
            ⟨0, 0, ((data.Pix i j).R + (data.Pix i j).G + (data.Pix i j).B) / 3, 0⟩
          else ⟨0, 0, 0, 255⟩) := by
      intro clr
      simp only [written, if_true]
      rw [hR, hG, hB, hq, hu8]
    rw [hw, hw, hw, hw, hAt]
    have h255 : expand16 255 % 256 = 255 := expand16_mod 255 (by omega)
    simp [Color.RGBA, expand16_mod _ hlt, h255]

/-! ## The task decomposer -/

theorem getD_set_string (l : List String) (i j : Nat) (a : String) (hi : i < l.length) :
    (l.set i a).getD j "" = if j = i then a else l.getD j "" := by
  simp only [List.getD_eq_getElem?_getD, List.getElem?_set]
  by_cases h : i = j
  · subst h
    simp [hi]
  · have h2 : ¬ j = i := fun e => h e.symm
    simp [h, h2]

/-- The state of the loop of `newTasks` after `i` iterations. -/
theorem newTasks_loop (Join : String → String → String) (path : String) (row : List String)
    (i : Nat) (hi : i ≤ row.length) :
    ((List.range i).foldl (newTasksStep Join path ["R", "G", "B", "A"]) ⟨row, 0, []⟩).row.length
        = row.length
    ∧ (∀ j, ((List.range i).foldl (newTasksStep Join path ["R", "G", "B", "A"])
          ⟨row, 0, []⟩).row.getD j ""
        = if j < i then processedField Join path row j else row.getD j "")
    ∧ ((List.range i).foldl (newTasksStep Join path ["R", "G", "B", "A"]) ⟨row, 0, []⟩).ops
        = ((4 * (i - 2) : Nat) : Int)
    ∧ ((List.range i).foldl (newTasksStep Join path ["R", "G", "B", "A"]) ⟨row, 0, []⟩).tempTasks
        = emitted Join path row (i - 2) := by
  induction i with
  | zero => simp [emitted]
  | succ i ih =>
    obtain ⟨h1, h2, h3, h4⟩ := ih (by omega)
    rw [List.range_succ, List.foldl_append]
    simp only [List.foldl_cons, List.foldl_nil]
    generalize (List.range i).foldl (newTasksStep Join path ["R", "G", "B", "A"]) ⟨row, 0, []⟩
      = st at h1 h2 h3 h4
    have hil : i < st.row.length := by omega
    by_cases hlt : i < 2
    · have hnot : ¬ i > 1 := by omega
      have e0 : i - 2 = 0 := by omega
      have e1 : i + 1 - 2 = 0 := by omega
      simp only [newTasksStep, hlt, hnot, if_true, if_false, List.length_set, h1, h3, h4, e0, e1,
        true_and]
      refine ⟨?_, trivial⟩
      intro j
      have hlen2 : i < (st.row.set i (TrimSpace (st.row.getD i ""))).length := by
        rw [List.length_set]
        exact hil
      rw [getD_set_string _ _ _ _ hlen2]
      by_cases hj : j = i
      · subst hj
        rw [if_pos rfl, if_pos (Nat.lt_succ_self _), getD_set_string _ _ _ _ hil, if_pos rfl, h2,
          if_neg (Nat.lt_irrefl _), processedField, if_pos hlt]
      · rw [if_neg hj, getD_set_string _ _ _ _ hil, if_neg hj, h2]
        by_cases hji : j < i
        · rw [if_pos hji, if_pos (by omega)]
        · rw [if_neg hji, if_neg (by omega)]
    · have hgt : i > 1 := by omega
      have e1 : i + 1 - 2 = (i - 2) + 1 := by omega
      have hrow0 : ∀ j, (st.row.set i (TrimSpace (st.row.getD i ""))).getD j ""
          = if j < i + 1 then processedField Join path row j else row.getD j "" := by
        intro j
        rw [getD_set_string _ _ _ _ hil]
        by_cases hj : j = i
        · subst hj
          rw [if_pos rfl, if_pos (Nat.lt_succ_self _), h2, if_neg (Nat.lt_irrefl _),
            processedField, if_neg hlt]
        · rw [if_neg hj, h2]
          by_cases hji : j < i
          · rw [if_pos hji, if_pos (by omega)]
          · rw [if_neg hji, if_neg (by omega)]
      simp only [newTasksStep, hlt, hgt, if_true, if_false, List.foldl_cons, List.foldl_nil,
        List.length_set, h1, true_and]
      refine ⟨hrow0, ?_, ?_⟩
      · rw [h3, e1]
        push_cast
        ring
      · rw [h4, e1, emitted, emitted, List.range_succ, List.flatMap_append, hrow0 0, hrow0 1,
          hrow0 i]
        have i0 : 0 < i + 1 := by omega
        have i1 : 1 < i + 1 := by omega
        have i2 : i - 2 + 2 = i := by omega
        simp [i0, i1, i2, processedField, hlt]

/-- What `newTasks` returns: the tasks for all the effect columns, and the fresh shared
state whose counter is the number of tasks. -/
theorem newTasks_eq (Join : String → String → String) (line path : String) :
    newTasks Join line path
      = (emitted Join path (Split line ',') ((Split line ',').length - 2),
         freshCanvas ((4 * ((Split line ',').length - 2) : Nat) : Int)) := by
  obtain ⟨-, -, h3, h4⟩ := newTasks_loop Join path (Split line ',') (Split line ',').length
    (le_refl _)
  simp only [newTasks, h3, h4, freshCanvas]

theorem emitted_succ (Join : String → String → String) (path : String) (row : List String)
    (m : Nat) :
    emitted Join path row (m + 1) = emitted Join path row m ++
      [newTask (processedField Join path row 0) (processedField Join path row 1)
          (TrimSpace (row.getD (m + 2) "")) "R",
       newTask (processedField Join path row 0) (processedField Join path row 1)
          (TrimSpace (row.getD (m + 2) "")) "G",
       newTask (processedField Join path row 0) (processedField Join path row 1)
          (TrimSpace (row.getD (m + 2) "")) "B",
       newTask (processedField Join path row 0) (processedField Join path row 1)
          (TrimSpace (row.getD (m + 2) "")) "A"] := by
  simp only [emitted, List.range_succ, List.flatMap_append, List.flatMap_singleton]

theorem emitted_length (Join : String → String → String) (path : String) (row : List String)
    (m : Nat) : (emitted Join path row m).length = 4 * m := by
  induction m with
  | zero => rfl
  | succ m ih =>
    rw [emitted_succ, List.length_append, ih]
    simp only [List.length_cons, List.length_nil]
    omega

/-- The task at position `4 * p + j` is the one of the effect column `p` and the colour `j`. -/
theorem emitted_getElem? (Join : String → String → String) (path : String) (row : List String)
    (m p j : Nat) (hp : p < m) (hj : j < 4) :
    (emitted Join path row m)[4 * p + j]?
      = some (newTask (processedField Join path row 0) (processedField Join path row 1)
          (TrimSpace (row.getD (p + 2) "")) (["R", "G", "B", "A"].getD j "")) := by
  induction m with
  | zero => omega
  | succ m ih =>
    rw [emitted_succ]
    by_cases hpm : p < m
    · rw [List.getElem?_append_left (by rw [emitted_length]; omega)]
      exact ih hpm
    · have hpe : p = m := by omega
      subst hpe
      rw [List.getElem?_append_right (by rw [emitted_length]; omega), emitted_length]
      have e : 4 * p + j - 4 * p = j := by omega
      rw [e]
      interval_cases j <;> rfl

/-- Every task of a line has the same two file names and a colour among R, G, B, A. -/
theorem emitted_mem (Join : String → String → String) (path : String) (row : List String)
    (m : Nat) (u : task) (hu : u ∈ emitted Join path row m) :
    u.file_in = processedField Join path row 0 ∧ u.file_out = processedField Join path row 1
      ∧ (u.color = "R" ∨ u.color = "G" ∨ u.color = "B" ∨ u.color = "A") := by
  simp only [emitted, List.mem_flatMap, List.mem_range, List.mem_cons, List.mem_singleton,
    List.not_mem_nil, or_false] at hu
  obtain ⟨p, -, h | h | h | h⟩ := hu <;> subst h <;> simp [newTask]

/-- C2: for a manifest line that splits on ',' into `n` fields, `newTasks` emits exactly
`4 * (n - 2)` tasks (none when `n ≤ 2`); the task at position `4 * i + j` has the trimmed
field `i + 2` as its effect and the `j`-th of R, G, B, A as its colour; and the counter of
the state that the tasks share is `4 * (n - 2)` when the tasks are emitted. -/
theorem newTasks_units (Join : String → String → String) (line path : String) :
    (newTasks Join line path).1.length = 4 * ((Split line ',').length - 2)
    ∧ (newTasks Join line path).2.counter = ((4 * ((Split line ',').length - 2) : Nat) : Int)
    ∧ (∀ i j, i + 2 < (Split line ',').length → j < 4 →
        ∃ u, (newTasks Join line path).1[4 * i + j]? = some u
          ∧ u.effect = TrimSpace ((Split line ',').getD (i + 2) "")
          ∧ u.color = ["R", "G", "B", "A"].getD j "")
    ∧ ((Split line ',').length ≤ 2 → (newTasks Join line path).1 = []) := by
  rw [newTasks_eq]
  refine ⟨emitted_length _ _ _ _, rfl, ?_, ?_⟩
  · intro i j hi hj
    exact ⟨_, emitted_getElem? Join path _ _ i j (by omega) hj, rfl, rfl⟩
  · intro h
    have e : (Split line ',').length - 2 = 0 := by omega
    simp only [e]
    rfl

/-- Witness of C2: the line `a.png, out.png, B ,G` gives 8 tasks and a counter of 8; the
task at position 4 * 1 + 2 has the effect of the second effect column and the colour B. -/
theorem newTasks_units_witness :
    (newTasks (fun p f => p ++ "/" ++ f) "a.png, out.png, B ,G" "dir").1.length = 8
    ∧ (newTasks (fun p f => p ++ "/" ++ f) "a.png, out.png, B ,G" "dir").2.counter = 8
    ∧ ∃ u, (newTasks (fun p f => p ++ "/" ++ f) "a.png, out.png, B ,G" "dir").1[4 * 1 + 2]?
          = some u ∧ u.effect = "G" ∧ u.color = "B" :=
  ⟨(newTasks_units (fun p f => p ++ "/" ++ f) "a.png, out.png, B ,G" "dir").1,
   (newTasks_units (fun p f => p ++ "/" ++ f) "a.png, out.png, B ,G" "dir").2.1,
   (newTasks_units (fun p f => p ++ "/" ++ f) "a.png, out.png, B ,G" "dir").2.2.1 1 2
     (by decide) (by decide)⟩

/-! ## The order of the tasks of one image -/

/-- The layers after a run depend on the tasks only through the last effect of each colour. -/
theorem layersAfter_congr (data : RGBA) (us vs : List task)
    (h : ∀ clr ∈ ["R", "G", "B", "A"], lastEffect clr vs = lastEffect clr us) :
    layersAfter data vs = layersAfter data us := by
  have hR := h "R" (by simp)
  have hG := h "G" (by simp)
  have hB := h "B" (by simp)
  have hA := h "A" (by simp)
  simp only [layersAfter, layerAfter, hR, hG, hB, hA]

theorem flatAfter_congr (data : RGBA) (us vs : List task)
    (h : ∀ clr ∈ ["R", "G", "B", "A"], lastEffect clr vs = lastEffect clr us) :
    flatAfter data vs = flatAfter data us := by
  have hR := h "R" (by simp)
  have hG := h "G" (by simp)
  have hB := h "B" (by simp)
  have hA := h "A" (by simp)
  simp only [flatAfter, layerAfter, hR, hG, hB, hA]

/-- C4, amended: for every source image and every manifest line, a worker that processes
the tasks of the line in a permutation of their emission order in which, for each of
the colours R, G, B, A, the last task of that colour has the same effect as in the
emission order, ends in the same state and pushes the same flattened image as in the
emission order; for a line with an effect column that image is pushed, once. -/
theorem flatten_order_independent (Join : String → String → String) (line path : String)
    (copyImg : String → Option RGBA) (data : RGBA) (vs : List task)
    (hsrc : ∀ u ∈ (newTasks Join line path).1, copyImg u.file_in = some data)
    (hperm : vs.Perm (newTasks Join line path).1)
    (hlast : ∀ clr ∈ ["R", "G", "B", "A"],
      lastEffect clr vs = lastEffect clr (newTasks Join line path).1) :
    Process copyImg vs (newTasks Join line path).2
        = Process copyImg (newTasks Join line path).1 (newTasks Join line path).2
    ∧ ((newTasks Join line path).1 ≠ [] →
        ∃ cv out, Process copyImg (newTasks Join line path).1 (newTasks Join line path).2
          = some (cv, [out])) := by
  rw [newTasks_eq] at hsrc hperm hlast ⊢
  simp only
  generalize hus : emitted Join path (Split line ',') ((Split line ',').length - 2) = us
    at hsrc hperm hlast
  have hlen : ((4 * ((Split line ',').length - 2) : Nat) : Int) = (us.length : Int) := by
    rw [← hus, emitted_length]
  have hmem : ∀ u ∈ us, copyImg u.file_in = some data
      ∧ u.file_out = processedField Join path (Split line ',') 1
      ∧ (u.color = "R" ∨ u.color = "G" ∨ u.color = "B" ∨ u.color = "A") := by
    intro u hu
    have := emitted_mem Join path (Split line ',') _ u (hus ▸ hu)
    exact ⟨hsrc u hu, this.2.1, this.2.2⟩
  by_cases hne : us = []
  · subst hne
    have hv : vs = [] := List.Perm.eq_nil hperm
    subst hv
    exact ⟨rfl, fun h => absurd rfl h⟩
  · have hvne : vs ≠ [] := fun hv => hne (by subst hv; exact (List.Perm.nil_eq hperm).symm)
    have hvlen : (us.length : Int) = (vs.length : Int) := by rw [hperm.length_eq]
    have h1 := Process_eq copyImg data _ us hne hmem
    have h2 := Process_eq copyImg data (processedField Join path (Split line ',') 1) vs hvne
      (fun u hu => hmem u (hperm.subset hu))
    rw [hlen]
    refine ⟨?_, fun _ => ⟨_, _, h1⟩⟩
    rw [h1, hvlen, h2, layersAfter_congr data us vs hlast, flatAfter_congr data us vs hlast]

/-- Counterexample to C4 as stated: for the line `a.png, out.png, B, G` and the 2 by 2
sample image, the emission order ends with the grayscale tasks and gives (20,20,20,255)
at the pixel (0,0); the permutation that runs the four grayscale tasks first ends with
the blur tasks and gives (31,35,40,255) there. -/
theorem flatten_order_counterexample :
    List.Perm
      [⟨"dir/a.png", "dir/out.png", "G", "R"⟩, ⟨"dir/a.png", "dir/out.png", "G", "G"⟩,
       ⟨"dir/a.png", "dir/out.png", "G", "B"⟩, ⟨"dir/a.png", "dir/out.png", "G", "A"⟩,
       ⟨"dir/a.png", "dir/out.png", "B", "R"⟩, ⟨"dir/a.png", "dir/out.png", "B", "G"⟩,
       ⟨"dir/a.png", "dir/out.png", "B", "B"⟩, ⟨"dir/a.png", "dir/out.png", "B", "A"⟩]
      (newTasks sampleJoin "a.png, out.png, B, G" "dir").1
    ∧ pushedAt (Process sampleCopyImg (newTasks sampleJoin "a.png, out.png, B, G" "dir").1
        (newTasks sampleJoin "a.png, out.png, B, G" "dir").2) 0 0 = some [⟨20, 20, 20, 255⟩]
    ∧ pushedAt (Process sampleCopyImg
        [⟨"dir/a.png", "dir/out.png", "G", "R"⟩, ⟨"dir/a.png", "dir/out.png", "G", "G"⟩,
         ⟨"dir/a.png", "dir/out.png", "G", "B"⟩, ⟨"dir/a.png", "dir/out.png", "G", "A"⟩,
         ⟨"dir/a.png", "dir/out.png", "B", "R"⟩, ⟨"dir/a.png", "dir/out.png", "B", "G"⟩,
         ⟨"dir/a.png", "dir/out.png", "B", "B"⟩, ⟨"dir/a.png", "dir/out.png", "B", "A"⟩]
        (newTasks sampleJoin "a.png, out.png, B, G" "dir").2) 0 0 = some [⟨31, 35, 40, 255⟩] := by
  refine ⟨?_, ?_, ?_⟩
  · decide
  · decide
  · decide

/-- Witness of C4, amended: for the line `a.png, out.png, B` the four blur tasks run in
the reverse of their emission order give the same result as in the emission order. -/
theorem flatten_order_independent_witness :
    Process sampleCopyImg
        [⟨"dir/a.png", "dir/out.png", "B", "A"⟩, ⟨"dir/a.png", "dir/out.png", "B", "B"⟩,
         ⟨"dir/a.png", "dir/out.png", "B", "G"⟩, ⟨"dir/a.png", "dir/out.png", "B", "R"⟩]
        (newTasks sampleJoin "a.png, out.png, B" "dir").2
      = Process sampleCopyImg (newTasks sampleJoin "a.png, out.png, B" "dir").1
          (newTasks sampleJoin "a.png, out.png, B" "dir").2 :=
  (flatten_order_independent sampleJoin "a.png, out.png, B" "dir" sampleCopyImg sampleImage
    [⟨"dir/a.png", "dir/out.png", "B", "A"⟩, ⟨"dir/a.png", "dir/out.png", "B", "B"⟩,
     ⟨"dir/a.png", "dir/out.png", "B", "G"⟩, ⟨"dir/a.png", "dir/out.png", "B", "R"⟩]
    (fun _ _ => rfl) (by decide) (by decide)).1

/-- Witness of C9: the pixel (1,0) of the sample image, (50,60,70,80), becomes
(60,60,60,255). -/
theorem grayscale_pixel_witness :
    ∃ cv out, Process sampleCopyImg [⟨"a.png", "out.png", "G", "R"⟩,
          ⟨"a.png", "out.png", "G", "G"⟩, ⟨"a.png", "out.png", "G", "B"⟩,
          ⟨"a.png", "out.png", "G", "A"⟩] (freshCanvas 4)
        = some (cv, [⟨"out.png", out⟩])
      ∧ out.At 1 0 = ⟨60, 60, 60, 255⟩ :=
  grayscale_pixel sampleCopyImg "a.png" "out.png" sampleImage rfl sampleImage_isBytes 1 0
    (by decide)

/-- C10: for every source image, every effect (B, E and S among them) and every pixel
`(i, j)` in bounds, the task of the colour A stores (0,0,0,255) at `(i, j)` of the A layer
whatever the alpha of the source pixel, and the image that a worker pushes after the
four tasks of that effect has alpha 255 at `(i, j)`. -/
theorem alpha_forced (copyImg : String → Option RGBA) (fin fout : String) (data : RGBA)
    (hsrc : copyImg fin = some data) (effect : String)
    (i j : Int) (hin : Point.In ⟨i, j⟩ data.Bounds = true) :
    (∀ rimg gimg bimg aimg : RGBA, aimg.Bounds = data.Bounds →
      ∃ t a, convolute ⟨some data, some rimg, some gimg, some bimg, some aimg⟩ effect "A" = some t
        ∧ t.aimg = some a ∧ a.At i j = ⟨0, 0, 0, 255⟩)
    ∧ ∃ cv out, Process copyImg [⟨fin, fout, effect, "R"⟩, ⟨fin, fout, effect, "G"⟩,
          ⟨fin, fout, effect, "B"⟩, ⟨fin, fout, effect, "A"⟩] (freshCanvas 4)
        = some (cv, [⟨fout, out⟩])
      ∧ (out.At i j).A = 255 := by
  have hw : written data effect "A" i j = ⟨0, 0, 0, 255⟩ := by
    unfold written
    split_ifs <;> simp_all
  constructor
  · intro rimg gimg bimg aimg hb
    refine ⟨_, _, convolute_eq _ data aimg effect "A" (by simp) rfl rfl, rfl, ?_⟩
    rw [RGBA.fill_At aimg _ _ _ _ hin (by rw [← hb] at hin; exact hin), hw]
  · refine ⟨_, _, Process_eq copyImg data fout _ (by simp) ?_, ?_⟩
    · intro u hu
      simp only [List.mem_cons, List.mem_singleton, List.not_mem_nil, or_false] at hu
      rcases hu with h | h | h | h <;> subst h <;> simp [hsrc]
    · rw [flatAfter_At data _ i j hin,
        layerAfter_At data "A" effect _ i j hin (by simp [lastEffect]), hw]
      exact expand16_mod 255 (by omega)

/-- Witness of C10: after the four blur tasks the pixel (1,0) of the sample image, whose
alpha is 80, has alpha 255. -/
theorem alpha_forced_witness :
    ∃ cv out, Process sampleCopyImg [⟨"a.png", "out.png", "B", "R"⟩,
          ⟨"a.png", "out.png", "B", "G"⟩, ⟨"a.png", "out.png", "B", "B"⟩,
          ⟨"a.png", "out.png", "B", "A"⟩] (freshCanvas 4)
        = some (cv, [⟨"out.png", out⟩])
      ∧ (out.At 1 0).A = 255 :=
  (alpha_forced sampleCopyImg "a.png" "out.png" sampleImage rfl "B" 1 0 (by decide)).2

/-! ## Unknown effects -/

theorem layer_setLayer (t : layers) (clr : String) (b : RGBA) :
    (t.setLayer clr b).layer clr = some b := by
  unfold layers.setLayer layers.layer
  split_ifs <;> rfl

theorem setLayer_img (t : layers) (clr : String) (b : RGBA) :
    (t.setLayer clr b).img = t.img := by
  unfold layers.setLayer
  split_ifs <;> rfl

theorem layer_setLayer_other (t : layers) (clr c2 : String) (b : RGBA)
    (hclr : clr = "R" ∨ clr = "G" ∨ clr = "B" ∨ clr = "A")
    (hc2 : c2 = "R" ∨ c2 = "G" ∨ c2 = "B" ∨ c2 = "A") (hne : c2 ≠ clr) :
    (t.setLayer clr b).layer c2 = t.layer c2 := by
  rcases hclr with h | h | h | h <;> rcases hc2 with h2 | h2 | h2 | h2 <;> subst h <;> subst h2 <;>
    first
      | exact absurd rfl hne
      | (simp [layers.setLayer, layers.layer])

/-- An effect other than B, E and S makes `change` return 0 without reading a sample. -/
theorem change_other (effect : String) (hB : effect ≠ "B") (hE : effect ≠ "E")
    (hS : effect ≠ "S") (vs : List Nat) : change effect vs = some 0 := by
  unfold change
  rw [if_neg hB, if_neg hE, if_neg hS]
  rfl

/-- C20: for every effect string other than B, E and S and every list of samples (of 9
samples in particular), `change` returns 0; hence a task whose effect is none of B, E,
S, G stores (0,0,0,0) at every pixel in bounds of its R, G or B layer, and (0,0,0,255)
at every pixel in bounds of the A layer. -/
theorem change_unknown (effect : String) (hB : effect ≠ "B") (hE : effect ≠ "E")
    (hS : effect ≠ "S") :
    (∀ vs : List Nat, change effect vs = some 0)
    ∧ (effect ≠ "G" → ∀ (data rimg gimg bimg aimg : RGBA) (clr : String),
        (clr = "R" ∨ clr = "G" ∨ clr = "B" ∨ clr = "A") →
        rimg.Bounds = data.Bounds → gimg.Bounds = data.Bounds →
        bimg.Bounds = data.Bounds → aimg.Bounds = data.Bounds →
        ∃ t l, convolute ⟨some data, some rimg, some gimg, some bimg, some aimg⟩ effect clr
            = some t
          ∧ t.layer clr = some l
          ∧ ∀ i j, Point.In ⟨i, j⟩ data.Bounds = true →
              l.At i j = if clr = "A" then ⟨0, 0, 0, 255⟩ else ⟨0, 0, 0, 0⟩) := by
  refine ⟨change_other effect hB hE hS, ?_⟩
  intro hG data rimg gimg bimg aimg clr hclr hr hg hb ha
  have hlayer : ∃ b, (⟨some data, some rimg, some gimg, some bimg, some aimg⟩ : layers).layer clr
      = some b ∧ b.Bounds = data.Bounds := by
    rcases hclr with h | h | h | h <;> subst h
    · exact ⟨rimg, rfl, hr⟩
    · exact ⟨gimg, rfl, hg⟩
    · exact ⟨bimg, rfl, hb⟩
    · exact ⟨aimg, rfl, ha⟩
  obtain ⟨b, hb1, hb2⟩ := hlayer
  refine ⟨_, _, convolute_eq _ data b effect clr hclr rfl hb1, layer_setLayer _ _ _, ?_⟩
  intro i j hin
  rw [RGBA.fill_At b _ _ _ _ hin (by simp only [RGBA.Bounds] at hb2 hin; rw [hb2]; exact hin)]
  unfold written
  rw [if_neg hG]
  simp only [change_other effect hB hE hS, Option.getD_some]
  rcases hclr with h | h | h | h <;> subst h <;> simp

/-- Witness of C20: the effect `x` on the sample image blanks the pixel (1,0) of the R layer. -/
theorem change_unknown_witness :
    ∃ t l, convolute ⟨some sampleImage, some (NewRGBA sampleImage.Bounds),
          some (NewRGBA sampleImage.Bounds), some (NewRGBA sampleImage.Bounds),
          some (NewRGBA sampleImage.Bounds)⟩ "x" "R" = some t
      ∧ t.layer "R" = some l
      ∧ ∀ i j, Point.In ⟨i, j⟩ sampleImage.Bounds = true →
          l.At i j = if "R" = "A" then ⟨0, 0, 0, 255⟩ else ⟨0, 0, 0, 0⟩ :=
  (change_unknown "x" (by decide) (by decide) (by decide)).2 (by decide) sampleImage
    (NewRGBA sampleImage.Bounds) (NewRGBA sampleImage.Bounds) (NewRGBA sampleImage.Bounds)
    (NewRGBA sampleImage.Bounds) "R" (Or.inl rfl) rfl rfl rfl rfl

/-! ## What a task leaves unchanged -/

/-- A property kept by every step of a loop is kept by the loop. -/
theorem foldlM_preserves {σ α : Type} (R : σ → Prop) (step : σ → α → Option σ)
    (hstep : ∀ a s s2, R s → step s a = some s2 → R s2) (l : List α) :
    ∀ s s2, R s → l.foldlM step s = some s2 → R s2 := by
  induction l with
  | nil =>
    intro s s2 hs h
    simp only [List.foldlM_nil, Option.pure_def, Option.some.injEq] at h
    exact h ▸ hs
  | cons a rest ih =>
    intro s s2 hs h
    simp only [List.foldlM_cons, Option.bind_eq_bind, Option.bind_eq_some] at h
    obtain ⟨s1, h1, h2⟩ := h
    exact ih s1 s2 (hstep a s s1 hs h1) h2

theorem forRange_preserves {σ : Type} (R : σ → Prop) (lo hi : Int) (body : Int → σ → Option σ)
    (hbody : ∀ i s s2, R s → body i s = some s2 → R s2) (s s2 : σ) (hs : R s)
    (h : forRange lo hi body s = some s2) : R s2 :=
  foldlM_preserves R _ (fun _ s s2 hs h => hbody _ s s2 hs h) _ s s2 hs h

/-- One pixel step of `convolute` leaves the source image and the other layers as they are. -/
theorem convolutePixel_frame (data : RGBA) (effect clr : String)
    (hclr : clr = "R" ∨ clr = "G" ∨ clr = "B" ∨ clr = "A")
    (minX maxX minY maxY i j : Int) (s s2 : layers)
    (h : convolutePixel data effect clr minX maxX minY maxY i j s = some s2) :
    s2.img = s.img ∧ ∀ c2, (c2 = "R" ∨ c2 = "G" ∨ c2 = "B" ∨ c2 = "A") → c2 ≠ clr →
      s2.layer c2 = s.layer c2 := by
  have key : ∃ b, s2 = s.setLayer clr b := by
    unfold convolutePixel at h
    rcases hclr with hc | hc | hc | hc <;> subst hc <;>
      by_cases he : effect = "G" <;>
      simp [he, Option.bind_eq_some] at h <;>
      first
        | (obtain ⟨a, -, b, -, h3⟩ := h; exact ⟨_, h3.symm⟩)
        | (obtain ⟨b, -, h3⟩ := h; exact ⟨_, h3.symm⟩)
  obtain ⟨b, rfl⟩ := key
  exact ⟨setLayer_img _ _ _, fun c2 hc2 hne => layer_setLayer_other _ _ _ _ hclr hc2 hne⟩

/-- C17: for every state of the layers, every effect and every colour `clr` among R, G, B,
A, a run of `convolute` for the task `(effect, clr)` leaves the source image and the
layers of the three other colours exactly as they were; and it does return when the
source image and the layers are allocated. -/
theorem convolute_frame (t : layers) (effect clr : String)
    (hclr : clr = "R" ∨ clr = "G" ∨ clr = "B" ∨ clr = "A") :
    (∀ t2, convolute t effect clr = some t2 →
      t2.img = t.img ∧ ∀ c2, (c2 = "R" ∨ c2 = "G" ∨ c2 = "B" ∨ c2 = "A") → c2 ≠ clr →
        t2.layer c2 = t.layer c2)
    ∧ (∀ data rimg gimg bimg aimg, t = ⟨some data, some rimg, some gimg, some bimg, some aimg⟩ →
        ∃ t2, convolute t effect clr = some t2) := by
  constructor
  · intro t2 h
    unfold convolute at h
    cases himg : t.img with
    | none => rw [himg] at h; exact absurd h (by simp)
    | some data =>
      rw [himg] at h
      simp only at h
      rw [← himg]
      refine forRange_preserves
        (fun s => s.img = t.img ∧ ∀ c2, (c2 = "R" ∨ c2 = "G" ∨ c2 = "B" ∨ c2 = "A") → c2 ≠ clr →
          s.layer c2 = t.layer c2) _ _ _ ?_ t t2 ⟨rfl, fun _ _ _ => rfl⟩ h
      intro i s s2 hs hi
      refine forRange_preserves
        (fun s => s.img = t.img ∧ ∀ c2, (c2 = "R" ∨ c2 = "G" ∨ c2 = "B" ∨ c2 = "A") → c2 ≠ clr →
          s.layer c2 = t.layer c2) _ _ _ ?_ s s2 hs hi
      intro j s3 s4 hs3 hj
      obtain ⟨f1, f2⟩ := convolutePixel_frame data effect clr hclr _ _ _ _ i j s3 s4 hj
      exact ⟨f1.trans hs3.1, fun c2 hc2 hne => (f2 c2 hc2 hne).trans (hs3.2 c2 hc2 hne)⟩
  · intro data rimg gimg bimg aimg ht
    subst ht
    have hlayer : ∃ b, (⟨some data, some rimg, some gimg, some bimg, some aimg⟩ : layers).layer clr
        = some b := by
      rcases hclr with h | h | h | h <;> subst h <;> exact ⟨_, rfl⟩
    obtain ⟨b, hb⟩ := hlayer
    exact ⟨_, convolute_eq _ data b effect clr hclr rfl hb⟩
/-- Witness of C17: the blur task of the colour R on the sample image, from blank layers,
returns and leaves the source image and the G layer as they were. -/
theorem convolute_frame_witness :
    ∃ t2, convolute (layersAfter sampleImage []) "B" "R" = some t2
      ∧ t2.img = (layersAfter sampleImage []).img
      ∧ t2.layer "G" = (layersAfter sampleImage []).layer "G" :=
  ((convolute_frame (layersAfter sampleImage []) "B" "R" (Or.inl rfl)).2
      sampleImage _ _ _ _ rfl).elim
    (fun t2 h2 =>
      ⟨t2, h2,
        ((convolute_frame (layersAfter sampleImage []) "B" "R" (Or.inl rfl)).1 t2 h2).1,
        ((convolute_frame (layersAfter sampleImage []) "B" "R" (Or.inl rfl)).1 t2 h2).2 "G"
          (Or.inr (Or.inl rfl)) (by decide)⟩)

/-! ## Sequences of tasks -/

/-- Running `convolute` for a list of tasks in order, from allocated layers. -/
theorem foldlM_convolute (data : RGBA) (us : List task) :
    ∀ pre : List task,
    (∀ u ∈ us, u.color = "R" ∨ u.color = "G" ∨ u.color = "B" ∨ u.color = "A") →
    us.foldlM (fun t u => convolute t u.effect u.color) (layersAfter data pre)
      = some (layersAfter data (pre ++ us)) := by
  induction us with
  | nil =>
    intro pre _
    simp
  | cons u rest ih =>
    intro pre hus
    rw [List.foldlM_cons, convolute_layersAfter data pre u (hus u (List.mem_cons_self _ _))]
    simp only [Option.bind_eq_bind, Option.some_bind]
    rw [ih (pre ++ [u]) (fun v hv => hus v (List.mem_cons_of_mem _ hv))]
    simp

/-- The colour stored by a task has zero components outside the colour of the task. -/
theorem written_foreign (data : RGBA) (effect : String) (x y : Int) :
    ((written data effect "R" x y).G = 0 ∧ (written data effect "R" x y).B = 0
      ∧ (written data effect "R" x y).A = 0)
    ∧ ((written data effect "G" x y).R = 0 ∧ (written data effect "G" x y).B = 0
      ∧ (written data effect "G" x y).A = 0)
    ∧ ((written data effect "B" x y).R = 0 ∧ (written data effect "B" x y).G = 0
      ∧ (written data effect "B" x y).A = 0)
    ∧ ((written data effect "A" x y).R = 0 ∧ (written data effect "A" x y).G = 0
      ∧ (written data effect "A" x y).B = 0) := by
  unfold written
  by_cases he : effect = "G" <;> simp [he]

/-- A stored pixel of a layer after a run is blank or was stored by a task of the colour. -/
theorem layerAfter_Pix (data : RGBA) (clr : String) (us : List task) (x y : Int) :
    (layerAfter data (NewRGBA data.Bounds) clr us).Pix x y = ⟨0, 0, 0, 0⟩
    ∨ ∃ e, (layerAfter data (NewRGBA data.Bounds) clr us).Pix x y = written data e clr x y := by
  unfold layerAfter
  cases lastEffect clr us with
  | none => exact Or.inl rfl
  | some e =>
    simp only [RGBA.fill, RGBA.fillWhere, NewRGBA]
    split_ifs
    · exact Or.inr ⟨e, rfl⟩
    · exact Or.inl rfl

/-- C18: from freshly allocated layers, after `convolute` has run for any sequence of
tasks (of colours among R, G, B, A), every stored pixel of every layer has its three
foreign components equal to 0: green, blue and alpha in the R layer; red, blue and alpha
in the G layer; red, green and alpha in the B layer; red, green and blue in the A layer. -/
theorem foreign_components_zero (data : RGBA) (us : List task)
    (hus : ∀ u ∈ us, u.color = "R" ∨ u.color = "G" ∨ u.color = "B" ∨ u.color = "A") :
    ∃ t0 t r g b a, initLayers ⟨some data, none, none, none, none⟩ = some t0
      ∧ us.foldlM (fun t u => convolute t u.effect u.color) t0 = some t
      ∧ t.rimg = some r ∧ t.gimg = some g ∧ t.bimg = some b ∧ t.aimg = some a
      ∧ ∀ x y,
          ((r.Pix x y).G = 0 ∧ (r.Pix x y).B = 0 ∧ (r.Pix x y).A = 0)
          ∧ ((g.Pix x y).R = 0 ∧ (g.Pix x y).B = 0 ∧ (g.Pix x y).A = 0)
          ∧ ((b.Pix x y).R = 0 ∧ (b.Pix x y).G = 0 ∧ (b.Pix x y).A = 0)
          ∧ ((a.Pix x y).R = 0 ∧ (a.Pix x y).G = 0 ∧ (a.Pix x y).B = 0) := by
  refine ⟨layersAfter data [], layersAfter data ([] ++ us), _, _, _, _, rfl,
    foldlM_convolute data us [] hus, rfl, rfl, rfl, rfl, ?_⟩
  intro x y
  simp only [List.nil_append]
  refine ⟨?_, ?_, ?_, ?_⟩
  · rcases layerAfter_Pix data "R" us x y with h | ⟨e, h⟩
    · rw [h]; exact ⟨rfl, rfl, rfl⟩
    · rw [h]; exact (written_foreign data e x y).1
  · rcases layerAfter_Pix data "G" us x y with h | ⟨e, h⟩
    · rw [h]; exact ⟨rfl, rfl, rfl⟩
    · rw [h]; exact (written_foreign data e x y).2.1
  · rcases layerAfter_Pix data "B" us x y with h | ⟨e, h⟩
    · rw [h]; exact ⟨rfl, rfl, rfl⟩
    · rw [h]; exact (written_foreign data e x y).2.2.1
  · rcases layerAfter_Pix data "A" us x y with h | ⟨e, h⟩
    · rw [h]; exact ⟨rfl, rfl, rfl⟩
    · rw [h]; exact (written_foreign data e x y).2.2.2

/-- Witness of C18: the sample image after a blur task and a grayscale task of the colour R
and an edge task of the colour A. -/
theorem foreign_components_zero_witness :
    ∃ t0 t r g b a, initLayers ⟨some sampleImage, none, none, none, none⟩ = some t0
      ∧ [(⟨"a", "b", "B", "R"⟩ : task), ⟨"a", "b", "G", "R"⟩, ⟨"a", "b", "E", "A"⟩].foldlM
          (fun t u => convolute t u.effect u.color) t0 = some t
      ∧ t.rimg = some r ∧ t.gimg = some g ∧ t.bimg = some b ∧ t.aimg = some a
      ∧ ∀ x y,
          ((r.Pix x y).G = 0 ∧ (r.Pix x y).B = 0 ∧ (r.Pix x y).A = 0)
          ∧ ((g.Pix x y).R = 0 ∧ (g.Pix x y).B = 0 ∧ (g.Pix x y).A = 0)
          ∧ ((b.Pix x y).R = 0 ∧ (b.Pix x y).G = 0 ∧ (b.Pix x y).A = 0)
          ∧ ((a.Pix x y).R = 0 ∧ (a.Pix x y).G = 0 ∧ (a.Pix x y).B = 0) :=
  foreign_components_zero sampleImage
    [⟨"a", "b", "B", "R"⟩, ⟨"a", "b", "G", "R"⟩, ⟨"a", "b", "E", "A"⟩] (by decide)

/-! ## The last effect of a line -/

/-- A later task of the colour decides the last effect. -/
theorem lastEffect_append_of_some (clr e : String) (xs ys : List task)
    (h : lastEffect clr ys = some e) : lastEffect clr (xs ++ ys) = some e := by
  unfold lastEffect at h ⊢
  rw [List.reverse_append, List.find?_append]
  cases hf : ys.reverse.find? (fun u => decide (u.color = clr)) with
  | none => rw [hf] at h; exact absurd h (by simp)
  | some u => rw [hf] at h; simpa using h

/-- C19: for a manifest line with the effect columns `e1, ..., ek` (`k ≥ 1`), a worker that
processes all `4 * k` tasks in emission order pushes the same flattened image as a worker
that processes only the last four tasks, which are the tasks of `ek` for the colours
R, G, B, A: what `e1, ..., e(k-1)` stored is overwritten. -/
theorem last_effect_wins (Join : String → String → String) (line path : String)
    (copyImg : String → Option RGBA) (data : RGBA) (k : Nat) (hk : 1 ≤ k)
    (hline : (Split line ',').length = k + 2)
    (hsrc : ∀ u ∈ (newTasks Join line path).1, copyImg u.file_in = some data) :
    ∃ cv1 cv2 fout out,
      Process copyImg (newTasks Join line path).1 (newTasks Join line path).2
        = some (cv1, [⟨fout, out⟩])
      ∧ Process copyImg ((newTasks Join line path).1.drop (4 * (k - 1))) (freshCanvas 4)
        = some (cv2, [⟨fout, out⟩])
      ∧ ((newTasks Join line path).1.drop (4 * (k - 1))).map (fun u => (u.effect, u.color))
        = [(TrimSpace ((Split line ',').getD (k + 1) ""), "R"),
           (TrimSpace ((Split line ',').getD (k + 1) ""), "G"),
           (TrimSpace ((Split line ',').getD (k + 1) ""), "B"),
           (TrimSpace ((Split line ',').getD (k + 1) ""), "A")] := by
  rw [newTasks_eq] at hsrc ⊢
  simp only
  have hk2 : (Split line ',').length - 2 = (k - 1) + 1 := by omega
  rw [hk2] at hsrc ⊢
  have hk3 : k - 1 + 2 = k + 1 := by omega
  have hsplit := emitted_succ Join path (Split line ',') (k - 1)
  rw [hk3] at hsplit
  generalize hus : emitted Join path (Split line ',') (k - 1 + 1) = us at hsrc hsplit
  generalize hpre : emitted Join path (Split line ',') (k - 1) = pre at hsplit
  have hprelen : pre.length = 4 * (k - 1) := by rw [← hpre, emitted_length]
  have huslen : us.length = 4 * (k - 1 + 1) := by rw [← hus, emitted_length]
  have hmem : ∀ u ∈ us, copyImg u.file_in = some data
      ∧ u.file_out = processedField Join path (Split line ',') 1
      ∧ (u.color = "R" ∨ u.color = "G" ∨ u.color = "B" ∨ u.color = "A") := by
    intro u hu
    have := emitted_mem Join path (Split line ',') _ u (hus ▸ hu)
    exact ⟨hsrc u hu, this.2.1, this.2.2⟩
  have hdrop : us.drop (4 * (k - 1))
      = [newTask (processedField Join path (Split line ',') 0)
          (processedField Join path (Split line ',') 1)
          (TrimSpace ((Split line ',').getD (k + 1) "")) "R",
         newTask (processedField Join path (Split line ',') 0)
          (processedField Join path (Split line ',') 1)
          (TrimSpace ((Split line ',').getD (k + 1) "")) "G",
         newTask (processedField Join path (Split line ',') 0)
          (processedField Join path (Split line ',') 1)
          (TrimSpace ((Split line ',').getD (k + 1) "")) "B",
         newTask (processedField Join path (Split line ',') 0)
          (processedField Join path (Split line ',') 1)
          (TrimSpace ((Split line ',').getD (k + 1) "")) "A"] := by
    rw [hsplit, ← hprelen, List.drop_left]
  have hne : us ≠ [] := by
    intro h
    rw [h] at huslen
    simp at huslen
  have hlast : ∀ clr ∈ ["R", "G", "B", "A"],
      lastEffect clr (us.drop (4 * (k - 1))) = lastEffect clr us := by
    intro clr hclr
    have hb : lastEffect clr (us.drop (4 * (k - 1)))
        = some (TrimSpace ((Split line ',').getD (k + 1) "")) := by
      rw [hdrop]
      simp only [List.mem_cons, List.mem_singleton, List.not_mem_nil, or_false] at hclr
      rcases hclr with h | h | h | h <;> subst h <;> simp [lastEffect, newTask]
    rw [hb]
    conv_rhs => rw [← List.take_append_drop (4 * (k - 1)) us]
    exact (lastEffect_append_of_some _ _ _ _ hb).symm
  have h1 := Process_eq copyImg data _ us hne hmem
  have h2 := Process_eq copyImg data (processedField Join path (Split line ',') 1)
    (us.drop (4 * (k - 1))) (by rw [hdrop]; simp)
    (fun u hu => hmem u (List.mem_of_mem_drop hu))
  have hlen4 : ((us.drop (4 * (k - 1))).length : Int) = 4 := by
    rw [hdrop]
    rfl
  rw [hlen4, flatAfter_congr data us _ hlast] at h2
  have hcnt : ((4 * (k - 1 + 1) : Nat) : Int) = (us.length : Int) := by rw [huslen]
  rw [hcnt]
  refine ⟨_, _, _, _, h1, h2, ?_⟩
  rw [hdrop]
  rfl

/-- Witness of C19: for the line `a.png, out.png, B, G` the eight tasks give the image that
the four grayscale tasks give alone. -/
theorem last_effect_wins_witness :
    ∃ cv1 cv2 fout out,
      Process sampleCopyImg (newTasks sampleJoin "a.png, out.png, B, G" "dir").1
          (newTasks sampleJoin "a.png, out.png, B, G" "dir").2
        = some (cv1, [⟨fout, out⟩])
      ∧ Process sampleCopyImg
          ((newTasks sampleJoin "a.png, out.png, B, G" "dir").1.drop (4 * (2 - 1)))
          (freshCanvas 4)
        = some (cv2, [⟨fout, out⟩])
      ∧ ((newTasks sampleJoin "a.png, out.png, B, G" "dir").1.drop (4 * (2 - 1))).map
          (fun u => (u.effect, u.color))
        = [("G", "R"), ("G", "G"), ("G", "B"), ("G", "A")] :=
  last_effect_wins sampleJoin "a.png, out.png, B, G" "dir" sampleCopyImg sampleImage 2
    (by decide) (by decide) (fun _ _ => rfl)

/-! ## Images smaller than the kernel -/

/-- Outside the bounds `conform` returns 0 for every colour. -/
theorem conform_outside (data : RGBA) (clr : String) (x y : Int)
    (hout : Point.In ⟨x, y⟩ data.Bounds = false) :
    conform data clr x y data.Bounds.Min.X data.Bounds.Max.X
      data.Bounds.Min.Y data.Bounds.Max.Y = 0 := by
  have hAt : data.At x y = ⟨0, 0, 0, 0⟩ := by
    simp only [RGBA.Bounds] at hout
    simp [RGBA.At, hout]
  have h0 : expand16 0 % 256 = 0 := expand16_mod 0 (by omega)
  unfold conform
  simp only [hAt, Color.RGBA, h0]
  split_ifs <;> rfl

/-- The sample list of `convolute`, spelled out: three rows of three columns. -/
theorem neighbours_eq (data : RGBA) (clr : String) (i j minX maxX minY maxY : Int) :
    neighbours data clr i j minX maxX minY maxY
      = [conform data clr (i + -1) (j + -1) minX maxX minY maxY,
         conform data clr (i + 0) (j + -1) minX maxX minY maxY,
         conform data clr (i + 1) (j + -1) minX maxX minY maxY,
         conform data clr (i + -1) (j + 0) minX maxX minY maxY,
         conform data clr (i + 0) (j + 0) minX maxX minY maxY,
         conform data clr (i + 1) (j + 0) minX maxX minY maxY,
         conform data clr (i + -1) (j + 1) minX maxX minY maxY,
         conform data clr (i + 0) (j + 1) minX maxX minY maxY,
         conform data clr (i + 1) (j + 1) minX maxX minY maxY] := by
  simp [neighbours]

/-- The edge and sharpen effects on a sample list whose only non-zero entry is the centre. -/
theorem change_centre_only (c : Nat) :
    change "E" [0, 0, 0, 0, c, 0, 0, 0, 0] = some (min 255 (8 * c))
    ∧ change "S" [0, 0, 0, 0, c, 0, 0, 0, 0] = some (min 255 (5 * c)) := by
  constructor <;> simp [change, kernelLoop, uint8_clamp] <;> omega

/-- The sample list of the only pixel of an image of one pixel. -/
theorem neighbours_one_pixel (data : RGBA) (clr : String) (x0 y0 : Int)
    (hb : data.Bounds = ⟨⟨x0, y0⟩, ⟨x0 + 1, y0 + 1⟩⟩) :
    neighbours data clr x0 y0 data.Bounds.Min.X data.Bounds.Max.X
        data.Bounds.Min.Y data.Bounds.Max.Y
      = [0, 0, 0, 0, conform data clr x0 y0 data.Bounds.Min.X data.Bounds.Max.X
          data.Bounds.Min.Y data.Bounds.Max.Y, 0, 0, 0, 0] := by
  have hout : ∀ dx dy : Int, ¬ (dx = 0 ∧ dy = 0) → -1 ≤ dx → dx ≤ 1 → -1 ≤ dy → dy ≤ 1 →
      conform data clr (x0 + dx) (y0 + dy) data.Bounds.Min.X data.Bounds.Max.X
        data.Bounds.Min.Y data.Bounds.Max.Y = 0 := by
    intro dx dy hne h1 h2 h3 h4
    apply conform_outside
    rw [hb]
    simp only [Point.In, Bool.and_eq_false_imp, Bool.and_eq_true, decide_eq_true_eq,
      decide_eq_false_iff_not]
    omega
  rw [neighbours_eq]
  rw [hout (-1) (-1) (by omega) (by omega) (by omega) (by omega) (by omega),
    hout 0 (-1) (by omega) (by omega) (by omega) (by omega) (by omega),
    hout 1 (-1) (by omega) (by omega) (by omega) (by omega) (by omega),
    hout (-1) 0 (by omega) (by omega) (by omega) (by omega) (by omega),
    hout 1 0 (by omega) (by omega) (by omega) (by omega) (by omega),
    hout (-1) 1 (by omega) (by omega) (by omega) (by omega) (by omega),
    hout 0 1 (by omega) (by omega) (by omega) (by omega) (by omega),
    hout 1 1 (by omega) (by omega) (by omega) (by omega) (by omega)]
  simp only [add_zero]

/-- C13, amended: for every source image of any size, every effect E or S and every
colour, the sample list that `convolute` passes to `change` has 9 entries for every
pixel, `change` reads no index out of range on it, every sample taken outside the image
is 0, and `convolute` returns when the image and the layers are allocated. For an image
of one pixel whose stored red, green or blue component is `c`, the task of that colour
stores `min 255 (8 * c)` for E and `min 255 (5 * c)` for S; the task of the colour A
stores 255. -/
theorem small_image_safe (data : RGBA) (effect clr : String)
    (he : effect = "E" ∨ effect = "S")
    (hclr : clr = "R" ∨ clr = "G" ∨ clr = "B" ∨ clr = "A") :
    (∀ i j, (neighbours data clr i j data.Bounds.Min.X data.Bounds.Max.X
          data.Bounds.Min.Y data.Bounds.Max.Y).length = 9
        ∧ ∃ r, change effect (neighbours data clr i j data.Bounds.Min.X data.Bounds.Max.X
          data.Bounds.Min.Y data.Bounds.Max.Y) = some r)
    ∧ (∀ (i j dx dy : Int), -1 ≤ dx → dx ≤ 1 → -1 ≤ dy → dy ≤ 1 →
        (neighbours data clr i j data.Bounds.Min.X data.Bounds.Max.X
            data.Bounds.Min.Y data.Bounds.Max.Y)[(3 * (dy + 1) + (dx + 1)).toNat]?
          = some (conform data clr (i + dx) (j + dy) data.Bounds.Min.X data.Bounds.Max.X
              data.Bounds.Min.Y data.Bounds.Max.Y)
        ∧ (Point.In ⟨i + dx, j + dy⟩ data.Bounds = false →
            conform data clr (i + dx) (j + dy) data.Bounds.Min.X data.Bounds.Max.X
              data.Bounds.Min.Y data.Bounds.Max.Y = 0))
    ∧ (∀ rimg gimg bimg aimg : RGBA,
        ∃ t, convolute ⟨some data, some rimg, some gimg, some bimg, some aimg⟩ effect clr
          = some t)
    ∧ (∀ (x0 y0 : Int) (rimg gimg bimg aimg : RGBA),
        data.Bounds = ⟨⟨x0, y0⟩, ⟨x0 + 1, y0 + 1⟩⟩ → data.isBytes →
        rimg.Bounds = data.Bounds → gimg.Bounds = data.Bounds →
        bimg.Bounds = data.Bounds → aimg.Bounds = data.Bounds →
        ∃ t l, convolute ⟨some data, some rimg, some gimg, some bimg, some aimg⟩ effect clr
            = some t
          ∧ t.layer clr = some l
          ∧ l.At x0 y0 =
              (if clr = "R" then
                ⟨min 255 ((if effect = "E" then 8 else 5) * (data.At x0 y0).R), 0, 0, 0⟩
              else if clr = "G" then
                ⟨0, min 255 ((if effect = "E" then 8 else 5) * (data.At x0 y0).G), 0, 0⟩
              else if clr = "B" then
                ⟨0, 0, min 255 ((if effect = "E" then 8 else 5) * (data.At x0 y0).B), 0⟩
              else ⟨0, 0, 0, 255⟩)) := by
  have hlayer : ∀ rimg gimg bimg aimg : RGBA,
      ∃ b, (⟨some data, some rimg, some gimg, some bimg, some aimg⟩ : layers).layer clr = some b
        ∧ (rimg.Bounds = data.Bounds → gimg.Bounds = data.Bounds →
            bimg.Bounds = data.Bounds → aimg.Bounds = data.Bounds → b.Bounds = data.Bounds) := by
    intro rimg gimg bimg aimg
    rcases hclr with h | h | h | h <;> subst h
    · exact ⟨rimg, rfl, fun h _ _ _ => h⟩
    · exact ⟨gimg, rfl, fun _ h _ _ => h⟩
    · exact ⟨bimg, rfl, fun _ _ h _ => h⟩
    · exact ⟨aimg, rfl, fun _ _ _ h => h⟩
  refine ⟨?_, ?_, ?_, ?_⟩
  · intro i j
    exact ⟨neighbours_length _ _ _ _ _ _ _ _,
      change_of_length_nine effect _ (neighbours_length _ _ _ _ _ _ _ _)⟩
  · intro i j dx dy h1 h2 h3 h4
    refine ⟨?_, conform_outside data clr _ _⟩
    rw [neighbours_eq]
    interval_cases dx <;> interval_cases dy <;> rfl
  · intro rimg gimg bimg aimg
    obtain ⟨b, hb, -⟩ := hlayer rimg gimg bimg aimg
    exact ⟨_, convolute_eq _ data b effect clr hclr rfl hb⟩
  · intro x0 y0 rimg gimg bimg aimg hbd hbytes hr hg hb ha
    obtain ⟨b, hb1, hb2⟩ := hlayer rimg gimg bimg aimg
    have hb3 := hb2 hr hg hb ha
    have hin : Point.In ⟨x0, y0⟩ data.Bounds = true := by
      rw [hbd]
      simp [Point.In]
    refine ⟨_, _, convolute_eq _ data b effect clr hclr rfl hb1, layer_setLayer _ _ _, ?_⟩
    rw [RGBA.fill_At b _ _ _ _ hin (by simp only [RGBA.Bounds] at hb3 hin; rw [hb3]; exact hin)]
    have hAt : data.At x0 y0 = data.Pix x0 y0 := by
      simp only [RGBA.Bounds] at hin
      simp [RGBA.At, hin]
    obtain ⟨cR, cG, cB⟩ := conform_inside data hbytes x0 y0 hin
    have hG : effect ≠ "G" := by
      rcases he with h | h <;> subst h <;> decide
    unfold written
    rw [if_neg hG]
    simp only [neighbours_one_pixel data clr x0 y0 hbd, hAt]
    rcases he with h | h <;> subst h <;> rcases hclr with h | h | h | h <;> subst h <;>
      simp [cR, cG, cB, (change_centre_only _).1, (change_centre_only _).2]

/-- Counterexample to C13 as stated: on the image of one pixel, whose alpha is 10, the edge
task of the colour A stores the alpha 255, not `min 255 (8 * 10) = 80`. -/
theorem small_image_counterexample :
    (onePixelImage.At 0 0).A = 10
    ∧ (convolute (layersAfter onePixelImage []) "E" "A").bind
        (fun t => t.aimg.map (fun l => (l.At 0 0).A)) = some 255
    ∧ min 255 (8 * 10) = 80 := by
  decide

theorem onePixelImage_isBytes : onePixelImage.isBytes := by
  intro x y
  show (⟨10, 20, 30, 10⟩ : Color).isBytes
  decide

/-- Witness of C13, amended: on the image of one pixel, whose red component is 10, the edge
task of the colour R stores 80. -/
theorem small_image_safe_witness :
    ∃ t l, convolute ⟨some onePixelImage, some (NewRGBA onePixelImage.Bounds),
          some (NewRGBA onePixelImage.Bounds), some (NewRGBA onePixelImage.Bounds),
          some (NewRGBA onePixelImage.Bounds)⟩ "E" "R" = some t
      ∧ t.layer "R" = some l
      ∧ l.At 0 0 = ⟨80, 0, 0, 0⟩ :=
  (small_image_safe onePixelImage "E" "R" (Or.inl rfl) (Or.inl rfl)).2.2.2 0 0
    (NewRGBA onePixelImage.Bounds) (NewRGBA onePixelImage.Bounds)
    (NewRGBA onePixelImage.Bounds) (NewRGBA onePixelImage.Bounds)
    rfl onePixelImage_isBytes rfl rfl rfl rfl

/-! ## Blur on whole images -/

theorem uint8_lt (n : Int) : uint8 n < 256 := by
  unfold uint8
  omega

theorem conform_lt (data : RGBA) (clr : String) (x y minX maxX minY maxY : Int) :
    conform data clr x y minX maxX minY maxY < 256 := by
  unfold conform
  simp only
  split_ifs <;> omega

/-- The blur effect on nine bytes is the quotient of their sum by 9. -/
theorem change_blur_sum (a b c d e f g k l : Nat) (ha : a < 256) (hb : b < 256) (hc : c < 256)
    (hd : d < 256) (he : e < 256) (hf : f < 256) (hg : g < 256) (hk : k < 256) (hl : l < 256) :
    change "B" [a, b, c, d, e, f, g, k, l] = some ((a + b + c + d + e + f + g + k + l) / 9) := by
  have hq : Int.tdiv ((a : Int) + b + c + d + e + f + g + k + l) 9
      = (((a + b + c + d + e + f + g + k + l) / 9 : Nat) : Int) := by
    rw [Int.tdiv_eq_ediv (by omega) (by omega)]
    push_cast
    rfl
  have hle : (a + b + c + d + e + f + g + k + l) / 9 ≤ 255 := by omega
  simp only [change]
  simp [hq, uint8]
  split_ifs with h
  · omega
  · congr 1
    omega

/-- What `change` returns on 9 samples is a byte. -/
theorem change_getD_lt (effect : String) (vs : List Nat) (h : vs.length = 9) :
    (change effect vs).getD 0 < 256 := by
  obtain ⟨a, b, c, d, e, f, g, k, l, rfl⟩ := list_length_nine vs h
  unfold change
  split_ifs
  · simp only [List.getElem?_cons_zero, List.getElem?_cons_succ, Option.pure_def,
      Option.bind_eq_bind, Option.some_bind]
    split_ifs
    · simp
    · simp only [Option.getD_some]
      exact uint8_lt _
  · simp only [kernelLoop, List.foldlM_cons, List.foldlM_nil, Option.pure_def,
      Option.bind_eq_bind, Option.some_bind, List.getElem?_cons_zero, List.getElem?_cons_succ,
      Option.getD_some]
    exact uint8_lt _
  · simp only [kernelLoop, List.foldlM_cons, List.foldlM_nil, Option.pure_def,
      Option.bind_eq_bind, Option.some_bind, List.getElem?_cons_zero, List.getElem?_cons_succ,
      Option.getD_some]
    exact uint8_lt _
  · simp

/-- The colour that a task stores is made of bytes. -/
theorem written_isBytes (data : RGBA) (effect clr : String) (i j : Int) :
    (written data effect clr i j).isBytes := by
  have h1 := change_getD_lt effect _ (neighbours_length data clr i j data.Bounds.Min.X
    data.Bounds.Max.X data.Bounds.Min.Y data.Bounds.Max.Y)
  have h2 := uint8_lt (Int.tdiv
    ((conform data "R" i j data.Bounds.Min.X data.Bounds.Max.X data.Bounds.Min.Y
        data.Bounds.Max.Y : Int)
      + (conform data "G" i j data.Bounds.Min.X data.Bounds.Max.X data.Bounds.Min.Y
        data.Bounds.Max.Y : Int)
      + (conform data "B" i j data.Bounds.Min.X data.Bounds.Max.X data.Bounds.Min.Y
        data.Bounds.Max.Y : Int)) 3)
  unfold written Color.isBytes
  simp only
  split_ifs <;> simp only [] <;> refine ⟨?_, ?_, ?_, ?_⟩ <;> first | exact h1 | exact h2 | omega

/-- The pixel `(i, j)` of the image pushed after the four tasks of one effect. -/
theorem single_effect_At (data : RGBA) (fin fout effect : String) (i j : Int)
    (hin : Point.In ⟨i, j⟩ data.Bounds = true) :
    (flatAfter data [⟨fin, fout, effect, "R"⟩, ⟨fin, fout, effect, "G"⟩,
        ⟨fin, fout, effect, "B"⟩, ⟨fin, fout, effect, "A"⟩]).At i j
      = ⟨(written data effect "R" i j).R, (written data effect "G" i j).G,
         (written data effect "B" i j).B, (written data effect "A" i j).A⟩ := by
  rw [flatAfter_At data _ i j hin,
    layerAfter_At data "R" effect _ i j hin (by simp [lastEffect]),
    layerAfter_At data "G" effect _ i j hin (by simp [lastEffect]),
    layerAfter_At data "B" effect _ i j hin (by simp [lastEffect]),
    layerAfter_At data "A" effect _ i j hin (by simp [lastEffect])]
  obtain ⟨h1, -, -, -⟩ := written_isBytes data effect "R" i j
  obtain ⟨-, h2, -, -⟩ := written_isBytes data effect "G" i j
  obtain ⟨-, -, h3, -⟩ := written_isBytes data effect "B" i j
  obtain ⟨-, -, -, h4⟩ := written_isBytes data effect "A" i j
  simp only [Color.RGBA, expand16_mod _ h1, expand16_mod _ h2, expand16_mod _ h3,
    expand16_mod _ h4]

/-- For an image of bytes `conform`, called with the bounds of the image, reads the
component of `At`, which is 0 outside the bounds. -/
theorem conform_eq_At (data : RGBA) (hbytes : data.isBytes) (x y : Int) :
    conform data "R" x y data.Bounds.Min.X data.Bounds.Max.X
        data.Bounds.Min.Y data.Bounds.Max.Y = (data.At x y).R
    ∧ conform data "G" x y data.Bounds.Min.X data.Bounds.Max.X
        data.Bounds.Min.Y data.Bounds.Max.Y = (data.At x y).G
    ∧ conform data "B" x y data.Bounds.Min.X data.Bounds.Max.X
        data.Bounds.Min.Y data.Bounds.Max.Y = (data.At x y).B := by
  by_cases hin : Point.In ⟨x, y⟩ data.Bounds = true
  · have hAt : data.At x y = data.Pix x y := by
      simp only [RGBA.Bounds] at hin
      simp [RGBA.At, hin]
    rw [hAt]
    exact conform_inside data hbytes x y hin
  · have hout : Point.In ⟨x, y⟩ data.Bounds = false := by simpa using hin
    have hAt : data.At x y = ⟨0, 0, 0, 0⟩ := by
      simp only [RGBA.Bounds] at hout
      simp [RGBA.At, hout]
    rw [hAt, conform_outside data _ x y hout, conform_outside data _ x y hout,
      conform_outside data _ x y hout]
    exact ⟨rfl, rfl, rfl⟩

/-- What the blur tasks store for an image of bytes: the quotient by 9 of the sum of the
colour over the 3 by 3 neighbourhood, with 0 outside the image. -/
theorem written_blur (data : RGBA) (hbytes : data.isBytes) (i j : Int) :
    written data "B" "R" i j = ⟨sum9 (fun x y => (data.At x y).R) i j / 9, 0, 0, 0⟩
    ∧ written data "B" "G" i j = ⟨0, sum9 (fun x y => (data.At x y).G) i j / 9, 0, 0⟩
    ∧ written data "B" "B" i j = ⟨0, 0, sum9 (fun x y => (data.At x y).B) i j / 9, 0⟩
    ∧ written data "B" "A" i j = ⟨0, 0, 0, 255⟩ := by
  have hne : ("B" : String) ≠ "G" := by decide
  have hlt : ∀ clr x y, conform data clr x y data.Bounds.Min.X data.Bounds.Max.X
      data.Bounds.Min.Y data.Bounds.Max.Y < 256 := fun clr x y => conform_lt _ _ _ _ _ _ _ _
  refine ⟨?_, ?_, ?_, ?_⟩
  · unfold written
    rw [if_neg hne]
    simp only [neighbours_eq]
    rw [change_blur_sum _ _ _ _ _ _ _ _ _ (hlt _ _ _) (hlt _ _ _) (hlt _ _ _) (hlt _ _ _)
      (hlt _ _ _) (hlt _ _ _) (hlt _ _ _) (hlt _ _ _) (hlt _ _ _)]
    simp only [(conform_eq_At data hbytes _ _).1, Option.getD_some, if_true, sum9]
  · unfold written
    rw [if_neg hne]
    simp only [neighbours_eq]
    rw [change_blur_sum _ _ _ _ _ _ _ _ _ (hlt _ _ _) (hlt _ _ _) (hlt _ _ _) (hlt _ _ _)
      (hlt _ _ _) (hlt _ _ _) (hlt _ _ _) (hlt _ _ _) (hlt _ _ _)]
    simp [(conform_eq_At data hbytes _ _).2.1, sum9]
  · unfold written
    rw [if_neg hne]
    simp only [neighbours_eq]
    rw [change_blur_sum _ _ _ _ _ _ _ _ _ (hlt _ _ _) (hlt _ _ _) (hlt _ _ _) (hlt _ _ _)
      (hlt _ _ _) (hlt _ _ _) (hlt _ _ _) (hlt _ _ _) (hlt _ _ _)]
    simp [(conform_eq_At data hbytes _ _).2.2, sum9]
  · unfold written
    rw [if_neg hne]
    simp

/-- The image that a worker pushes after the four blur tasks, at a pixel in bounds. -/
theorem blur_pushed (copyImg : String → Option RGBA) (fin fout : String) (data : RGBA)
    (hsrc : copyImg fin = some data) (hbytes : data.isBytes) :
    ∃ cv out, Process copyImg [⟨fin, fout, "B", "R"⟩, ⟨fin, fout, "B", "G"⟩,
          ⟨fin, fout, "B", "B"⟩, ⟨fin, fout, "B", "A"⟩] (freshCanvas 4)
        = some (cv, [⟨fout, out⟩])
      ∧ ∀ i j, Point.In ⟨i, j⟩ data.Bounds = true →
          out.At i j = ⟨sum9 (fun x y => (data.At x y).R) i j / 9,
            sum9 (fun x y => (data.At x y).G) i j / 9,
            sum9 (fun x y => (data.At x y).B) i j / 9, 255⟩ := by
  refine ⟨_, _, Process_eq copyImg data fout _ (by simp) ?_, ?_⟩
  · intro u hu
    simp only [List.mem_cons, List.mem_singleton, List.not_mem_nil, or_false] at hu
    rcases hu with h | h | h | h <;> subst h <;> simp [hsrc]
  · intro i j hin
    obtain ⟨h1, h2, h3, h4⟩ := written_blur data hbytes i j
    rw [single_effect_At data fin fout "B" i j hin, h1, h2, h3, h4]

theorem sum9_two_by_two (f : Int → Int → Nat) (x0 y0 i j : Int)
    (hzero : ∀ x y, (x < x0 ∨ x0 + 2 ≤ x ∨ y < y0 ∨ y0 + 2 ≤ y) → f x y = 0)
    (hi : i = x0 ∨ i = x0 + 1) (hj : j = y0 ∨ j = y0 + 1) :
    sum9 f i j = f x0 y0 + f (x0 + 1) y0 + f x0 (y0 + 1) + f (x0 + 1) (y0 + 1) := by
  have e1 : x0 + 1 + -1 = x0 := by omega
  have e2 : y0 + 1 + -1 = y0 := by omega
  unfold sum9
  rcases hi with hi | hi <;> rcases hj with hj | hj <;> rw [hi, hj]
  · rw [hzero (x0 + -1) (y0 + -1) (by omega), hzero (x0 + 0) (y0 + -1) (by omega),
      hzero (x0 + 1) (y0 + -1) (by omega), hzero (x0 + -1) (y0 + 0) (by omega),
      hzero (x0 + -1) (y0 + 1) (by omega)]
    simp only [add_zero]
    omega
  · rw [hzero (x0 + -1) (y0 + 1 + -1) (by omega), hzero (x0 + -1) (y0 + 1 + 0) (by omega),
      hzero (x0 + -1) (y0 + 1 + 1) (by omega), hzero (x0 + 0) (y0 + 1 + 1) (by omega),
      hzero (x0 + 1) (y0 + 1 + 1) (by omega)]
    simp only [add_zero, e2]
    omega
  · rw [hzero (x0 + 1 + -1) (y0 + -1) (by omega), hzero (x0 + 1 + 0) (y0 + -1) (by omega),
      hzero (x0 + 1 + 1) (y0 + -1) (by omega), hzero (x0 + 1 + 1) (y0 + 0) (by omega),
      hzero (x0 + 1 + 1) (y0 + 1) (by omega)]
    simp only [add_zero, e1]
    omega
  · rw [hzero (x0 + 1 + 1) (y0 + 1 + -1) (by omega), hzero (x0 + 1 + 1) (y0 + 1 + 0) (by omega),
      hzero (x0 + 1 + 1) (y0 + 1 + 1) (by omega), hzero (x0 + 1 + -1) (y0 + 1 + 1) (by omega),
      hzero (x0 + 1 + 0) (y0 + 1 + 1) (by omega)]
    simp only [add_zero, e1, e2]

/-- C12, amended: for every 2 by 2 source image, the image pushed after the four blur
tasks has at each pixel, in each of the channels R, G, B, the integer quotient `s / 9`
(rounded down), where `s` is the sum of that channel over the four pixels of the image
(the samples outside the image count as 0), and the alpha 255. -/
theorem blur_two_by_two (copyImg : String → Option RGBA) (fin fout : String) (data : RGBA)
    (hsrc : copyImg fin = some data) (hbytes : data.isBytes) (x0 y0 : Int)
    (hbd : data.Bounds = ⟨⟨x0, y0⟩, ⟨x0 + 2, y0 + 2⟩⟩)
    (i j : Int) (hin : Point.In ⟨i, j⟩ data.Bounds = true) :
    ∃ cv out, Process copyImg [⟨fin, fout, "B", "R"⟩, ⟨fin, fout, "B", "G"⟩,
          ⟨fin, fout, "B", "B"⟩, ⟨fin, fout, "B", "A"⟩] (freshCanvas 4)
        = some (cv, [⟨fout, out⟩])
      ∧ out.At i j =
          ⟨((data.At x0 y0).R + (data.At (x0 + 1) y0).R + (data.At x0 (y0 + 1)).R
              + (data.At (x0 + 1) (y0 + 1)).R) / 9,
           ((data.At x0 y0).G + (data.At (x0 + 1) y0).G + (data.At x0 (y0 + 1)).G
              + (data.At (x0 + 1) (y0 + 1)).G) / 9,
           ((data.At x0 y0).B + (data.At (x0 + 1) y0).B + (data.At x0 (y0 + 1)).B
              + (data.At (x0 + 1) (y0 + 1)).B) / 9, 255⟩ := by
  obtain ⟨cv, out, hP, hAt⟩ := blur_pushed copyImg fin fout data hsrc hbytes
  have hzero : ∀ x y, (x < x0 ∨ x0 + 2 ≤ x ∨ y < y0 ∨ y0 + 2 ≤ y) →
      data.At x y = ⟨0, 0, 0, 0⟩ := by
    intro x y h
    have hout : Point.In ⟨x, y⟩ data.Rect = false := by
      have hbd2 : data.Rect = ⟨⟨x0, y0⟩, ⟨x0 + 2, y0 + 2⟩⟩ := hbd
      rw [hbd2]
      simp only [Point.In, Bool.and_eq_false_imp, Bool.and_eq_true, decide_eq_true_eq,
        decide_eq_false_iff_not]
      omega
    simp [RGBA.At, hout]
  have hij : (i = x0 ∨ i = x0 + 1) ∧ (j = y0 ∨ j = y0 + 1) := by
    rw [hbd] at hin
    simp only [Point.In, Bool.and_eq_true, decide_eq_true_eq] at hin
    omega
  refine ⟨cv, out, hP, ?_⟩
  rw [hAt i j hin,
    sum9_two_by_two (fun x y => (data.At x y).R) x0 y0 i j
      (fun x y h => by simp only [hzero x y h]) hij.1 hij.2,
    sum9_two_by_two (fun x y => (data.At x y).G) x0 y0 i j
      (fun x y h => by simp only [hzero x y h]) hij.1 hij.2,
    sum9_two_by_two (fun x y => (data.At x y).B) x0 y0 i j
      (fun x y h => by simp only [hzero x y h]) hij.1 hij.2]

/-- The number `nearest9 s` is the integer nearest to `s / 9`. -/
theorem nearest9_spec (s : Nat) : 9 * nearest9 s ≤ s + 4 ∧ s ≤ 9 * nearest9 s + 4 := by
  unfold nearest9
  omega

/-- Counterexample to C12 as stated: for the 2 by 2 sample image the green components sum
to 320 and the nearest integer to 320 / 9 is 36, but the blurred image has the green
component 35 at the pixel (0,0). -/
theorem blur_two_by_two_counterexample :
    pushedAt (Process sampleCopyImg
        [⟨"a.png", "out.png", "B", "R"⟩, ⟨"a.png", "out.png", "B", "G"⟩,
         ⟨"a.png", "out.png", "B", "B"⟩, ⟨"a.png", "out.png", "B", "A"⟩] (freshCanvas 4)) 0 0
      = some [⟨31, 35, 40, 255⟩]
    ∧ (sampleImage.At 0 0).G + (sampleImage.At 1 0).G + (sampleImage.At 0 1).G
        + (sampleImage.At 1 1).G = 320
    ∧ nearest9 320 = 36 := by
  decide

/-- Witness of C12, amended: the pixel (1,1) of the blurred 2 by 2 sample image. -/
theorem blur_two_by_two_witness :
    ∃ cv out, Process sampleCopyImg
          [⟨"a.png", "out.png", "B", "R"⟩, ⟨"a.png", "out.png", "B", "G"⟩,
           ⟨"a.png", "out.png", "B", "B"⟩, ⟨"a.png", "out.png", "B", "A"⟩] (freshCanvas 4)
        = some (cv, [⟨"out.png", out⟩])
      ∧ out.At 1 1 = ⟨31, 35, 40, 255⟩ :=
  blur_two_by_two sampleCopyImg "a.png" "out.png" sampleImage rfl sampleImage_isBytes 0 0 rfl
    1 1 (by decide)

/-! ## A source image that cannot be decoded -/

/-- With the image still to be loaded, a decoder that returns nil makes `initLayers`
dereference a nil pointer: the iteration of `Process` panics. -/
theorem processTask_nil (copyImg : String → Option RGBA) (t : task) (lrs : layers) (m : Int)
    (h : copyImg t.file_in = none) : processTask copyImg t ⟨true, lrs, m⟩ = none := by
  simp [processTask, initLayers, h]

/-- C14 (the code at the failing input): for the line `missing.png, out.png, B` and a
decoder that fails, the four tasks are emitted with a counter of 4, and the worker panics
on the first of them: no task is a no-op and the counter is never decremented. -/
theorem decode_failure_panics :
    (newTasks sampleJoin "missing.png, out.png, B" "dir").1.length = 4
    ∧ (newTasks sampleJoin "missing.png, out.png, B" "dir").2.counter = 4
    ∧ (newTasks sampleJoin "missing.png, out.png, B" "dir").1.head?.bind
        (fun t => processTask failingCopyImg t
          (newTasks sampleJoin "missing.png, out.png, B" "dir").2) = none
    ∧ Process failingCopyImg (newTasks sampleJoin "missing.png, out.png, B" "dir").1
        (newTasks sampleJoin "missing.png, out.png, B" "dir").2 = none := by
  refine ⟨by decide, by decide, ?_, ?_⟩
  · rw [newTasks_eq]
    exact processTask_nil failingCopyImg _ _ _ rfl
  · rw [newTasks_eq]
    simp only [Process, processLoop]
    have : emitted sampleJoin "dir" (Split "missing.png, out.png, B" ',')
        ((Split "missing.png, out.png, B" ',').length - 2)
        = [⟨"dir/missing.png", "dir/out.png", "B", "R"⟩, ⟨"dir/missing.png", "dir/out.png", "B", "G"⟩,
           ⟨"dir/missing.png", "dir/out.png", "B", "B"⟩, ⟨"dir/missing.png", "dir/out.png", "B", "A"⟩] := by
      decide
    rw [this, List.foldlM_cons, freshCanvas, processTask_nil failingCopyImg _ _ _ rfl]
    rfl
/-! ## Effect tokens that are not effect codes -/

/-- The fields of a row after the first two, by their index. -/
theorem drop_two_eq_map (row : List String) :
    row.drop 2 = (List.range (row.length - 2)).map (fun q => row.getD (q + 2) "") := by
  apply List.ext_getElem
  · simp
  · intro n h1 h2
    simp only [List.length_drop] at h1
    simp only [List.getElem_drop, List.getElem_map, List.getElem_range,
      List.getD_eq_getElem?_getD]
    rw [List.getElem?_eq_getElem (by omega)]
    simp [Nat.add_comm]

/-- Among the tasks of the first `m` effect columns, those of the effect `tok` are four for
each column whose trimmed field is `tok`. -/
theorem emitted_filter_length (Join : String → String → String) (path : String)
    (row : List String) (tok : String) (m : Nat) :
    ((emitted Join path row m).filter (fun u => decide (u.effect = tok))).length
      = 4 * ((List.range m).filter
          (fun q => decide (TrimSpace (row.getD (q + 2) "") = tok))).length := by
  induction m with
  | zero => rfl
  | succ m ih =>
    rw [emitted_succ, List.filter_append, List.length_append, ih, List.range_succ,
      List.filter_append, List.length_append]
    by_cases h : TrimSpace (row.getD (m + 2) "") = tok
    · have hd : decide (TrimSpace (row.getD (m + 2) "") = tok) = true := decide_eq_true h
      simp only [List.filter_cons, List.filter_nil, newTask, hd, if_true, List.length_cons,
        List.length_nil]
      omega
    · have hd : decide (TrimSpace (row.getD (m + 2) "") = tok) = false := decide_eq_false h
      simp only [List.filter_cons, List.filter_nil, newTask, hd, Bool.false_eq_true, if_false,
        List.length_nil]
      omega

/-- C15, amended: for every manifest line, every effect column contributes 4 tasks and 4
to the counter whatever its trimmed token, one of B, E, S, G or not: for every string
`tok`, the number of emitted tasks whose effect is `tok` is 4 times the number of effect
columns whose trimmed token is `tok`, and the counter is 4 times the number of effect
columns. -/
theorem unknown_token_units (Join : String → String → String) (line path tok : String) :
    ((newTasks Join line path).1.filter (fun u => decide (u.effect = tok))).length
      = 4 * (((Split line ',').drop 2).filter (fun f => decide (TrimSpace f = tok))).length
    ∧ (newTasks Join line path).2.counter = ((4 * ((Split line ',').drop 2).length : Nat) : Int) := by
  rw [newTasks_eq]
  constructor
  · simp only
    rw [emitted_filter_length, drop_two_eq_map, List.filter_map, List.length_map]
    rfl
  · simp [freshCanvas]

/-- Counterexample to C15 as stated: for the line `a.png, out.png, X, B` the token `X`, which
is no effect code, contributes 4 tasks, and the counter is 8. -/
theorem unknown_token_counterexample :
    ((newTasks sampleJoin "a.png, out.png, X, B" "dir").1.filter
        (fun u => decide (u.effect = "X"))).length = 4
    ∧ (newTasks sampleJoin "a.png, out.png, X, B" "dir").2.counter = 8 := by
  decide

/-! ## Several workers: the invariant -/

/-- A pixel in bounds is handled by one of the turns of the pixel loops. -/
theorem pixelIndex_lt (data : RGBA) (x y : Int) (hin : Point.In ⟨x, y⟩ data.Rect = true) :
    pixelIndex data x y
      < (data.Bounds.Max.X - data.Bounds.Min.X).toNat
        * (data.Bounds.Max.Y - data.Bounds.Min.Y).toNat := by
  simp only [Point.In, Bool.and_eq_true, decide_eq_true_eq] at hin
  unfold pixelIndex RGBA.Bounds
  have h1 : (x - data.Rect.Min.X).toNat + 1 ≤ (data.Rect.Max.X - data.Rect.Min.X).toNat := by
    omega
  have h2 : (y - data.Rect.Min.Y).toNat < (data.Rect.Max.Y - data.Rect.Min.Y).toNat := by omega
  calc (x - data.Rect.Min.X).toNat * (data.Rect.Max.Y - data.Rect.Min.Y).toNat
        + (y - data.Rect.Min.Y).toNat
      < (x - data.Rect.Min.X).toNat * (data.Rect.Max.Y - data.Rect.Min.Y).toNat
        + (data.Rect.Max.Y - data.Rect.Min.Y).toNat := by omega
    _ = ((x - data.Rect.Min.X).toNat + 1) * (data.Rect.Max.Y - data.Rect.Min.Y).toNat := by ring
    _ ≤ (data.Rect.Max.X - data.Rect.Min.X).toNat
        * (data.Rect.Max.Y - data.Rect.Min.Y).toNat := Nat.mul_le_mul_right _ h1

/-- The turn number `k` of the pixel loops handles the pixel of index `k`. -/
theorem pixelIndex_eq (data : RGBA) (x y : Int) (k : Nat)
    (hin : Point.In ⟨x, y⟩ data.Rect = true) (hk : pixelIndex data x y = k) :
    x = data.Bounds.Min.X + ((k / (data.Bounds.Max.Y - data.Bounds.Min.Y).toNat : Nat) : Int)
    ∧ y = data.Bounds.Min.Y + ((k % (data.Bounds.Max.Y - data.Bounds.Min.Y).toNat : Nat) : Int) := by
  simp only [Point.In, Bool.and_eq_true, decide_eq_true_eq] at hin
  unfold pixelIndex RGBA.Bounds at hk
  unfold RGBA.Bounds
  have h2 : (y - data.Rect.Min.Y).toNat < (data.Rect.Max.Y - data.Rect.Min.Y).toNat := by omega
  have hd : k / (data.Rect.Max.Y - data.Rect.Min.Y).toNat = (x - data.Rect.Min.X).toNat := by
    rw [← hk, Nat.add_comm, Nat.add_mul_div_right _ _ (by omega), Nat.div_eq_of_lt h2]
    omega
  have hm : k % (data.Rect.Max.Y - data.Rect.Min.Y).toNat = (y - data.Rect.Min.Y).toNat := by
    rw [← hk, Nat.add_comm, Nat.add_mul_mod_self_right, Nat.mod_eq_of_lt h2]
  rw [hd, hm]
  omega

/-- Storing what the effect stores at a pixel keeps what the layer holds elsewhere. -/
theorem Set_written_Pix (data l : RGBA) (e clr : String) (i j x y : Int)
    (h : l.Pix x y = written data e clr x y) :
    (l.Set i j (written data e clr i j)).Pix x y = written data e clr x y := by
  unfold RGBA.Set
  split_ifs with hin
  · simp only
    split_ifs with hxy
    · rw [hxy.1, hxy.2]
    · exact h
  · exact h

theorem Set_Rect (l : RGBA) (i j : Int) (c : Color) : (l.Set i j c).Rect = l.Rect := by
  unfold RGBA.Set
  split_ifs <;> rfl

/-- A `Set` changes no pixel outside the bounds. -/
theorem Set_Pix_outside (l : RGBA) (i j x y : Int) (c : Color)
    (hout : Point.In ⟨x, y⟩ l.Rect = false) : (l.Set i j c).Pix x y = l.Pix x y := by
  unfold RGBA.Set
  split_ifs with hin
  · simp only
    split_ifs with hxy
    · rw [hxy.1, hxy.2, hin] at hout
      exact absurd hout (by simp)
    · rfl
  · rfl

/-- A `Set` inside the bounds stores the colour. -/
theorem Set_Pix_self (l : RGBA) (i j : Int) (c : Color)
    (hin : Point.In ⟨i, j⟩ l.Rect = true) : (l.Set i j c).Pix i j = c := by
  unfold RGBA.Set
  simp [hin]

theorem count_done_set (l : List phase) (u : Nat) (p q : phase) (hu : l[u]? = some p)
    (hp : p ≠ phase.done) :
    (l.set u q).count phase.done = l.count phase.done + (if q = phase.done then 1 else 0) := by
  obtain ⟨hlt, hget⟩ := List.getElem?_eq_some_iff.mp hu
  rw [List.count_set _ _ _ _ hlt, hget]
  have h1 : (p == phase.done) = false := by simpa using hp
  by_cases hq : q = phase.done
  · subst hq
    simp [h1]
  · have h2 : (q == phase.done) = false := by simpa using hq
    simp [h1, h2, hq]

theorem getD_set_phase (l : List phase) (u v : Nat) (q : phase) (hu : u < l.length) :
    (l.set u q).getD v phase.waiting = if v = u then q else l.getD v phase.waiting := by
  simp only [List.getD_eq_getElem?_getD, List.getElem?_set]
  by_cases h : u = v
  · subst h
    simp [hu]
  · have h2 : ¬ v = u := fun e => h e.symm
    simp [h, h2]

/-- One turn of the pixel loops of `convolute`, when the layer of the colour is allocated. -/
theorem convolutePixel_eq (data b : RGBA) (effect clr : String)
    (hclr : clr = "R" ∨ clr = "G" ∨ clr = "B" ∨ clr = "A") (s : layers)
    (hs : s.layer clr = some b) (i j : Int) :
    convolutePixel data effect clr data.Bounds.Min.X data.Bounds.Max.X data.Bounds.Min.Y
        data.Bounds.Max.Y i j s
      = some (s.setLayer clr (b.Set i j (written data effect clr i j))) := by
  obtain ⟨v, hv⟩ := change_of_length_nine effect _
    (neighbours_length data clr i j data.Bounds.Min.X data.Bounds.Max.X
      data.Bounds.Min.Y data.Bounds.Max.Y)
  rcases hclr with h | h | h | h <;> subst h <;>
    simp only [layers.layer, layers.setLayer] at hs ⊢ <;>
    simp at hs <;>
    by_cases he : effect = "G" <;>
    simp [convolutePixel, written, he, hs, hv]

/-- The phase of a task may change when the layer holds what the new phase needs. -/
theorem layerOK_set (data : RGBA) (e : String) (us : List task) (phases : List phase)
    (clr : String) (l : RGBA) (u : Nat) (q : phase) (hu : u < phases.length)
    (h : layerOK data e us phases clr l)
    (hq : ∀ t, us[u]? = some t → t.color = clr → ∀ x y, Point.In ⟨x, y⟩ data.Rect = true →
      q.covers (pixelIndex data x y) → l.Pix x y = written data e clr x y) :
    layerOK data e us (phases.set u q) clr l := by
  obtain ⟨h1, h2, h3⟩ := h
  refine ⟨h1, h2, ?_⟩
  intro v t hv hc x y hin hcov
  rw [getD_set_phase _ _ _ _ hu] at hcov
  by_cases hvu : v = u
  · rw [if_pos hvu] at hcov
    subst hvu
    exact hq t hv hc x y hin hcov
  · rw [if_neg hvu] at hcov
    exact h3 v t hv hc x y hin hcov

/-- One turn of the pixel loops of a task keeps the layer of its colour in order. -/
theorem layerOK_pixel (data : RGBA) (e : String) (us : List task) (phases : List phase)
    (clr : String) (l : RGBA) (u k : Nat) (hu : phases[u]? = some (phase.writing k))
    (h : layerOK data e us phases clr l) :
    layerOK data e us (phases.set u (phase.writing (k + 1))) clr
      (l.Set (data.Bounds.Min.X + ((k / (data.Bounds.Max.Y - data.Bounds.Min.Y).toNat : Nat) : Int))
        (data.Bounds.Min.Y + ((k % (data.Bounds.Max.Y - data.Bounds.Min.Y).toNat : Nat) : Int))
        (written data e clr
          (data.Bounds.Min.X + ((k / (data.Bounds.Max.Y - data.Bounds.Min.Y).toNat : Nat) : Int))
          (data.Bounds.Min.Y
            + ((k % (data.Bounds.Max.Y - data.Bounds.Min.Y).toNat : Nat) : Int)))) := by
  obtain ⟨hlt, hget⟩ := List.getElem?_eq_some_iff.mp hu
  have hgetD : phases.getD u phase.waiting = phase.writing k := by
    simp [List.getD_eq_getElem?_getD, hu]
  obtain ⟨h1, h2, h3⟩ := h
  refine ⟨by rw [Set_Rect, h1], ?_, ?_⟩
  · intro x y hout
    rw [Set_Pix_outside _ _ _ _ _ _ (by rw [h1]; exact hout)]
    exact h2 x y hout
  · intro v t hv hc x y hin hcov
    rw [getD_set_phase _ _ _ _ hlt] at hcov
    by_cases hvu : v = u
    · rw [if_pos hvu] at hcov
      subst hvu
      have hcov2 : pixelIndex data x y < k + 1 := hcov
      by_cases hlt2 : pixelIndex data x y < k
      · apply Set_written_Pix
        apply h3 v t hv hc x y hin
        rw [hgetD]
        exact hlt2
      · have hk : pixelIndex data x y = k := by omega
        obtain ⟨hx, hy⟩ := pixelIndex_eq data x y k hin hk
        rw [← hx, ← hy]
        exact Set_Pix_self _ _ _ _ (by rw [h1]; exact hin)
    · rw [if_neg hvu] at hcov
      apply Set_written_Pix
      exact h3 v t hv hc x y hin hcov

/-- A layer in order all of whose pixels have been handled is the layer after the run. -/
theorem layerOK_done (data : RGBA) (e : String) (us : List task) (phases : List phase)
    (clr : String) (l : RGBA) (h : layerOK data e us phases clr l)
    (v : Nat) (t : task) (hv : us[v]? = some t) (hc : t.color = clr)
    (hd : phases.getD v phase.waiting = phase.done) :
    l = (NewRGBA data.Bounds).fill data.Bounds (written data e clr) := by
  obtain ⟨h1, h2, h3⟩ := h
  apply RGBA.ext_pix
  · exact h1
  · intro x y
    by_cases hin : Point.In ⟨x, y⟩ data.Rect = true
    · rw [h3 v t hv hc x y hin (by rw [hd]; exact trivial)]
      simp [RGBA.fill, RGBA.fillWhere, NewRGBA, RGBA.Bounds, hin]
    · have hout : Point.In ⟨x, y⟩ data.Rect = false := by simpa using hin
      rw [h2 x y hout]
      simp [RGBA.fill, RGBA.fillWhere, NewRGBA, RGBA.Bounds, hout]

/-- When all tasks have the effect `e`, the last effect of a colour that occurs is `e`. -/
theorem lastEffect_of_all (clr e : String) (us : List task) (hall : ∀ u ∈ us, u.effect = e)
    (hex : ∃ u ∈ us, u.color = clr) : lastEffect clr us = some e := by
  unfold lastEffect
  cases hf : us.reverse.find? (fun u => decide (u.color = clr)) with
  | none =>
    obtain ⟨u, hu, hc⟩ := hex
    rw [List.find?_eq_none] at hf
    exact absurd (by simpa using hc) (hf u (List.mem_reverse.mpr hu))
  | some u =>
    have hmem := List.mem_of_find?_eq_some hf
    simp only [Option.map_some', Option.some.injEq]
    exact hall u (List.mem_reverse.mp hmem)

/-- Blank layers are in order while no task has been taken. -/
theorem layerOK_fresh (data : RGBA) (e : String) (us : List task) (phases : List phase)
    (clr : String) (hall : ∀ p ∈ phases, p = phase.waiting) :
    layerOK data e us phases clr (NewRGBA data.Bounds) := by
  refine ⟨rfl, fun _ _ _ => rfl, ?_⟩
  intro v t _ _ x y _ hcov
  have hw : phases.getD v phase.waiting = phase.waiting := by
    rw [List.getD_eq_getElem?_getD]
    cases hv : phases[v]? with
    | none => rfl
    | some p =>
      have hmem : p ∈ phases := List.mem_iff_getElem?.mpr ⟨v, hv⟩
      simp [hall p hmem]
  rw [hw] at hcov
  exact absurd hcov (by simp [phase.covers])

/-- Taking a task from the channel and passing the first critical section keeps the
invariant. -/
theorem workersInv_start (copyImg : String → Option RGBA) (data : RGBA) (e fout : String)
    (us : List task) (st : workersState) (u : Nat) (t : task)
    (hsrc : copyImg t.file_in = some data)
    (hp : st.phases[u]? = some phase.waiting) (h : workersInv data e fout us st) :
    ∃ cv, (if st.cv.getImg then
          (initLayers { st.cv.lrs with img := copyImg t.file_in }).bind
            (fun lrs => some { st.cv with lrs := lrs, getImg := false })
        else some st.cv) = some cv
      ∧ workersInv data e fout us
          { st with cv := cv, phases := st.phases.set u (phase.writing 0) } := by
  obtain ⟨hlt, -⟩ := List.getElem?_eq_some_iff.mp hp
  obtain ⟨h1, h2, h3, h4⟩ := h
  have hcount : (st.phases.set u (phase.writing 0)).count phase.done
      = st.phases.count phase.done := by
    rw [count_done_set _ _ _ _ hp (by decide)]
    simp
  have hnone : ∀ clr l, layerOK data e us st.phases clr l →
      layerOK data e us (st.phases.set u (phase.writing 0)) clr l := by
    intro clr l hl
    refine layerOK_set data e us _ clr l u _ hlt hl ?_
    intro t2 _ _ x y _ hcov
    exact absurd hcov (by simp [phase.covers])
  rcases h4 with ⟨hg, hl, hall⟩ | ⟨hg, r, g, b, a, hl, hr, hgg, hb, ha⟩
  · refine ⟨⟨false, ⟨some data, some (NewRGBA data.Bounds), some (NewRGBA data.Bounds),
      some (NewRGBA data.Bounds), some (NewRGBA data.Bounds)⟩, st.cv.counter⟩, ?_, ?_⟩
    · rw [if_pos hg, hl, hsrc]
      rfl
    · refine ⟨by simp [h1], ?_, ?_, Or.inr ⟨rfl, _, _, _, _, rfl, ?_, ?_, ?_, ?_⟩⟩
      · simp only [hcount]
        exact h2
      · exact h3
      · exact hnone _ _ (layerOK_fresh data e us _ _ hall)
      · exact hnone _ _ (layerOK_fresh data e us _ _ hall)
      · exact hnone _ _ (layerOK_fresh data e us _ _ hall)
      · exact hnone _ _ (layerOK_fresh data e us _ _ hall)
  · refine ⟨st.cv, ?_, ?_⟩
    · rw [hg]
      rfl
    · refine ⟨by simp [h1], ?_, h3, Or.inr ⟨hg, r, g, b, a, hl, hnone _ _ hr, hnone _ _ hgg,
        hnone _ _ hb, hnone _ _ ha⟩⟩
      simp only [hcount]
      exact h2

/-- One turn of the pixel loops of a task keeps the invariant. -/
theorem workersInv_pixel (data : RGBA) (e fout : String) (us : List task) (st : workersState)
    (u k : Nat) (t : task) (clr : String) (hu : us[u]? = some t) (htc : t.color = clr)
    (hclr : clr = "R" ∨ clr = "G" ∨ clr = "B" ∨ clr = "A")
    (hp : st.phases[u]? = some (phase.writing k)) (h : workersInv data e fout us st) :
    st.cv.lrs.img = some data
    ∧ ∃ lrs, convolutePixel data e clr data.Bounds.Min.X data.Bounds.Max.X
          data.Bounds.Min.Y data.Bounds.Max.Y (turnX data k) (turnY data k) st.cv.lrs = some lrs
        ∧ workersInv data e fout us
            { st with cv := { st.cv with lrs := lrs },
                      phases := st.phases.set u (phase.writing (k + 1)) } := by
  obtain ⟨hlt, -⟩ := List.getElem?_eq_some_iff.mp hp
  obtain ⟨h1, h2, h3, h4⟩ := h
  have hcount : (st.phases.set u (phase.writing (k + 1))).count phase.done
      = st.phases.count phase.done := by
    rw [count_done_set _ _ _ _ hp (by simp)]
    simp
  have hother : ∀ c2 l, clr ≠ c2 → layerOK data e us st.phases c2 l →
      layerOK data e us (st.phases.set u (phase.writing (k + 1))) c2 l := by
    intro c2 l hne hl
    refine layerOK_set data e us _ c2 l u _ hlt hl ?_
    intro t2 ht2 hc
    rw [hu] at ht2
    simp only [Option.some.injEq] at ht2
    rw [← ht2, htc] at hc
    exact absurd hc hne
  have hsame : ∀ l, layerOK data e us st.phases clr l →
      layerOK data e us (st.phases.set u (phase.writing (k + 1))) clr
        (l.Set (turnX data k) (turnY data k) (written data e clr (turnX data k) (turnY data k))) :=
    fun l hl => layerOK_pixel data e us st.phases clr l u k hp hl
  rcases h4 with ⟨-, -, hall⟩ | ⟨hg, r, g, b, a, hl, hr, hgg, hb, ha⟩
  · have hmem : phase.writing k ∈ st.phases := List.mem_iff_getElem?.mpr ⟨u, hp⟩
    exact absurd (hall _ hmem) (by simp)
  · refine ⟨by rw [hl], ?_⟩
    have hlen : (st.phases.set u (phase.writing (k + 1))).length = us.length := by simp [h1]
    have hcnt : st.cv.counter = (us.length : Int)
        - ((st.phases.set u (phase.writing (k + 1))).count phase.done : Int) := by
      rw [hcount]
      exact h2
    rcases hclr with hc | hc | hc | hc <;> subst hc
    · exact ⟨_, convolutePixel_eq data r e "R" (Or.inl rfl) st.cv.lrs (by rw [hl]; rfl) _ _,
        hlen, hcnt, h3, Or.inr ⟨hg,
          r.Set (turnX data k) (turnY data k) (written data e "R" (turnX data k) (turnY data k)),
          g, b, a, by simp only [hl]; rfl, hsame r hr, hother _ _ (by decide) hgg,
          hother _ _ (by decide) hb, hother _ _ (by decide) ha⟩⟩
    · exact ⟨_, convolutePixel_eq data g e "G" (Or.inr (Or.inl rfl)) st.cv.lrs
          (by rw [hl]; rfl) _ _,
        hlen, hcnt, h3, Or.inr ⟨hg, r,
          g.Set (turnX data k) (turnY data k) (written data e "G" (turnX data k) (turnY data k)),
          b, a, by simp only [hl]; rfl, hother _ _ (by decide) hr, hsame g hgg,
          hother _ _ (by decide) hb, hother _ _ (by decide) ha⟩⟩
    · exact ⟨_, convolutePixel_eq data b e "B" (Or.inr (Or.inr (Or.inl rfl))) st.cv.lrs
          (by rw [hl]; rfl) _ _,
        hlen, hcnt, h3, Or.inr ⟨hg, r, g,
          b.Set (turnX data k) (turnY data k) (written data e "B" (turnX data k) (turnY data k)),
          a, by simp only [hl]; rfl, hother _ _ (by decide) hr, hother _ _ (by decide) hgg,
          hsame b hb, hother _ _ (by decide) ha⟩⟩
    · exact ⟨_, convolutePixel_eq data a e "A" (Or.inr (Or.inr (Or.inr rfl))) st.cv.lrs
          (by rw [hl]; rfl) _ _,
        hlen, hcnt, h3, Or.inr ⟨hg, r, g, b,
          a.Set (turnX data k) (turnY data k) (written data e "A" (turnX data k) (turnY data k)),
          by simp only [hl]; rfl, hother _ _ (by decide) hr, hother _ _ (by decide) hgg,
          hother _ _ (by decide) hb, hsame a ha⟩⟩

/-- The decrement of the counter by a task whose pixel loops are over keeps the invariant;
the task that reads 0 finds the layers as they are after a run of all the tasks. -/
theorem workersInv_decrement (data : RGBA) (e fout : String) (us : List task)
    (st : workersState) (u k : Nat)
    (hall : ∀ v ∈ us, v.effect = e)
    (hcol : ∀ clr, (clr = "R" ∨ clr = "G" ∨ clr = "B" ∨ clr = "A") → ∃ v ∈ us, v.color = clr)
    (hp : st.phases[u]? = some (phase.writing k))
    (hk : ¬ k < (data.Bounds.Max.X - data.Bounds.Min.X).toNat
      * (data.Bounds.Max.Y - data.Bounds.Min.Y).toNat)
    (h : workersInv data e fout us st) :
    (st.cv.counter - 1 = 0 → flatten st.cv.lrs = some (flatAfter data us))
    ∧ workersInv data e fout us
        ⟨{ st.cv with counter := st.cv.counter - 1 }, st.phases.set u phase.done,
          if st.cv.counter - 1 = 0 then st.output ++ [⟨fout, flatAfter data us⟩]
          else st.output⟩ := by
  obtain ⟨hlt, -⟩ := List.getElem?_eq_some_iff.mp hp
  have hgetD : st.phases.getD u phase.waiting = phase.writing k := by
    simp [List.getD_eq_getElem?_getD, hp]
  obtain ⟨h1, h2, h3, h4⟩ := h
  have hcount : (st.phases.set u phase.done).count phase.done
      = st.phases.count phase.done + 1 := by
    rw [count_done_set _ _ _ _ hp (by simp)]
    simp
  have hlen : (st.phases.set u phase.done).length = us.length := by simp [h1]
  have hle : (st.phases.set u phase.done).count phase.done ≤ us.length := by
    rw [← hlen]
    exact List.count_le_length _ _
  have hpos : st.cv.counter ≠ 0 := by omega
  have hout : st.output = [] := by rw [h3, if_neg hpos]
  have hdone : ∀ clr l, layerOK data e us st.phases clr l →
      layerOK data e us (st.phases.set u phase.done) clr l := by
    intro clr l hl
    refine layerOK_set data e us _ clr l u _ hlt hl ?_
    intro t2 ht2 hc x y hin _
    apply hl.2.2 u t2 ht2 hc x y hin
    rw [hgetD]
    have := pixelIndex_lt data x y hin
    show pixelIndex data x y < k
    omega
  rcases h4 with ⟨-, -, hallw⟩ | ⟨hg, r, g, b, a, hl, hr, hgg, hb, ha⟩
  · have hmem : phase.writing k ∈ st.phases := List.mem_iff_getElem?.mpr ⟨u, hp⟩
    exact absurd (hallw _ hmem) (by simp)
  · have hflat : st.cv.counter - 1 = 0 → flatten st.cv.lrs = some (flatAfter data us) := by
      intro h0
      have hc2 : (st.phases.set u phase.done).count phase.done
          = (st.phases.set u phase.done).length := by
        rw [hlen]
        omega
      have halld := List.count_eq_length.mp hc2
      have hfin : ∀ clr l, (clr = "R" ∨ clr = "G" ∨ clr = "B" ∨ clr = "A") →
          layerOK data e us st.phases clr l →
          l = layerAfter data (NewRGBA data.Bounds) clr us := by
        intro clr l hclr hlo
        obtain ⟨v, hv, hvc⟩ := hcol clr hclr
        obtain ⟨iv, hiv⟩ := List.mem_iff_getElem?.mp hv
        have hivlt : iv < (st.phases.set u phase.done).length := by
          rw [hlen]
          exact (List.getElem?_eq_some_iff.mp hiv).1
        have hd : (st.phases.set u phase.done).getD iv phase.waiting = phase.done := by
          rw [List.getD_eq_getElem?_getD, List.getElem?_eq_getElem hivlt]
          exact (halld _ (List.getElem_mem hivlt)).symm
        rw [layerOK_done data e us _ clr l (hdone clr l hlo) iv v hiv hvc hd]
        unfold layerAfter
        rw [lastEffect_of_all clr e us hall ⟨v, hv, hvc⟩]
      rw [hl, hfin "R" r (by simp) hr, hfin "G" g (by simp) hgg, hfin "B" b (by simp) hb,
        hfin "A" a (by simp) ha]
      exact flatten_layersAfter data us
    refine ⟨hflat, hlen, ?_, ?_, Or.inr ⟨hg, r, g, b, a, hl, hdone _ _ hr, hdone _ _ hgg,
      hdone _ _ hb, hdone _ _ ha⟩⟩
    · show st.cv.counter - 1 = _
      rw [hcount]
      push_cast
      omega
    · show (if st.cv.counter - 1 = 0 then st.output ++ [⟨fout, flatAfter data us⟩]
          else st.output)
        = if st.cv.counter - 1 = 0 then [⟨fout, flatAfter data us⟩] else []
      rw [hout]
      rfl

/-- Every step of a worker keeps the invariant and does not panic. -/
theorem workersInv_step (copyImg : String → Option RGBA) (N : Nat) (data : RGBA)
    (e fout : String) (us : List task)
    (hus : ∀ v ∈ us, copyImg v.file_in = some data ∧ v.file_out = fout ∧ v.effect = e
      ∧ (v.color = "R" ∨ v.color = "G" ∨ v.color = "B" ∨ v.color = "A"))
    (hcol : ∀ clr, (clr = "R" ∨ clr = "G" ∨ clr = "B" ∨ clr = "A") → ∃ v ∈ us, v.color = clr)
    (st : workersState) (u : Nat) (h : workersInv data e fout us st) :
    ∃ st2, workersStep copyImg N us st u = some st2 ∧ workersInv data e fout us st2 := by
  unfold workersStep
  cases hu : us[u]? with
  | none => exact ⟨st, rfl, h⟩
  | some t =>
    have ht := hus t (List.mem_iff_getElem?.mpr ⟨u, hu⟩)
    cases hp : st.phases[u]? with
    | none => exact ⟨st, rfl, h⟩
    | some p =>
      cases p with
      | waiting =>
        simp only
        split_ifs with hen hg
        · obtain ⟨cv, hcv, hinv⟩ := workersInv_start copyImg data e fout us st u t ht.1 hp h
          refine ⟨_, ?_, hinv⟩
          rw [if_pos hg, Option.bind_eq_some] at hcv
          obtain ⟨lrs, hl1, hl2⟩ := hcv
          simp only [Option.bind_eq_bind, Option.pure_def]
          rw [hl1]
          simp only [Option.some_bind]
          rw [Option.some.injEq] at hl2
          rw [← hl2]
        · obtain ⟨cv, hcv, hinv⟩ := workersInv_start copyImg data e fout us st u t ht.1 hp h
          refine ⟨_, ?_, hinv⟩
          rw [if_neg hg, Option.some.injEq] at hcv
          rw [← hcv]
          rfl
        · exact ⟨st, rfl, h⟩
      | writing k =>
        obtain ⟨himg, lrs, hpix, hinv⟩ :=
          workersInv_pixel data e fout us st u k t t.color hu rfl ht.2.2.2 hp h
        simp only [himg]
        split_ifs with hk h0
        · refine ⟨_, ?_, hinv⟩
          rw [ht.2.2.1]
          have hpix2 : convolutePixel data e t.color data.Bounds.Min.X data.Bounds.Max.X
              data.Bounds.Min.Y data.Bounds.Max.Y
              (data.Bounds.Min.X
                + ((k / (data.Bounds.Max.Y - data.Bounds.Min.Y).toNat : Nat) : Int))
              (data.Bounds.Min.Y
                + ((k % (data.Bounds.Max.Y - data.Bounds.Min.Y).toNat : Nat) : Int))
              st.cv.lrs = some lrs := hpix
          simp only [Option.bind_eq_bind, Option.pure_def]
          rw [hpix2]
          rfl
        · obtain ⟨hflat, hinv2⟩ := workersInv_decrement data e fout us st u k
            (fun v hv => (hus v hv).2.2.1) hcol hp hk h
          rw [if_pos h0] at hinv2
          refine ⟨_, ?_, hinv2⟩
          simp only [Option.bind_eq_bind, Option.pure_def]
          rw [hflat h0, ht.2.1]
          rfl
        · obtain ⟨-, hinv2⟩ := workersInv_decrement data e fout us st u k
            (fun v hv => (hus v hv).2.2.1) hcol hp hk h
          rw [if_neg h0] at hinv2
          exact ⟨_, rfl, hinv2⟩
      | done => exact ⟨st, rfl, h⟩

theorem workersInv_init (data : RGBA) (e fout : String) (us : List task) (hn : 1 ≤ us.length) :
    workersInv data e fout us
      ⟨freshCanvas us.length, List.replicate us.length phase.waiting, []⟩ := by
  refine ⟨by simp, ?_, ?_, Or.inl ⟨rfl, rfl, fun p hp => List.eq_of_mem_replicate hp⟩⟩
  · have hc : (List.replicate us.length phase.waiting).count phase.done = 0 := by
      rw [List.count_replicate]
      simp
    simp only [hc, freshCanvas]
    simp
  · have h0 : (freshCanvas (us.length : Int)).counter ≠ 0 := by
      simp only [freshCanvas]
      omega
    simp only [if_neg h0]

/-- The invariant holds after every schedule, and no schedule makes a worker panic. -/
theorem workersInv_run (copyImg : String → Option RGBA) (N : Nat) (data : RGBA)
    (e fout : String) (us : List task)
    (hus : ∀ v ∈ us, copyImg v.file_in = some data ∧ v.file_out = fout ∧ v.effect = e
      ∧ (v.color = "R" ∨ v.color = "G" ∨ v.color = "B" ∨ v.color = "A"))
    (hcol : ∀ clr, (clr = "R" ∨ clr = "G" ∨ clr = "B" ∨ clr = "A") → ∃ v ∈ us, v.color = clr)
    (schedule : List Nat) :
    ∀ st, workersInv data e fout us st →
      ∃ st2, schedule.foldlM (workersStep copyImg N us) st = some st2
        ∧ workersInv data e fout us st2 := by
  induction schedule with
  | nil => intro st h; exact ⟨st, rfl, h⟩
  | cons u rest ih =>
    intro st h
    obtain ⟨st1, h1, hinv1⟩ := workersInv_step copyImg N data e fout us hus hcol st u h
    obtain ⟨st2, h2, hinv2⟩ := ih st1 hinv1
    refine ⟨st2, ?_, hinv2⟩
    rw [List.foldlM_cons, h1]
    exact h2

/-- Under the invariant, once every task is done the flattened image has been pushed, once. -/
theorem workersInv_output (data : RGBA) (e fout : String) (us : List task) (st : workersState)
    (h : workersInv data e fout us st) (hd : ∀ p ∈ st.phases, p = phase.done) :
    st.output = [⟨fout, flatAfter data us⟩] := by
  obtain ⟨h1, h2, h3, -⟩ := h
  have hc : st.phases.count phase.done = st.phases.length :=
    List.count_eq_length.mpr (fun p hp => (hd p hp).symm)
  have h0 : st.cv.counter = 0 := by
    rw [h2, hc, h1]
    omega
  rw [h3, if_pos h0]

/-- The effect of an emitted task is the trimmed field of one of the effect columns. -/
theorem emitted_effect (Join : String → String → String) (path : String) (row : List String)
    (m : Nat) (u : task) (hu : u ∈ emitted Join path row m) :
    ∃ p, p < m ∧ u.effect = TrimSpace (row.getD (p + 2) "") := by
  simp only [emitted, List.mem_flatMap, List.mem_range, List.mem_cons, List.mem_singleton,
    List.not_mem_nil, or_false] at hu
  obtain ⟨p, hp, h | h | h | h⟩ := hu <;> subst h <;> exact ⟨p, hp, rfl⟩

/-- With an effect column, the emitted tasks have all four colours. -/
theorem emitted_colours (Join : String → String → String) (path : String) (row : List String)
    (m : Nat) (hm : 1 ≤ m) (clr : String)
    (hclr : clr = "R" ∨ clr = "G" ∨ clr = "B" ∨ clr = "A") :
    ∃ v ∈ emitted Join path row m, v.color = clr := by
  have h := fun j hj => emitted_getElem? Join path row m 0 j (by omega) hj
  rcases hclr with hc | hc | hc | hc <;> subst hc
  · exact ⟨_, List.mem_iff_getElem?.mpr ⟨_, h 0 (by omega)⟩, rfl⟩
  · exact ⟨_, List.mem_iff_getElem?.mpr ⟨_, h 1 (by omega)⟩, rfl⟩
  · exact ⟨_, List.mem_iff_getElem?.mpr ⟨_, h 2 (by omega)⟩, rfl⟩
  · exact ⟨_, List.mem_iff_getElem?.mpr ⟨_, h 3 (by omega)⟩, rfl⟩

/-- C16, amended: for a manifest line whose `k ≥ 1` effect columns all carry the same
trimmed token, and a source image that decodes, a run with 1 worker and a run with `N`
workers never panic, whatever the order in which the workers take their steps (a step
being the taking of a task, one turn of the pixel loops of `convolute`, or the decrement
of the counter with `flatten` on 0); and once all the tasks are done, each run has pushed
the same single image, which is the image a single worker pushes by `Process`. -/
theorem workers_same_effect (Join : String → String → String) (line path : String)
    (copyImg : String → Option RGBA) (data : RGBA) (k : Nat) (hk : 1 ≤ k)
    (hline : (Split line ',').length = k + 2) (e : String)
    (hsame : ∀ p, p < k → TrimSpace ((Split line ',').getD (p + 2) "") = e)
    (hsrc : ∀ u ∈ (newTasks Join line path).1, copyImg u.file_in = some data)
    (N : Nat) (s1 sN : List Nat) :
    ∃ st1 stN cvf fout out,
      workersRun copyImg 1 (newTasks Join line path).1 (newTasks Join line path).2 s1 = some st1
      ∧ workersRun copyImg N (newTasks Join line path).1 (newTasks Join line path).2 sN
          = some stN
      ∧ Process copyImg (newTasks Join line path).1 (newTasks Join line path).2
          = some (cvf, [⟨fout, out⟩])
      ∧ ((∀ p ∈ st1.phases, p = phase.done) → st1.output = [⟨fout, out⟩])
      ∧ ((∀ p ∈ stN.phases, p = phase.done) → stN.output = [⟨fout, out⟩]) := by
  rw [newTasks_eq] at hsrc ⊢
  simp only
  have hk2 : (Split line ',').length - 2 = k := by omega
  rw [hk2] at hsrc ⊢
  generalize hus : emitted Join path (Split line ',') k = us at hsrc
  have hlen : us.length = 4 * k := by rw [← hus, emitted_length]
  have hcnt : ((4 * k : Nat) : Int) = (us.length : Int) := by rw [hlen]
  have hmem : ∀ v ∈ us, copyImg v.file_in = some data
      ∧ v.file_out = processedField Join path (Split line ',') 1 ∧ v.effect = e
      ∧ (v.color = "R" ∨ v.color = "G" ∨ v.color = "B" ∨ v.color = "A") := by
    intro v hv
    have h1 := emitted_mem Join path (Split line ',') _ v (hus ▸ hv)
    obtain ⟨p, hp, hpe⟩ := emitted_effect Join path (Split line ',') _ v (hus ▸ hv)
    exact ⟨hsrc v hv, h1.2.1, by rw [hpe]; exact hsame p hp, h1.2.2⟩
  have hcol : ∀ clr, (clr = "R" ∨ clr = "G" ∨ clr = "B" ∨ clr = "A") →
      ∃ v ∈ us, v.color = clr := by
    intro clr hclr
    rw [← hus]
    exact emitted_colours Join path (Split line ',') k hk clr hclr
  have hne : us ≠ [] := by
    intro h
    rw [h] at hlen
    simp at hlen
    omega
  rw [hcnt]
  have hinit := workersInv_init data e (processedField Join path (Split line ',') 1) us
    (by omega)
  obtain ⟨st1, h1, hinv1⟩ := workersInv_run copyImg 1 data e _ us hmem hcol s1 _ hinit
  obtain ⟨stN, h2, hinvN⟩ := workersInv_run copyImg N data e _ us hmem hcol sN _ hinit
  exact ⟨st1, stN, _, _, _, h1, h2,
    Process_eq copyImg data _ us hne (fun v hv => ⟨(hmem v hv).1, (hmem v hv).2.1, (hmem v hv).2.2.2⟩),
    workersInv_output data e _ us st1 hinv1, workersInv_output data e _ us stN hinvN⟩

/-- Counterexample to C16 as stated: for the line `a.png, out.png, B, G` on the image of one
pixel (10,20,30), one worker pushes (20,20,20,255). With two workers, when the worker
that took the first task (blur, colour R) stores its pixel only after the other worker
has finished the seven other tasks, the pushed image is (1,20,20,255). -/
theorem workers_counterexample :
    workersView (workersRun (fun _ => some onePixelImage) 1
        (newTasks sampleJoin "a.png, out.png, B, G" "dir").1
        (newTasks sampleJoin "a.png, out.png, B, G" "dir").2
        [0, 0, 0, 1, 1, 1, 2, 2, 2, 3, 3, 3, 4, 4, 4, 5, 5, 5, 6, 6, 6, 7, 7, 7]) 0 0
      = some (List.replicate 8 phase.done, [⟨20, 20, 20, 255⟩])
    ∧ workersView (workersRun (fun _ => some onePixelImage) 2
        (newTasks sampleJoin "a.png, out.png, B, G" "dir").1
        (newTasks sampleJoin "a.png, out.png, B, G" "dir").2
        [0, 1, 1, 1, 2, 2, 2, 3, 3, 3, 4, 4, 4, 5, 5, 5, 6, 6, 6, 7, 7, 7, 0, 0]) 0 0
      = some (List.replicate 8 phase.done, [⟨1, 20, 20, 255⟩]) := by
  constructor <;> decide

/-- Witness of C16, amended: for the line `a.png, out.png, B` on the 2 by 2 sample image,
one worker that runs the tasks in turn and two workers whose pixel turns alternate all
finish, and push the same image. -/
theorem workers_same_effect_witness :
    ∃ st1 stN cvf fout out,
      workersRun sampleCopyImg 1 (newTasks sampleJoin "a.png, out.png, B" "dir").1
          (newTasks sampleJoin "a.png, out.png, B" "dir").2
          [0, 0, 0, 0, 0, 0, 1, 1, 1, 1, 1, 1, 2, 2, 2, 2, 2, 2, 3, 3, 3, 3, 3, 3] = some st1
      ∧ workersRun sampleCopyImg 2 (newTasks sampleJoin "a.png, out.png, B" "dir").1
          (newTasks sampleJoin "a.png, out.png, B" "dir").2
          [0, 1, 0, 1, 0, 1, 1, 0, 1, 0, 1, 0, 2, 3, 3, 2, 3, 2, 2, 3, 2, 3, 3, 2] = some stN
      ∧ Process sampleCopyImg (newTasks sampleJoin "a.png, out.png, B" "dir").1
          (newTasks sampleJoin "a.png, out.png, B" "dir").2 = some (cvf, [⟨fout, out⟩])
      ∧ st1.output = [⟨fout, out⟩] ∧ stN.output = [⟨fout, out⟩] := by
  obtain ⟨st1, stN, cvf, fout, out, h1, hN, hP, ho1, hoN⟩ :=
    workers_same_effect sampleJoin "a.png, out.png, B" "dir" sampleCopyImg sampleImage 1
      (le_refl 1) (by decide) "B" (by decide) (fun _ _ => rfl) 2
      [0, 0, 0, 0, 0, 0, 1, 1, 1, 1, 1, 1, 2, 2, 2, 2, 2, 2, 3, 3, 3, 3, 3, 3]
      [0, 1, 0, 1, 0, 1, 1, 0, 1, 0, 1, 0, 2, 3, 3, 2, 3, 2, 2, 3, 2, 3, 3, 2]
  have p1 : (workersRun sampleCopyImg 1 (newTasks sampleJoin "a.png, out.png, B" "dir").1
      (newTasks sampleJoin "a.png, out.png, B" "dir").2
      [0, 0, 0, 0, 0, 0, 1, 1, 1, 1, 1, 1, 2, 2, 2, 2, 2, 2, 3, 3, 3, 3, 3, 3]).map
        (fun s => s.phases) = some (List.replicate 4 phase.done) := by decide
  have pN : (workersRun sampleCopyImg 2 (newTasks sampleJoin "a.png, out.png, B" "dir").1
      (newTasks sampleJoin "a.png, out.png, B" "dir").2
      [0, 1, 0, 1, 0, 1, 1, 0, 1, 0, 1, 0, 2, 3, 3, 2, 3, 2, 2, 3, 2, 3, 3, 2]).map
        (fun s => s.phases) = some (List.replicate 4 phase.done) := by decide
  rw [h1] at p1
  rw [hN] at pN
  simp only [Option.map_some', Option.some.injEq] at p1 pN
  exact ⟨st1, stN, cvf, fout, out, h1, hN, hP,
    ho1 (fun p hp => List.eq_of_mem_replicate (p1 ▸ hp)),
    hoN (fun p hp => List.eq_of_mem_replicate (pN ▸ hp))⟩

/-! ## The counter and the workers -/

/-- One pixel step of `convolute` stores a new buffer in the layer of its colour. -/
theorem convolutePixel_setLayer (data : RGBA) (effect clr : String)
    (hclr : clr = "R" ∨ clr = "G" ∨ clr = "B" ∨ clr = "A")
    (minX maxX minY maxY i j : Int) (s s2 : layers)
    (h : convolutePixel data effect clr minX maxX minY maxY i j s = some s2) :
    ∃ b, s2 = s.setLayer clr b := by
  unfold convolutePixel at h
  rcases hclr with hc | hc | hc | hc <;> subst hc <;>
    by_cases he : effect = "G" <;>
    simp [he, Option.bind_eq_some] at h <;>
    first
      | (obtain ⟨a, -, b, -, h3⟩ := h; exact ⟨_, h3.symm⟩)
      | (obtain ⟨b, -, h3⟩ := h; exact ⟨_, h3.symm⟩)

/-- Allocated layers stay allocated when a layer gets a new buffer. -/
theorem setLayer_allocated (clr : String) (x data r g b a : RGBA) :
    ∃ r2 g2 b2 a2, (⟨some data, some r, some g, some b, some a⟩ : layers).setLayer clr x
      = ⟨some data, some r2, some g2, some b2, some a2⟩ := by
  unfold layers.setLayer
  split_ifs
  · exact ⟨_, _, _, _, rfl⟩
  · exact ⟨_, _, _, _, rfl⟩
  · exact ⟨_, _, _, _, rfl⟩
  · exact ⟨_, _, _, _, rfl⟩

/-- The layer of a colour is allocated when all the layers are. -/
theorem layer_allocated (clr : String) (data r g b a : RGBA) :
    ∃ l, (⟨some data, some r, some g, some b, some a⟩ : layers).layer clr = some l := by
  unfold layers.layer
  split_ifs
  · exact ⟨_, rfl⟩
  · exact ⟨_, rfl⟩
  · exact ⟨_, rfl⟩
  · exact ⟨_, rfl⟩

/-- The step of a worker that takes a task from the channel. -/
theorem workersStep_start (copyImg : String → Option RGBA) (N : Nat) (us : List task)
    (st : workersState) (u : Nat) (t : task) (hu : us[u]? = some t)
    (hp : st.phases[u]? = some phase.waiting)
    (hen : ((st.phases.take u).all (fun p => decide (p ≠ phase.waiting))
        && decide ((st.phases.filter
            (fun p => decide (p ≠ phase.waiting ∧ p ≠ phase.done))).length < N)) = true) :
    workersStep copyImg N us st u
      = (if st.cv.getImg then
            (initLayers { st.cv.lrs with img := copyImg t.file_in }).bind
              (fun lrs => some { st.cv with lrs := lrs, getImg := false })
          else some st.cv).bind
          (fun cv => some { st with cv := cv, phases := st.phases.set u (phase.writing 0) }) := by
  unfold workersStep
  rw [hu, hp]
  simp only
  rw [if_pos hen]
  rfl

/-- The step of a worker on a task that cannot be taken yet. -/
theorem workersStep_blocked (copyImg : String → Option RGBA) (N : Nat) (us : List task)
    (st : workersState) (u : Nat) (t : task) (hu : us[u]? = some t)
    (hp : st.phases[u]? = some phase.waiting)
    (hen : ¬ ((st.phases.take u).all (fun p => decide (p ≠ phase.waiting))
        && decide ((st.phases.filter
            (fun p => decide (p ≠ phase.waiting ∧ p ≠ phase.done))).length < N)) = true) :
    workersStep copyImg N us st u = some st := by
  unfold workersStep
  rw [hu, hp]
  simp only
  rw [if_neg hen]
  rfl

/-- The step of a worker that does one turn of the pixel loops of `convolute`. -/
theorem workersStep_turn (copyImg : String → Option RGBA) (N : Nat) (us : List task)
    (st : workersState) (u k : Nat) (t : task) (data : RGBA) (hu : us[u]? = some t)
    (hp : st.phases[u]? = some (phase.writing k)) (himg : st.cv.lrs.img = some data)
    (hk : k < (data.Bounds.Max.X - data.Bounds.Min.X).toNat
      * (data.Bounds.Max.Y - data.Bounds.Min.Y).toNat) :
    workersStep copyImg N us st u
      = (convolutePixel data t.effect t.color data.Bounds.Min.X data.Bounds.Max.X
            data.Bounds.Min.Y data.Bounds.Max.Y (turnX data k) (turnY data k) st.cv.lrs).bind
          (fun lrs => some { st with cv := { st.cv with lrs := lrs },
                                     phases := st.phases.set u (phase.writing (k + 1)) }) := by
  unfold workersStep
  rw [hu, hp]
  simp only [himg]
  rw [if_pos hk]
  rfl

/-- The step of a worker whose pixel loops are over: the decrement of the counter, with
`flatten` and the push when it reads 0. -/
theorem workersStep_decrement (copyImg : String → Option RGBA) (N : Nat) (us : List task)
    (st : workersState) (u k : Nat) (t : task) (data : RGBA) (hu : us[u]? = some t)
    (hp : st.phases[u]? = some (phase.writing k)) (himg : st.cv.lrs.img = some data)
    (hk : ¬ k < (data.Bounds.Max.X - data.Bounds.Min.X).toNat
      * (data.Bounds.Max.Y - data.Bounds.Min.Y).toNat) :
    workersStep copyImg N us st u
      = if st.cv.counter - 1 = 0 then
          (flatten st.cv.lrs).bind (fun d => some
            ⟨{ st.cv with counter := st.cv.counter - 1 }, st.phases.set u phase.done,
              st.output ++ [⟨t.file_out, d⟩]⟩)
        else some ⟨{ st.cv with counter := st.cv.counter - 1 }, st.phases.set u phase.done,
              st.output⟩ := by
  unfold workersStep
  rw [hu, hp]
  simp only [himg]
  rw [if_neg hk]
  rfl

/-- A step for a number that is not the number of a task, or for a task that is done,
changes nothing. -/
theorem workersStep_idle (copyImg : String → Option RGBA) (N : Nat) (us : List task)
    (st : workersState) (u : Nat)
    (h : us[u]? = none ∨ st.phases[u]? = none ∨ st.phases[u]? = some phase.done) :
    workersStep copyImg N us st u = some st := by
  unfold workersStep
  rcases h with h | h | h <;> rw [h] <;> split <;> first | rfl | simp_all

/-- While a task is in the hands of a worker the source image and the layers are
allocated. -/
theorem counterInv_allocated (n : Nat) (st : workersState) (u : Nat) (p : phase)
    (hp : st.phases[u]? = some p) (hw : p ≠ phase.waiting) (h : counterInv n st) :
    st.cv.getImg = false
      ∧ ∃ data r g b a, st.cv.lrs = ⟨some data, some r, some g, some b, some a⟩ := by
  rcases h.2.2.2 with ⟨-, -, hall⟩ | h4
  · exact absurd (hall p (List.mem_iff_getElem?.mpr ⟨u, hp⟩)) hw
  · exact h4

/-- Under the invariant the counter is 0 exactly when every task is done. -/
theorem counterInv_zero (n : Nat) (st : workersState) (h : counterInv n st) :
    st.cv.counter = 0 ↔ ∀ p ∈ st.phases, p = phase.done := by
  obtain ⟨h1, h2, -, -⟩ := h
  have hle : st.phases.count phase.done ≤ st.phases.length := List.count_le_length _ _
  constructor
  · intro h0
    have hc : st.phases.count phase.done = st.phases.length := by omega
    exact fun p hp => (List.count_eq_length.mp hc p hp).symm
  · intro hd
    have hc : st.phases.count phase.done = st.phases.length :=
      List.count_eq_length.mpr (fun p hp => (hd p hp).symm)
    omega

/-- Under the invariant one image has been pushed when every task is done, and none
before. -/
theorem counterInv_output (n : Nat) (st : workersState) (h : counterInv n st) :
    ((∀ p ∈ st.phases, p = phase.done) → ∃ o, st.output = [o])
    ∧ (¬ (∀ p ∈ st.phases, p = phase.done) → st.output = []) := by
  have hz := counterInv_zero n st h
  obtain ⟨-, -, h3, -⟩ := h
  constructor
  · intro hd
    rw [if_pos (hz.mpr hd)] at h3
    exact List.length_eq_one.mp h3
  · intro hd
    rw [if_neg (fun h0 => hd (hz.mp h0))] at h3
    exact List.length_eq_zero.mp h3

/-- A step that does not panic keeps the invariant of the counter. The counter and the
output change only in the step in which a task becomes done: the task has done all the
turns of its pixel loops, the counter goes down by one, and an image is pushed exactly
when the counter reaches 0. -/
theorem counterInv_step (copyImg : String → Option RGBA) (N : Nat) (us : List task) (n : Nat)
    (hcol : ∀ v ∈ us, v.color = "R" ∨ v.color = "G" ∨ v.color = "B" ∨ v.color = "A")
    (st st2 : workersState) (u : Nat) (h : counterInv n st)
    (hs : workersStep copyImg N us st u = some st2) :
    counterInv n st2
    ∧ ((st2.phases[u]? = some phase.done ∧ st.phases[u]? ≠ some phase.done) →
        (∃ data kk, st.cv.lrs.img = some data ∧ st.phases[u]? = some (phase.writing kk)
          ∧ (data.Bounds.Max.X - data.Bounds.Min.X).toNat
              * (data.Bounds.Max.Y - data.Bounds.Min.Y).toNat ≤ kk)
        ∧ st2.cv.counter = st.cv.counter - 1
        ∧ (st2.cv.counter = 0 → ∃ o, st2.output = st.output ++ [o])
        ∧ (st2.cv.counter ≠ 0 → st2.output = st.output))
    ∧ (¬ (st2.phases[u]? = some phase.done ∧ st.phases[u]? ≠ some phase.done) →
        st2.cv.counter = st.cv.counter ∧ st2.output = st.output) := by
  have hsame : st = st2 →
      counterInv n st2
      ∧ ((st2.phases[u]? = some phase.done ∧ st.phases[u]? ≠ some phase.done) →
          (∃ data kk, st.cv.lrs.img = some data ∧ st.phases[u]? = some (phase.writing kk)
            ∧ (data.Bounds.Max.X - data.Bounds.Min.X).toNat
                * (data.Bounds.Max.Y - data.Bounds.Min.Y).toNat ≤ kk)
          ∧ st2.cv.counter = st.cv.counter - 1
          ∧ (st2.cv.counter = 0 → ∃ o, st2.output = st.output ++ [o])
          ∧ (st2.cv.counter ≠ 0 → st2.output = st.output))
      ∧ (¬ (st2.phases[u]? = some phase.done ∧ st.phases[u]? ≠ some phase.done) →
          st2.cv.counter = st.cv.counter ∧ st2.output = st.output) := by
    intro he
    subst he
    exact ⟨h, fun hd => absurd hd.1 hd.2, fun _ => ⟨rfl, rfl⟩⟩
  cases hu : us[u]? with
  | none =>
    rw [workersStep_idle copyImg N us st u (Or.inl hu), Option.some.injEq] at hs
    exact hsame hs
  | some t =>
    have hclr := hcol t (List.mem_iff_getElem?.mpr ⟨u, hu⟩)
    have hcases : st.phases[u]? = none ∨ ∃ p, st.phases[u]? = some p := by
      cases st.phases[u]? <;> simp
    rcases hcases with hp | ⟨p, hp⟩
    · rw [workersStep_idle copyImg N us st u (Or.inr (Or.inl hp)), Option.some.injEq] at hs
      exact hsame hs
    · obtain ⟨hlt, -⟩ := List.getElem?_eq_some_iff.mp hp
      obtain ⟨h1, h2, h3, h4⟩ := h
      cases p with
      | waiting =>
        by_cases hen : ((st.phases.take u).all (fun p => decide (p ≠ phase.waiting))
            && decide ((st.phases.filter
                (fun p => decide (p ≠ phase.waiting ∧ p ≠ phase.done))).length < N)) = true
        · rw [workersStep_start copyImg N us st u t hu hp hen, Option.bind_eq_some] at hs
          obtain ⟨cv, hcv, hst2⟩ := hs
          rw [Option.some.injEq] at hst2
          subst hst2
          have hcount : (st.phases.set u (phase.writing 0)).count phase.done
              = st.phases.count phase.done := by
            rw [count_done_set _ _ _ _ hp (by decide)]
            simp
          have hnew : (st.phases.set u (phase.writing 0))[u]? = some (phase.writing 0) := by
            simp [hlt]
          have hcvs : cv.counter = st.cv.counter ∧ cv.getImg = false
              ∧ ∃ data r g b a, cv.lrs = ⟨some data, some r, some g, some b, some a⟩ := by
            rcases h4 with ⟨hg, hl, -⟩ | ⟨hg, hal⟩
            · rw [if_pos hg, hl] at hcv
              cases hc : copyImg t.file_in with
              | none => simp [initLayers, hc] at hcv
              | some d =>
                simp only [initLayers, hc, Option.some_bind, Option.some.injEq] at hcv
                subst hcv
                exact ⟨rfl, rfl, _, _, _, _, _, rfl⟩
            · rw [hg] at hcv
              simp only [Bool.false_eq_true, if_false, Option.some.injEq] at hcv
              subst hcv
              exact ⟨rfl, hg, hal⟩
          refine ⟨⟨by simp [h1], ?_, ?_, Or.inr hcvs.2⟩, ?_, ?_⟩
          · show cv.counter = _
            rw [hcount, hcvs.1]
            exact h2
          · show st.output.length = if cv.counter = 0 then 1 else 0
            rw [hcvs.1]
            exact h3
          · intro hd
            have hd1 : (st.phases.set u (phase.writing 0))[u]? = some phase.done := hd.1
            rw [hnew] at hd1
            simp at hd1
          · intro _
            exact ⟨hcvs.1, rfl⟩
        · rw [workersStep_blocked copyImg N us st u t hu hp hen, Option.some.injEq] at hs
          exact hsame hs
      | writing k =>
        obtain ⟨hg, data, r, g, b, a, hl⟩ :=
          counterInv_allocated n st u _ hp (by simp) ⟨h1, h2, h3, h4⟩
        have himg : st.cv.lrs.img = some data := by rw [hl]
        by_cases hk : k < (data.Bounds.Max.X - data.Bounds.Min.X).toNat
            * (data.Bounds.Max.Y - data.Bounds.Min.Y).toNat
        · rw [workersStep_turn copyImg N us st u k t data hu hp himg hk,
            Option.bind_eq_some] at hs
          obtain ⟨lrs, hlrs, hst2⟩ := hs
          rw [Option.some.injEq] at hst2
          subst hst2
          obtain ⟨x, hx⟩ := convolutePixel_setLayer data t.effect t.color hclr _ _ _ _ _ _ _ _ hlrs
          have hal : ∃ data r g b a, lrs = ⟨some data, some r, some g, some b, some a⟩ := by
            rw [hx, hl]
            obtain ⟨r2, g2, b2, a2, he⟩ := setLayer_allocated t.color x data r g b a
            exact ⟨_, _, _, _, _, he⟩
          have hcount : (st.phases.set u (phase.writing (k + 1))).count phase.done
              = st.phases.count phase.done := by
            rw [count_done_set _ _ _ _ hp (by simp)]
            simp
          have hnew : (st.phases.set u (phase.writing (k + 1)))[u]?
              = some (phase.writing (k + 1)) := by
            simp [hlt]
          refine ⟨⟨by simp [h1], ?_, h3, Or.inr ⟨hg, hal⟩⟩, ?_, ?_⟩
          · show st.cv.counter = _
            rw [hcount]
            exact h2
          · intro hd
            have hd1 : (st.phases.set u (phase.writing (k + 1)))[u]? = some phase.done := hd.1
            rw [hnew] at hd1
            simp at hd1
          · intro _
            exact ⟨rfl, rfl⟩
        · rw [workersStep_decrement copyImg N us st u k t data hu hp himg hk] at hs
          have hcount : (st.phases.set u phase.done).count phase.done
              = st.phases.count phase.done + 1 := by
            rw [count_done_set _ _ _ _ hp (by simp)]
            simp
          have hlen : (st.phases.set u phase.done).length = n := by simp [h1]
          have hle : (st.phases.set u phase.done).count phase.done ≤ n := by
            rw [← hlen]
            exact List.count_le_length _ _
          have hpos : st.cv.counter ≠ 0 := by omega
          have hout : st.output.length = 0 := by rw [h3, if_neg hpos]
          have hfacts : (∃ data kk, st.cv.lrs.img = some data
              ∧ st.phases[u]? = some (phase.writing kk)
              ∧ (data.Bounds.Max.X - data.Bounds.Min.X).toNat
                  * (data.Bounds.Max.Y - data.Bounds.Min.Y).toNat ≤ kk) :=
            ⟨data, k, himg, hp, by omega⟩
          by_cases h0 : st.cv.counter - 1 = 0
          · rw [if_pos h0, Option.bind_eq_some] at hs
            obtain ⟨d, -, hst2⟩ := hs
            rw [Option.some.injEq] at hst2
            subst hst2
            refine ⟨⟨hlen, ?_, ?_, Or.inr ⟨hg, data, r, g, b, a, hl⟩⟩, ?_, ?_⟩
            · show st.cv.counter - 1 = _
              rw [hcount]
              push_cast
              omega
            · show (st.output ++ [_]).length = if st.cv.counter - 1 = 0 then 1 else 0
              rw [if_pos h0, List.length_append, hout]
              rfl
            · intro _
              exact ⟨hfacts, rfl, fun _ => ⟨_, rfl⟩, fun hne => absurd h0 hne⟩
            · intro hnd
              exfalso
              apply hnd
              refine ⟨?_, by rw [hp]; simp⟩
              show (st.phases.set u phase.done)[u]? = some phase.done
              simp [hlt]
          · rw [if_neg h0, Option.some.injEq] at hs
            subst hs
            refine ⟨⟨hlen, ?_, ?_, Or.inr ⟨hg, data, r, g, b, a, hl⟩⟩, ?_, ?_⟩
            · show st.cv.counter - 1 = _
              rw [hcount]
              push_cast
              omega
            · show st.output.length = if st.cv.counter - 1 = 0 then 1 else 0
              rw [if_neg h0, hout]
            · intro _
              exact ⟨hfacts, rfl, fun h00 => absurd h00 h0, fun _ => rfl⟩
            · intro hnd
              exfalso
              apply hnd
              refine ⟨?_, by rw [hp]; simp⟩
              show (st.phases.set u phase.done)[u]? = some phase.done
              simp [hlt]
      | done =>
        rw [workersStep_idle copyImg N us st u (Or.inr (Or.inr hp)), Option.some.injEq] at hs
        exact hsame hs

/-- With a source image that decodes, no step under the invariant panics. -/
theorem counterInv_progress (copyImg : String → Option RGBA) (N : Nat) (us : List task)
    (n : Nat)
    (hcol : ∀ v ∈ us, v.color = "R" ∨ v.color = "G" ∨ v.color = "B" ∨ v.color = "A")
    (hsrc : ∀ v ∈ us, ∃ data, copyImg v.file_in = some data)
    (st : workersState) (u : Nat) (h : counterInv n st) :
    ∃ st2, workersStep copyImg N us st u = some st2 := by
  cases hu : us[u]? with
  | none => exact ⟨st, workersStep_idle copyImg N us st u (Or.inl hu)⟩
  | some t =>
    have hmem : t ∈ us := List.mem_iff_getElem?.mpr ⟨u, hu⟩
    cases hp : st.phases[u]? with
    | none => exact ⟨st, workersStep_idle copyImg N us st u (Or.inr (Or.inl hp))⟩
    | some p =>
      cases p with
      | waiting =>
        by_cases hen : ((st.phases.take u).all (fun p => decide (p ≠ phase.waiting))
            && decide ((st.phases.filter
                (fun p => decide (p ≠ phase.waiting ∧ p ≠ phase.done))).length < N)) = true
        · rw [workersStep_start copyImg N us st u t hu hp hen]
          rcases h.2.2.2 with ⟨hg, hl, -⟩ | ⟨hg, -⟩
          · obtain ⟨d, hd⟩ := hsrc t hmem
            rw [if_pos hg, hl]
            simp only [initLayers, hd, Option.some_bind]
            exact ⟨_, rfl⟩
          · rw [hg]
            exact ⟨_, rfl⟩
        · exact ⟨st, workersStep_blocked copyImg N us st u t hu hp hen⟩
      | writing k =>
        obtain ⟨-, data, r, g, b, a, hl⟩ := counterInv_allocated n st u _ hp (by simp) h
        have himg : st.cv.lrs.img = some data := by rw [hl]
        by_cases hk : k < (data.Bounds.Max.X - data.Bounds.Min.X).toNat
            * (data.Bounds.Max.Y - data.Bounds.Min.Y).toNat
        · rw [workersStep_turn copyImg N us st u k t data hu hp himg hk]
          obtain ⟨l, hlay⟩ := layer_allocated t.color data r g b a
          rw [convolutePixel_eq data l t.effect t.color (hcol t hmem) st.cv.lrs
            (by rw [hl]; exact hlay)]
          exact ⟨_, rfl⟩
        · rw [workersStep_decrement copyImg N us st u k t data hu hp himg hk]
          by_cases h0 : st.cv.counter - 1 = 0
          · rw [if_pos h0, hl, flatten_eq]
            exact ⟨_, rfl⟩
          · rw [if_neg h0]
            exact ⟨_, rfl⟩
      | done => exact ⟨st, workersStep_idle copyImg N us st u (Or.inr (Or.inr hp))⟩

theorem counterInv_init (n : Nat) (hn : 1 ≤ n) :
    counterInv n ⟨freshCanvas n, List.replicate n phase.waiting, []⟩ := by
  refine ⟨by simp, ?_, ?_, Or.inl ⟨rfl, rfl, fun p hp => List.eq_of_mem_replicate hp⟩⟩
  · have hc : (List.replicate n phase.waiting).count phase.done = 0 := by
      rw [List.count_replicate]
      simp
    simp only [hc, freshCanvas]
    simp
  · have h0 : (freshCanvas (n : Int)).counter ≠ 0 := by
      simp only [freshCanvas]
      omega
    simp only [if_neg h0]
    rfl

/-- The invariant of the counter holds after every schedule that does not panic. -/
theorem counterInv_run (copyImg : String → Option RGBA) (N : Nat) (us : List task) (n : Nat)
    (hcol : ∀ v ∈ us, v.color = "R" ∨ v.color = "G" ∨ v.color = "B" ∨ v.color = "A")
    (schedule : List Nat) (st st2 : workersState) (h : counterInv n st)
    (hs : schedule.foldlM (workersStep copyImg N us) st = some st2) : counterInv n st2 :=
  foldlM_preserves (counterInv n) (workersStep copyImg N us)
    (fun u s s2 hs h => (counterInv_step copyImg N us n hcol s s2 u hs h).1) schedule st st2 h hs

/-- With a source image that decodes, no schedule makes a worker panic. -/
theorem counterInv_total (copyImg : String → Option RGBA) (N : Nat) (us : List task) (n : Nat)
    (hcol : ∀ v ∈ us, v.color = "R" ∨ v.color = "G" ∨ v.color = "B" ∨ v.color = "A")
    (hsrc : ∀ v ∈ us, ∃ data, copyImg v.file_in = some data)
    (schedule : List Nat) :
    ∀ st, counterInv n st → ∃ st2, schedule.foldlM (workersStep copyImg N us) st = some st2 := by
  induction schedule with
  | nil => intro st _; exact ⟨st, rfl⟩
  | cons u rest ih =>
    intro st h
    obtain ⟨st1, h1⟩ := counterInv_progress copyImg N us n hcol hsrc st u h
    obtain ⟨st2, h2⟩ := ih st1 (counterInv_step copyImg N us n hcol st st1 u h h1).1
    refine ⟨st2, ?_⟩
    rw [List.foldlM_cons, h1]
    exact h2

/-- The last step of a schedule. -/
theorem foldlM_snoc {σ α : Type} (step : σ → α → Option σ) (l : List α) (a : α) (s : σ) :
    (l ++ [a]).foldlM step s = (l.foldlM step s).bind (fun x => step x a) := by
  rw [List.foldlM_append]
  simp only [Option.bind_eq_bind]
  congr 1
  funext x
  simp [List.foldlM_cons]

/-- The turns of the pixel loops of the task `m` that are left after `j` turns, and its
decrement of the counter, when no other worker takes a step in between. -/
theorem sequential_turns (copyImg : String → Option RGBA) (N : Nat) (us : List task)
    (n : Nat) (data : RGBA)
    (hcol : ∀ v ∈ us, v.color = "R" ∨ v.color = "G" ∨ v.color = "B" ∨ v.color = "A")
    (m : Nat) (t : task) (hm : us[m]? = some t) :
    ∀ (d j : Nat) (st : workersState),
      j + d = (data.Bounds.Max.X - data.Bounds.Min.X).toNat
          * (data.Bounds.Max.Y - data.Bounds.Min.Y).toNat →
      counterInv n st → st.cv.lrs.img = some data →
      st.phases[m]? = some (phase.writing j) →
      ∃ st2, (List.replicate (d + 1) m).foldlM (workersStep copyImg N us) st = some st2
        ∧ counterInv n st2 ∧ st2.cv.getImg = false ∧ st2.cv.lrs.img = some data
        ∧ st2.phases = st.phases.set m phase.done := by
  intro d
  induction d with
  | zero =>
    intro j st hj hinv himg hp
    obtain ⟨hg, data2, r, g, b, a, hl⟩ := counterInv_allocated n st m _ hp (by simp) hinv
    have hk : ¬ j < (data.Bounds.Max.X - data.Bounds.Min.X).toNat
        * (data.Bounds.Max.Y - data.Bounds.Min.Y).toNat := by omega
    have hstep := workersStep_decrement copyImg N us st m j t data hm hp himg hk
    have hex : ∃ st2, workersStep copyImg N us st m = some st2
        ∧ st2.cv.getImg = false ∧ st2.cv.lrs.img = some data
        ∧ st2.phases = st.phases.set m phase.done := by
      by_cases h0 : st.cv.counter - 1 = 0
      · rw [if_pos h0, hl, flatten_eq] at hstep
        exact ⟨_, hstep, hg, himg, rfl⟩
      · rw [if_neg h0] at hstep
        exact ⟨_, hstep, hg, himg, rfl⟩
    obtain ⟨st2, hs2, hg2, himg2, hph2⟩ := hex
    refine ⟨st2, ?_, (counterInv_step copyImg N us n hcol st st2 m hinv hs2).1, hg2, himg2, hph2⟩
    simp [List.foldlM_cons, hs2]
  | succ d ih =>
    intro j st hj hinv himg hp
    obtain ⟨hg, data2, r, g, b, a, hl⟩ := counterInv_allocated n st m _ hp (by simp) hinv
    have hk : j < (data.Bounds.Max.X - data.Bounds.Min.X).toNat
        * (data.Bounds.Max.Y - data.Bounds.Min.Y).toNat := by omega
    have hclr := hcol t (List.mem_iff_getElem?.mpr ⟨m, hm⟩)
    obtain ⟨l, hlay⟩ := layer_allocated t.color data2 r g b a
    have hstep := workersStep_turn copyImg N us st m j t data hm hp himg hk
    rw [convolutePixel_eq data l t.effect t.color hclr st.cv.lrs (by rw [hl]; exact hlay)]
      at hstep
    simp only [Option.some_bind] at hstep
    have hinv1 := (counterInv_step copyImg N us n hcol st _ m hinv hstep).1
    obtain ⟨hlt, -⟩ := List.getElem?_eq_some_iff.mp hp
    obtain ⟨st2, hs2, hinv2, hg2, himg2, hph2⟩ := ih (j + 1) _ (by omega) hinv1
      (by
        show (st.cv.lrs.setLayer t.color _).img = some data
        rw [setLayer_img]
        exact himg)
      (by
        show (st.phases.set m (phase.writing (j + 1)))[m]? = some (phase.writing (j + 1))
        simp [hlt])
    refine ⟨st2, ?_, hinv2, hg2, himg2, ?_⟩
    · rw [List.replicate_succ, List.foldlM_cons, hstep]
      exact hs2
    · rw [hph2]
      exact List.set_set _ _ _ _

/-- A worker that finds the tasks before the task `m` done and the other ones in the
channel takes the task `m` and, left alone, brings it to its end. -/
theorem sequential_task (copyImg : String → Option RGBA) (N : Nat) (hN : 1 ≤ N)
    (us : List task) (n : Nat) (hlen : us.length = n) (data : RGBA)
    (hcol : ∀ v ∈ us, v.color = "R" ∨ v.color = "G" ∨ v.color = "B" ∨ v.color = "A")
    (hsrc : ∀ v ∈ us, copyImg v.file_in = some data)
    (m : Nat) (hm : m < n) (st : workersState) (h : sequentialInv data n m st) :
    ∃ st2, (List.replicate ((data.Bounds.Max.X - data.Bounds.Min.X).toNat
          * (data.Bounds.Max.Y - data.Bounds.Min.Y).toNat + 2) m).foldlM
          (workersStep copyImg N us) st = some st2
      ∧ sequentialInv data n (m + 1) st2 := by
  obtain ⟨hinv, himg, hdone, hwait⟩ := h
  have hmlt : m < us.length := by omega
  have hm2 : us[m]? = some us[m] := List.getElem?_eq_getElem hmlt
  have hp : st.phases[m]? = some phase.waiting := hwait m (le_refl m) hm
  obtain ⟨hlt, -⟩ := List.getElem?_eq_some_iff.mp hp
  have hplen : st.phases.length = n := hinv.1
  -- the task can be taken
  have hen : ((st.phases.take m).all (fun p => decide (p ≠ phase.waiting))
      && decide ((st.phases.filter
          (fun p => decide (p ≠ phase.waiting ∧ p ≠ phase.done))).length < N)) = true := by
    have h1 : (st.phases.take m).all (fun p => decide (p ≠ phase.waiting)) = true := by
      rw [List.all_eq_true]
      intro x hx
      obtain ⟨i, hi⟩ := List.mem_iff_getElem?.mp hx
      rw [List.getElem?_take] at hi
      by_cases him : i < m
      · rw [if_pos him, hdone i him] at hi
        simp only [Option.some.injEq] at hi
        subst hi
        decide
      · rw [if_neg him] at hi
        simp at hi
    have h2 : st.phases.filter (fun p => decide (p ≠ phase.waiting ∧ p ≠ phase.done)) = [] := by
      rw [List.filter_eq_nil_iff]
      intro x hx
      obtain ⟨i, hi⟩ := List.mem_iff_getElem?.mp hx
      obtain ⟨hil, -⟩ := List.getElem?_eq_some_iff.mp hi
      by_cases him : i < m
      · rw [hdone i him] at hi
        simp only [Option.some.injEq] at hi
        subst hi
        decide
      · rw [hwait i (by omega) (by omega)] at hi
        simp only [Option.some.injEq] at hi
        subst hi
        decide
    rw [h1, h2]
    simp only [List.length_nil, Bool.true_and, decide_eq_true_eq]
    omega
  have hstart := workersStep_start copyImg N us st m us[m] hm2 hp hen
  have hex : ∃ st1, workersStep copyImg N us st m = some st1
      ∧ st1.cv.lrs.img = some data
      ∧ st1.phases = st.phases.set m (phase.writing 0) := by
    rcases hinv.2.2.2 with ⟨hg, hl, -⟩ | ⟨hg, -⟩
    · rw [if_pos hg, hl, hsrc _ (List.getElem_mem hmlt)] at hstart
      simp only [initLayers, Option.some_bind] at hstart
      exact ⟨_, hstart, rfl, rfl⟩
    · rw [hg] at hstart
      simp only [Bool.false_eq_true, if_false, Option.some_bind] at hstart
      exact ⟨_, hstart, himg hg, rfl⟩
  obtain ⟨st1, hs1, himg1, hph1⟩ := hex
  have hinv1 := (counterInv_step copyImg N us n hcol st st1 m hinv hs1).1
  obtain ⟨st2, hs2, hinv2, hg2, himg2, hph2⟩ :=
    sequential_turns copyImg N us n data hcol m us[m] hm2 _ 0 st1 (Nat.zero_add _) hinv1 himg1
      (by rw [hph1]; simp [hlt])
  refine ⟨st2, ?_, hinv2, fun _ => himg2, ?_, ?_⟩
  · rw [show (data.Bounds.Max.X - data.Bounds.Min.X).toNat
          * (data.Bounds.Max.Y - data.Bounds.Min.Y).toNat + 2
        = ((data.Bounds.Max.X - data.Bounds.Min.X).toNat
          * (data.Bounds.Max.Y - data.Bounds.Min.Y).toNat + 1) + 1 from rfl,
      List.replicate_succ, List.foldlM_cons, hs1]
    exact hs2
  · intro v hv
    rw [hph2, hph1, List.set_set, List.getElem?_set]
    by_cases hvm : m = v
    · rw [if_pos hvm, if_pos hlt]
    · rw [if_neg hvm]
      exact hdone v (by omega)
  · intro v hv hvn
    rw [hph2, hph1, List.set_set, List.getElem?_set, if_neg (by omega)]
    exact hwait v (by omega) hvn

/-- A single worker that runs the tasks one after the other brings all of them to their
end. -/
theorem sequential_run (copyImg : String → Option RGBA) (N : Nat) (hN : 1 ≤ N)
    (us : List task) (n : Nat) (hlen : us.length = n) (hn : 1 ≤ n) (data : RGBA)
    (hcol : ∀ v ∈ us, v.color = "R" ∨ v.color = "G" ∨ v.color = "B" ∨ v.color = "A")
    (hsrc : ∀ v ∈ us, copyImg v.file_in = some data) :
    ∃ st, workersRun copyImg N us (freshCanvas n)
        (sequentialSchedule n ((data.Bounds.Max.X - data.Bounds.Min.X).toNat
          * (data.Bounds.Max.Y - data.Bounds.Min.Y).toNat)) = some st
      ∧ ∀ p ∈ st.phases, p = phase.done := by
  have key : ∀ m, m ≤ n →
      ∃ st, (sequentialSchedule m ((data.Bounds.Max.X - data.Bounds.Min.X).toNat
          * (data.Bounds.Max.Y - data.Bounds.Min.Y).toNat)).foldlM (workersStep copyImg N us)
          ⟨freshCanvas n, List.replicate n phase.waiting, []⟩ = some st
        ∧ sequentialInv data n m st := by
    intro m
    induction m with
    | zero =>
      intro _
      refine ⟨_, rfl, counterInv_init n hn, ?_, ?_, ?_⟩
      · intro hg
        simp [freshCanvas] at hg
      · intro v hv
        omega
      · intro v _ hv
        show (List.replicate n phase.waiting)[v]? = some phase.waiting
        rw [List.getElem?_replicate, if_pos hv]
    | succ m ih =>
      intro hm
      obtain ⟨st, hs, hinv⟩ := ih (by omega)
      obtain ⟨st2, hs2, hinv2⟩ :=
        sequential_task copyImg N hN us n hlen data hcol hsrc m (by omega) st hinv
      refine ⟨st2, ?_, hinv2⟩
      unfold sequentialSchedule at hs ⊢
      rw [List.range_succ, List.flatMap_append, List.flatMap_singleton, List.foldlM_append, hs]
      exact hs2
  obtain ⟨st, hs, hinv⟩ := key n (le_refl n)
  refine ⟨st, ?_, ?_⟩
  · unfold workersRun
    rw [hlen]
    exact hs
  · intro p hp
    obtain ⟨i, hi⟩ := List.mem_iff_getElem?.mp hp
    obtain ⟨hil, -⟩ := List.getElem?_eq_some_iff.mp hi
    rw [hinv.2.2.1 i (by rw [← hinv.1.1]; exact hil)] at hi
    simp only [Option.some.injEq] at hi
    exact hi.symm

/-- A single worker running, by `Process`, the first tasks `pre` of an image whose counter
is `m`: it does not panic, the counter goes down by the number of the tasks, and an image
is pushed exactly when the counter has reached 0. -/
theorem Process_first (copyImg : String → Option RGBA) (data : RGBA) (fout : String)
    (pre : List task) (m : Nat) (hm : 1 ≤ m) (hle : pre.length ≤ m)
    (hus : ∀ u ∈ pre, copyImg u.file_in = some data ∧ u.file_out = fout
      ∧ (u.color = "R" ∨ u.color = "G" ∨ u.color = "B" ∨ u.color = "A")) :
    ∃ cvp outs, Process copyImg pre (freshCanvas m) = some (cvp, outs)
      ∧ cvp.counter = (m : Int) - (pre.length : Int)
      ∧ (pre.length = m → ∃ o, outs = [o]) ∧ (pre.length ≠ m → outs = []) := by
  cases pre with
  | nil =>
    refine ⟨freshCanvas m, [], rfl, by simp [freshCanvas], ?_, fun _ => rfl⟩
    intro h
    simp at h
    omega
  | cons u rest =>
    have hu := hus u (List.mem_cons_self _ _)
    have h1 : Process copyImg (u :: rest) (freshCanvas m)
        = processLoop copyImg (u :: rest) (⟨false, layersAfter data [], (m : Int)⟩, []) := by
      simp only [Process, processLoop, List.foldlM_cons, processTask_fresh copyImg data u _ hu.1]
    rw [h1, processLoop_allocated copyImg data fout (u :: rest) [] _ []
      (fun v hv => (hus v hv).2) (by exact_mod_cast hle)]
    refine ⟨_, _, rfl, rfl, ?_, ?_⟩
    · intro h
      have hc : (u :: rest) ≠ [] ∧ (((u :: rest).length : Nat) : Int) = (m : Int) :=
        ⟨by simp, by rw [h]⟩
      rw [if_pos hc]
      exact ⟨_, rfl⟩
    · intro h
      have hc : ¬ ((u :: rest) ≠ [] ∧ (((u :: rest).length : Nat) : Int) = (m : Int)) := by
        intro hc
        exact h (by exact_mod_cast hc.2)
      rw [if_neg hc]
      rfl

/-- C1: for a manifest line with `k ≥ 1` effect columns, `newTasks` emits `4 * k` tasks and
sets the counter to `4 * k`. Whatever the number of workers and the order in which they
take their steps (the taking of a task, one turn of the pixel loops of `convolute`, or
the decrement of the counter with the read of `ops_left`, and `flatten` and the push on 0,
as one step), every state they reach without a panic has the counter at `4 * k` minus the
number of the tasks that have decremented it, one image pushed when all the `4 * k` tasks
have decremented, and none pushed before. The counter and the output change only in the
step in which a task decrements: the task has done all the turns of its pixel loops, the
counter goes down by one, the value read is 0 exactly when all the `4 * k` tasks have
decremented, one image is pushed when the value read is 0 and none otherwise. When the
source image decodes no schedule panics, a single worker can bring all the tasks to their
end, and `Process`, run by one worker on the first tasks of any order of the `4 * k`
tasks, pushes one image when it has run all of them and none before. -/
theorem counter_last_unit (Join : String → String → String) (line path : String)
    (copyImg : String → Option RGBA) (k : Nat) (hk : 1 ≤ k)
    (hline : (Split line ',').length = k + 2) (N : Nat) :
    (newTasks Join line path).1.length = 4 * k
    ∧ (newTasks Join line path).2.counter = ((4 * k : Nat) : Int)
    ∧ (∀ (s : List Nat) (st : workersState),
        workersRun copyImg N (newTasks Join line path).1 (newTasks Join line path).2 s
          = some st →
        st.phases.length = 4 * k
        ∧ st.cv.counter = ((4 * k : Nat) : Int) - (st.phases.count phase.done : Int)
        ∧ ((∀ p ∈ st.phases, p = phase.done) → ∃ o, st.output = [o])
        ∧ (¬ (∀ p ∈ st.phases, p = phase.done) → st.output = []))
    ∧ (∀ (s : List Nat) (u : Nat) (st st2 : workersState),
        workersRun copyImg N (newTasks Join line path).1 (newTasks Join line path).2 s
          = some st →
        workersRun copyImg N (newTasks Join line path).1 (newTasks Join line path).2 (s ++ [u])
          = some st2 →
        ((st2.phases[u]? = some phase.done ∧ st.phases[u]? ≠ some phase.done) →
          (∃ data kk, st.cv.lrs.img = some data ∧ st.phases[u]? = some (phase.writing kk)
            ∧ (data.Bounds.Max.X - data.Bounds.Min.X).toNat
                * (data.Bounds.Max.Y - data.Bounds.Min.Y).toNat ≤ kk)
          ∧ st2.cv.counter = st.cv.counter - 1
          ∧ (st2.cv.counter = 0 ↔ ∀ p ∈ st2.phases, p = phase.done)
          ∧ (st2.cv.counter = 0 → ∃ o, st2.output = st.output ++ [o])
          ∧ (st2.cv.counter ≠ 0 → st2.output = st.output))
        ∧ (¬ (st2.phases[u]? = some phase.done ∧ st.phases[u]? ≠ some phase.done) →
          st2.cv.counter = st.cv.counter ∧ st2.output = st.output))
    ∧ ((∀ t ∈ (newTasks Join line path).1, ∃ data, copyImg t.file_in = some data) →
        (∀ s : List Nat, ∃ st,
          workersRun copyImg N (newTasks Join line path).1 (newTasks Join line path).2 s
            = some st)
        ∧ (1 ≤ N → ∃ (s : List Nat) (st : workersState),
          workersRun copyImg N (newTasks Join line path).1 (newTasks Join line path).2 s
            = some st
          ∧ ∀ p ∈ st.phases, p = phase.done)
        ∧ (∀ us pre rest : List task, us.Perm (newTasks Join line path).1 → us = pre ++ rest →
          ∃ cvp outs, Process copyImg pre (newTasks Join line path).2 = some (cvp, outs)
            ∧ cvp.counter = ((4 * k : Nat) : Int) - (pre.length : Int)
            ∧ (rest = [] → ∃ o, outs = [o]) ∧ (rest ≠ [] → outs = []))) := by
  rw [newTasks_eq]
  simp only
  have hk2 : (Split line ',').length - 2 = k := by omega
  rw [hk2]
  have hmem := emitted_mem Join path (Split line ',') k
  have hlen : (emitted Join path (Split line ',') k).length = 4 * k := emitted_length _ _ _ _
  generalize emitted Join path (Split line ',') k = us at hmem hlen
  have hcol : ∀ v ∈ us, v.color = "R" ∨ v.color = "G" ∨ v.color = "B" ∨ v.color = "A" :=
    fun v hv => (hmem v hv).2.2
  have hinit : counterInv (4 * k)
      ⟨freshCanvas ((4 * k : Nat) : Int), List.replicate us.length phase.waiting, []⟩ := by
    rw [hlen]
    exact counterInv_init (4 * k) (by omega)
  refine ⟨hlen, rfl, ?_, ?_, ?_⟩
  · intro s st hs
    have hinv := counterInv_run copyImg N us (4 * k) hcol s _ st hinit hs
    have hout := counterInv_output (4 * k) st hinv
    exact ⟨hinv.1, hinv.2.1, hout.1, hout.2⟩
  · intro s u st st2 hs hs2
    have hinv := counterInv_run copyImg N us (4 * k) hcol s _ st hinit hs
    unfold workersRun at hs hs2
    rw [foldlM_snoc, hs, Option.some_bind] at hs2
    obtain ⟨hinv2, hdec, hnot⟩ := counterInv_step copyImg N us (4 * k) hcol st st2 u hinv hs2
    refine ⟨fun hd => ?_, hnot⟩
    obtain ⟨f1, f2, f3, f4⟩ := hdec hd
    exact ⟨f1, f2, counterInv_zero (4 * k) st2 hinv2, f3, f4⟩
  · intro hsrc
    have hne : 0 < us.length := by omega
    obtain ⟨data, hdata⟩ := hsrc us[0] (List.getElem_mem hne)
    have hsrcd : ∀ v ∈ us, copyImg v.file_in = some data := by
      intro v hv
      rw [(hmem v hv).1, ← (hmem us[0] (List.getElem_mem hne)).1]
      exact hdata
    refine ⟨fun s => counterInv_total copyImg N us (4 * k) hcol hsrc s _ hinit, ?_, ?_⟩
    · intro hN
      obtain ⟨st, hs, hd⟩ :=
        sequential_run copyImg N hN us (4 * k) hlen (by omega) data hcol hsrcd
      exact ⟨_, st, hs, hd⟩
    · intro us2 pre rest hperm hsplit
      have hl2 : pre.length + rest.length = 4 * k := by
        rw [← hlen, ← hperm.length_eq, hsplit, List.length_append]
      obtain ⟨cvp, outs, hP, hc, h1, h2⟩ := Process_first copyImg data
        (processedField Join path (Split line ',') 1) pre (4 * k) (by omega) (by omega)
        (fun v hv => by
          have hv2 : v ∈ us := hperm.mem_iff.mp (by rw [hsplit]; exact List.mem_append_left _ hv)
          exact ⟨hsrcd v hv2, (hmem v hv2).2.1, (hmem v hv2).2.2⟩)
      refine ⟨cvp, outs, hP, hc, ?_, ?_⟩
      · intro hr
        apply h1
        rw [hr] at hl2
        simpa using hl2
      · intro hr
        apply h2
        have : 0 < rest.length := List.length_pos.mpr hr
        omega

/-- Witness of C1: for the line `a.png, out.png, B` on the 2 by 2 sample image, with two
workers whose steps alternate, the four tasks are done after 24 steps. After the first 23
steps three tasks have decremented, the counter is 1 and nothing is pushed; the last step
is the decrement of the task 2, which reads 0 and pushes the one image. -/
theorem counter_last_unit_witness :
    ∃ st st2,
      workersRun sampleCopyImg 2 (newTasks sampleJoin "a.png, out.png, B" "dir").1
          (newTasks sampleJoin "a.png, out.png, B" "dir").2
          [0, 1, 0, 1, 0, 1, 1, 0, 1, 0, 1, 0, 2, 3, 3, 2, 3, 2, 2, 3, 2, 3, 3] = some st
      ∧ workersRun sampleCopyImg 2 (newTasks sampleJoin "a.png, out.png, B" "dir").1
          (newTasks sampleJoin "a.png, out.png, B" "dir").2
          ([0, 1, 0, 1, 0, 1, 1, 0, 1, 0, 1, 0, 2, 3, 3, 2, 3, 2, 2, 3, 2, 3, 3] ++ [2])
          = some st2
      ∧ st.phases = [phase.done, phase.done, phase.writing 4, phase.done]
      ∧ st.cv.counter = 1 ∧ st.output = []
      ∧ st2.phases = [phase.done, phase.done, phase.done, phase.done]
      ∧ st2.cv.counter = 0 ∧ ∃ o, st2.output = [o] := by
  obtain ⟨-, -, hstate, hstep, hdecode⟩ :=
    counter_last_unit sampleJoin "a.png, out.png, B" "dir" sampleCopyImg 1 (le_refl 1)
      (by decide) 2
  obtain ⟨htotal, -, -⟩ := hdecode (fun _ _ => ⟨sampleImage, rfl⟩)
  obtain ⟨st, hs⟩ := htotal [0, 1, 0, 1, 0, 1, 1, 0, 1, 0, 1, 0, 2, 3, 3, 2, 3, 2, 2, 3, 2, 3, 3]
  obtain ⟨st2, hs2⟩ := htotal
    ([0, 1, 0, 1, 0, 1, 1, 0, 1, 0, 1, 0, 2, 3, 3, 2, 3, 2, 2, 3, 2, 3, 3] ++ [2])
  have p1 : (workersRun sampleCopyImg 2 (newTasks sampleJoin "a.png, out.png, B" "dir").1
      (newTasks sampleJoin "a.png, out.png, B" "dir").2
      [0, 1, 0, 1, 0, 1, 1, 0, 1, 0, 1, 0, 2, 3, 3, 2, 3, 2, 2, 3, 2, 3, 3]).map
        (fun s => s.phases)
      = some [phase.done, phase.done, phase.writing 4, phase.done] := by decide
  have p2 : (workersRun sampleCopyImg 2 (newTasks sampleJoin "a.png, out.png, B" "dir").1
      (newTasks sampleJoin "a.png, out.png, B" "dir").2
      ([0, 1, 0, 1, 0, 1, 1, 0, 1, 0, 1, 0, 2, 3, 3, 2, 3, 2, 2, 3, 2, 3, 3] ++ [2])).map
        (fun s => s.phases)
      = some [phase.done, phase.done, phase.done, phase.done] := by decide
  rw [hs] at p1
  rw [hs2] at p2
  simp only [Option.map_some', Option.some.injEq] at p1 p2
  obtain ⟨-, hc, -, hout⟩ := hstate _ st hs
  obtain ⟨hdec, -⟩ := hstep _ 2 st st2 hs hs2
  obtain ⟨-, hc2, hz, hpush, -⟩ := hdec (by rw [p1, p2]; decide)
  have hall : ∀ p ∈ st2.phases, p = phase.done := by
    rw [p2]
    decide
  have hc1 : st.cv.counter = 1 := by
    rw [hc, p1]
    decide
  have hout1 : st.output = [] := hout (by rw [p1]; decide)
  have hc0 : st2.cv.counter = 0 := hz.mpr hall
  obtain ⟨o, ho⟩ := hpush hc0
  rw [hout1] at ho
  exact ⟨st, st2, hs, hs2, p1, hc1, hout1, p2, hc0, o, ho⟩

end Editor
